import Mathlib

/-!
Verification development for the dynohot hot-module-replacement runtime
(`src/runtime/controller.ts`).  The controller's data model and the
`requestUpdate` / `dispatch` / `load` operations are embedded shallowly.
Helper modules of the repository that are not present under `src/`
(`traverse.ts`, `instance.ts`, `hot.ts`, `utility.ts`) are modelled from the
specification; each such definition carries a doc comment beginning
`Modelled from the spec:`.

Conventions of the embedding:
* Controllers and module instances are identified by natural numbers;
  instances live in a heap (`St.insts`) so that JavaScript object identity
  becomes identity of heap ids.
* Declarations are immutable and identified by ids in the environment
  `St.decls`.  The behaviour of user code (accept/decline registrations,
  whether `evaluate`/`dispose`/`prune`/accept callbacks throw) is a function
  of the declaration, recorded as fields of `Decl`.
* User-visible callback executions are recorded in an event log so that
  claims of the form "no user callback ran" are statable.
* Exceptions are modelled with `Except`, carrying the state at throw time.
* The single-threaded cooperative scheduler of the spec (§5) lets all
  `await`s be modelled as ordinary sequential composition.
* Recursion over the module graph is fuel-bounded; `requestUpdate` and
  `dispatch` take the fuel as an explicit parameter.
-/

/-- Errors that can be thrown inside the runtime: a user-code error
(identified by a numeric id), a link error carrying the offending instance,
or an internal assertion failure (`node:assert`). -/
inductive Err where
  | user (e : Nat)
  | link (i : Nat)
  | assertion
deriving Repr, DecidableEq

/-- Log of user-code executions: module body evaluation, dispose callbacks,
prune callbacks, dependency-accept callbacks and self-accept callbacks,
each tagged with the instance they ran against. -/
inductive Event where
  | evalBody (i : Nat)
  | disposeCb (i : Nat)
  | pruneCb (i : Nat)
  | acceptCb (i : Nat)
  | acceptSelfCb (i : Nat)
deriving Repr, DecidableEq

/-- `UpdateStats` of the source, without the wall-clock `duration`. -/
structure UpdateStats where
  loads : Nat
  reevaluations : Nat
deriving Repr, DecidableEq

/-- The `UpdateResult` union of the source.  `undefined` results are
modelled as `none : Option UpdateResult`. -/
inductive UpdateResult where
  | success (stats : UpdateStats)
  | unacceptedEvaluation (stats : UpdateStats)
  | declined (declined : List Nat)
  | unaccepted
  | evaluationFailure (error : Err) (stats : UpdateStats)
  | linkError (error : Err)
  | fatalError (error : Err)
deriving Repr, DecidableEq

/-- A module declaration (`ModuleDeclaration` of `declaration.ts`),
together with the behaviour of the user code it contains.
`loadedModules` are the static import edges (controller ids) and
`dynamicImports` the dynamically imported controllers the instance
observes.  The remaining fields summarise the hot-facade registrations and
the outcome of running the module's user callbacks; these parts are
modelled from the spec (§4.3) because `hot.ts` is not under `src/`. -/
structure Decl where
  loadedModules : List Nat := []
  dynamicImports : List Nat := []
  acceptsSelf : Bool := false
  acceptedDeps : List Nat := []
  declined : Bool := false
  invalidated : Bool := false
  linkOk : Bool := true
  evalError : Option Nat := none
  disposeError : Option Nat := none
  pruneError : Option Nat := none
  acceptCbOk : Bool := true
  acceptSelfCbOk : Bool := true
deriving Repr, DecidableEq

/-- Modelled from the spec: a `ReloadableModuleInstance` (§3, §4.2) holds
its declaration, its link state and its evaluation state.  The export
namespace itself is not modelled; only the observable link/evaluate state
is retained. -/
structure Instance where
  declId : Nat
  linked : Bool := false
  evaluated : Bool := false
  evaluationError : Option Nat := none
deriving Repr, DecidableEq

/-- The per-URL `ReloadableModuleController` slots (instance heap ids). -/
structure Controller where
  current : Option Nat := none
  pending : Option Nat := none
  previous : Option Nat := none
  staging : Option Nat := none
  temporary : Option Nat := none
  fatalError : Option Err := none
  version : Nat := 0
deriving Repr, DecidableEq

/-- Global runtime state: the declaration environment, the instance heap,
the controller table, the instance-id allocator, the user-event log, the
per-update statistics counters and the `instantiated` scratch list of the
link-test pass (a local array in the source, threaded through the state
here). -/
structure St where
  decls : Nat → Decl
  insts : Nat → Instance
  ctrls : Nat → Controller
  nextInst : Nat
  log : List Event
  statLoads : Nat
  statReevals : Nat
  scratch : List Nat

instance : Inhabited St :=
  ⟨{ decls := fun _ => {}, insts := fun _ => { declId := 0 },
     ctrls := fun _ => {}, nextInst := 0, log := [], statLoads := 0,
     statReevals := 0, scratch := [] }⟩

def St.updCtrl (s : St) (n : Nat) (f : Controller → Controller) : St :=
  { s with ctrls := fun m => if m = n then f (s.ctrls m) else s.ctrls m }

def St.updInst (s : St) (i : Nat) (f : Instance → Instance) : St :=
  { s with insts := fun j => if j = i then f (s.insts j) else s.insts j }

def St.push (s : St) (e : Event) : St :=
  { s with log := s.log ++ [e] }

/-- Declaration of the instance `i`. -/
def St.declOf (s : St) (i : Nat) : Decl :=
  s.decls (s.insts i).declId

/-- Allocate a fresh (unlinked, unevaluated) instance of declaration `d`. -/
def St.allocInst (s : St) (d : Nat) : Nat × St :=
  (s.nextInst,
   { s with nextInst := s.nextInst + 1,
            insts := fun j => if j = s.nextInst then { declId := d } else s.insts j })

/-- Modelled from the spec: `instantiate` (§4.2) allocates fresh exports;
observably it resets the link/evaluation state.  The optional dispose data
payload has no observable effect in this model and is dropped. -/
def instantiateInst (s : St) (i : Nat) : St :=
  s.updInst i fun t => { t with linked := false, evaluated := false, evaluationError := none }

/-- Modelled from the spec: `link` (§4.2) binds every imported name and
fails with a link error on unresolved names/ambiguity.  Whether linking of
an instance succeeds is abstracted by the `linkOk` flag of its
declaration; the resolver selector passed by callers is recorded at the
call sites as named selector definitions. -/
def linkInst (s : St) (i : Nat) : Except (Err × St) St :=
  if (s.declOf i).linkOk then .ok (s.updInst i fun t => { t with linked := true })
  else .error (.link i, s)

/-- Modelled from the spec: `relink` re-binds live names assuming the graph
structure is unchanged (§4.2); it is total in this model. -/
def relinkInst (s : St) (i : Nat) : St :=
  s.updInst i fun t => { t with linked := true }

/-- Modelled from the spec: `unlink` releases bindings and returns whether
the caller should forget the slot (§4.2); the spec leaves the returned flag
under-determined, here it is `true` iff the instance never evaluated. -/
def unlinkInst (s : St) (i : Nat) : Bool × St :=
  (!(s.insts i).evaluated, s.updInst i fun t => { t with linked := false })

/-- Modelled from the spec: `clone` returns a fresh instance sharing the
declaration (§4.2). -/
def cloneInst (s : St) (i : Nat) : Nat × St :=
  s.allocInst (s.insts i).declId

/-- Modelled from the spec: `evaluate` drives the body to completion; the
post-state is always `evaluated`, discriminated by the error slot (§4.2).
Re-evaluating an already-evaluated instance is a no-op.  Running the body
is logged as a user-code event. -/
def evaluateInst (s : St) (i : Nat) : Except (Err × St) St :=
  if (s.insts i).evaluated then .ok s else
    let s1 := s.push (.evalBody i)
    match (s1.declOf i).evalError with
    | none => .ok (s1.updInst i fun t => { t with evaluated := true })
    | some e => .error (.user e, s1.updInst i fun t => { t with evaluated := true, evaluationError := some e })

/-- Modelled from the spec: `isAccepted(instance, changedDeps)` (§4.3) —
every changed dependency is covered by a bare `accept()` or a specific
`accept(dep)`. -/
def isAccepted (s : St) (i : Nat) (changed : List Nat) : Bool :=
  changed.all fun d => (s.declOf i).acceptsSelf || (s.declOf i).acceptedDeps.contains d

/-- Modelled from the spec: `isAcceptedSelf` (§4.3). -/
def isAcceptedSelf (s : St) (i : Nat) : Bool :=
  (s.declOf i).acceptsSelf

/-- Modelled from the spec: `isDeclined` (§4.3). -/
def isDeclined (s : St) (i : Nat) : Bool :=
  (s.declOf i).declined

/-- Modelled from the spec: `isInvalidated` (§4.3). -/
def isInvalidated (s : St) (i : Nat) : Bool :=
  (s.declOf i).invalidated

/-- Modelled from the spec: `tryAccept` runs the registered accept
callbacks and returns `false` iff a changed dependency is uncovered, a
callback threw, or an invalidation was raised (§4.3).  The callback run is
logged. -/
def tryAccept (s : St) (i : Nat) (changed : List Nat) : Bool × St :=
  (isAccepted s i changed && (s.declOf i).acceptCbOk, s.push (.acceptCb i))

/-- Modelled from the spec: `tryAcceptSelf` runs the self-accept callback
with the new namespace; with no self-accept registered it returns `false`
without running user code (§4.3). -/
def tryAcceptSelf (s : St) (i : Nat) : Bool × St :=
  if (s.declOf i).acceptsSelf then ((s.declOf i).acceptSelfCbOk, s.push (.acceptSelfCb i))
  else (false, s)

/-- Modelled from the spec: `dispose` runs the dispose callbacks and
returns the carry-over payload (dropped here); a throw is classified as
fatal by the caller, hence the error carries the fatal flag (§4.3, §4.4
phase 3 step 3). -/
def disposeInst (s : St) (i : Nat) : Except ((Bool × Err) × St) St :=
  let s1 := s.push (.disposeCb i)
  match (s1.declOf i).disposeError with
  | none => .ok s1
  | some e => .error ((true, .user e), s1)

/-- Modelled from the spec: `prune` runs the prune callbacks of a
permanently removed module (§4.3). -/
def pruneInst (s : St) (i : Nat) : Except (Err × St) St :=
  let s1 := s.push (.pruneCb i)
  match (s1.declOf i).pruneError with
  | none => .ok s1
  | some e => .error (.user e, s1)

/-- State of the fueled iterative Tarjan traversal: next DFS index,
per-node index/lowlink/on-stack scratch, the Tarjan stack, the list of
nodes in the order they were first visited (`entered`), and the emitted
strongly connected components in post order (`sccs`). -/
structure TarjanState where
  idx : Nat
  indexOf : Nat → Option Nat
  lowOf : Nat → Nat
  onStack : Nat → Bool
  stack : List Nat
  entered : List Nat
  sccs : List (List Nat)

/-- Work items of the iterative Tarjan driver: enter a node, continue with
the remaining edges of a node, or fold a finished child's lowlink into its
parent before continuing with the parent's remaining edges. -/
inductive TTask where
  | enter (v : Nat)
  | edges (v : Nat) (ws : List Nat)
  | lift (v : Nat) (w : Nat) (ws : List Nat)

/-- Elements of the Tarjan stack down to and including `v`. -/
def takeToMark (v : Nat) : List Nat → List Nat
  | [] => []
  | x :: xs => if x = v then [v] else x :: takeToMark v xs

/-- The Tarjan stack with the group of `v` popped off. -/
def dropToMark (v : Nat) : List Nat → List Nat
  | [] => []
  | x :: xs => if x = v then xs else dropToMark v xs

def tarjanInit : TarjanState :=
  { idx := 0, indexOf := fun _ => none, lowOf := fun _ => 0,
    onStack := fun _ => false, stack := [], entered := [], sccs := [] }

/-- Modelled from the spec: the DFS/SCC core of `traverseDepthFirst`
(§4.1), as an iterative, fuel-bounded Tarjan algorithm.  Each step consumes
one unit of fuel; with ample fuel the result is the ordinary Tarjan
decomposition reachable from the initial task list, with SCCs emitted in
dependency post order and members listed in discovery order. -/
def tarjanStep (children : Nat → List Nat) : Nat → List TTask → TarjanState → TarjanState
  | 0, _, ts => ts
  | _ + 1, [], ts => ts
  | fuel + 1, task :: rest, ts =>
    match task with
    | .enter v =>
      match ts.indexOf v with
      | some _ => tarjanStep children fuel rest ts
      | none =>
        let i := ts.idx
        let ts1 : TarjanState :=
          { ts with idx := i + 1,
                    indexOf := fun u => if u = v then some i else ts.indexOf u,
                    lowOf := fun u => if u = v then i else ts.lowOf u,
                    onStack := fun u => if u = v then true else ts.onStack u,
                    stack := v :: ts.stack,
                    entered := ts.entered ++ [v] }
        tarjanStep children fuel (.edges v (children v) :: rest) ts1
    | .edges v [] =>
      if ts.lowOf v = (ts.indexOf v).getD 0 then
        let grp := takeToMark v ts.stack
        let ts1 : TarjanState :=
          { ts with stack := dropToMark v ts.stack,
                    onStack := fun u => if grp.contains u then false else ts.onStack u,
                    sccs := ts.sccs ++ [grp.reverse] }
        tarjanStep children fuel rest ts1
      else tarjanStep children fuel rest ts
    | .edges v (w :: ws) =>
      match ts.indexOf w with
      | none => tarjanStep children fuel (.enter w :: .lift v w ws :: rest) ts
      | some wi =>
        if ts.onStack w then
          tarjanStep children fuel (.edges v ws :: rest)
            { ts with lowOf := fun u => if u = v then min (ts.lowOf v) wi else ts.lowOf u }
        else tarjanStep children fuel (.edges v ws :: rest) ts
    | .lift v w ws =>
      tarjanStep children fuel (.edges v ws :: rest)
        { ts with lowOf := fun u => if u = v then min (ts.lowOf v) (ts.lowOf w) else ts.lowOf u }

/-- The two outputs of a traversal that are determined purely by the child
function: the visit (pre) order and the SCC decomposition. -/
structure TravInfo where
  entered : List Nat
  sccs : List (List Nat)
deriving Repr, DecidableEq

def tarjanOut (children : Nat → List Nat) (fuel root : Nat) : TravInfo :=
  let ts := tarjanStep children fuel [.enter root] tarjanInit
  ⟨ts.entered, ts.sccs⟩

/-- Index of the SCC containing `n` in the SCC list. -/
def sccIdxOf (all : List (List Nat)) (n : Nat) : Option Nat :=
  all.findIdx? fun g => g.contains n

def dedupKeepFirst (l : List Nat) : List Nat :=
  l.foldl (fun acc x => if acc.contains x then acc else acc ++ [x]) []

/-- Indices of the distinct successor SCCs of the SCC at position `k`. -/
def succIdxs (all : List (List Nat)) (chPure : Nat → List Nat) (k : Nat)
    (scc : List Nat) : List Nat :=
  dedupKeepFirst (((scc.flatMap chPure).filterMap (sccIdxOf all)).filter fun j => j ≠ k)

/-- Modelled from the spec: apply `visitPre` to every visited node, in
visit order, first checking the node's `select` assertions via `guard`
(§4.1); a failed guard models the `assert.ok` throw inside the selector. -/
def runPreE {ε : Type} (guard : Nat → St → Bool) (pre : Nat → St → St) (ae : ε) :
    List Nat → St → Except (ε × St) St
  | [], s => .ok s
  | n :: ns, s => if guard n s then runPreE guard pre ae ns (pre n s) else .error (ae, s)

/-- Modelled from the spec: fold `visitPost` over the SCCs in dependency
post order, handing each SCC the post-results of its distinct successor
SCCs (§4.1).  On a throw the error also reports the SCCs that were not yet
post-visited so the driver can run `onCancel`. -/
def goPosts {ρ ε : Type} (post : List Nat → List ρ → St → Except (ε × St) (ρ × St))
    (all : List (List Nat)) (chPure : Nat → List Nat) :
    List (List Nat) → List ρ → St → Except (ε × List (List Nat) × St) (List ρ × St)
  | [], acc, s => .ok (acc, s)
  | scc :: restSccs, acc, s =>
    let fwd := (succIdxs all chPure acc.length scc).filterMap fun j => acc.get? j
    match post scc fwd s with
    | .error (e, s1) => .error (e, scc :: restSccs, s1)
    | .ok (r, s1) => goPosts post all chPure restSccs (acc ++ [r]) s1

/-- Modelled from the spec: `traverseDepthFirst(root, getState, visitPre,
visitPost, onCancel?)` (§4.1).  Realised in two stages: the SCC
decomposition is computed from the child function (read, per node, after
that node's pre effect, which is how the source's selectors observe the
slots `visitPre` just assigned), then `visitPre` is applied over the visit
order and `visitPost` is folded over the SCCs.  `visitPre` side effects are
thus applied to the whole visited set before the first post; all pre
effects of the source touch only the visited node's own slots, which the
child functions of other nodes never read, so this staging is observably
equivalent for the uses in `controller.ts`.  On a post throw, `onCancel`
runs over the nodes of the SCCs that were not post-visited (including the
throwing SCC).  The result of the root's SCC is the last post result. -/
def travResult {ρ ε : Type} (guard : Nat → St → Bool) (pre : Nat → St → St)
    (post : List Nat → List ρ → St → Except (ε × St) (ρ × St))
    (onCancel : List Nat → St → St) (ae : ε) (entered : List Nat)
    (sccs : List (List Nat)) (chPure : Nat → List Nat) (s : St) :
    Except (ε × St) (Option ρ × St) :=
  match runPreE guard pre ae entered s with
  | .error es => .error es
  | .ok s1 =>
    match goPosts post sccs chPure sccs [] s1 with
    | .error (e, remaining, s2) => .error (e, onCancel remaining.flatten s2)
    | .ok (acc, s2) => .ok (acc.getLast?, s2)

def traverseDF {ρ ε : Type} (fuel root : Nat) (guard : Nat → St → Bool)
    (pre : Nat → St → St) (children : Nat → St → List Nat)
    (post : List Nat → List ρ → St → Except (ε × St) (ρ × St))
    (onCancel : List Nat → St → St) (ae : ε) (s : St) :
    TravInfo × Except (ε × St) (Option ρ × St) :=
  let chPure : Nat → List Nat := fun n => children n (pre n s)
  let tj := tarjanOut chPure fuel root
  (tj, travResult guard pre post onCancel ae tj.entered tj.sccs chPure s)

/-- The default selector `selectCurrent` of the source. -/
def selectCurrent (c : Controller) : Option Nat := c.current

/-- Static children listed by the instance chosen by a selector
(`iterate` of the source: the `loadedModules` of the selected instance). -/
def childListVia (s : St) (oi : Option Nat) : List Nat :=
  match oi with
  | none => []
  | some i => (s.declOf i).loadedModules

/-- Dynamic children observed by the instance chosen by a selector
(`iterateWithDynamics` of the source). -/
def dynListVia (s : St) (oi : Option Nat) : List Nat :=
  match oi with
  | none => []
  | some i => (s.declOf i).dynamicImports

/-- `this.traverse()` of the source: depth-first walk over the current
view, yielding every controller first reached through an edge (the root
itself only if an edge leads back to it).  Expanding a node asserts its
`current` instance. -/
def travChildren (s : St) (i : Nat) : List Nat :=
  (s.declOf i).loadedModules ++ (s.declOf i).dynamicImports

/-- Mark the unvisited ones among `cs`, in order. -/
def markNew : List Nat → List Nat → List Nat × List Nat
  | [], vis => ([], vis)
  | c :: cs, vis =>
    if vis.contains c then markNew cs vis
    else
      let r := markNew cs (vis ++ [c])
      (c :: r.1, r.2)

def travGo (s : St) : Nat → List Nat → List Nat → Except Err (List Nat)
  | 0, _, visited => .ok visited
  | _ + 1, [], visited => .ok visited
  | fuel + 1, n :: rest, visited =>
    match (s.ctrls n).current with
    | none => .error .assertion
    | some i =>
      let r := markNew (travChildren s i) visited
      travGo s fuel (r.1 ++ rest) r.2

/-- `Array.from(this.traverse())`: the list of controllers reachable from
`root` through at least one edge of the current view. -/
def traverseList (fuel : Nat) (s : St) (root : Nat) : Except Err (List Nat) :=
  travGo s fuel [root] []

/-- Result record of the phase-1 dry-run traversal (`DryRunResult` of the
source). -/
inductive DryRunResult where
  | mk (forwardResults : List DryRunResult) (declined : List Nat)
       (invalidated : List Nat) (hasDecline : Bool) (hasNewCode : Bool)
       (needsDispatch : Bool)

def DryRunResult.forwardResults : DryRunResult → List DryRunResult
  | .mk f _ _ _ _ _ => f

def DryRunResult.declined : DryRunResult → List Nat
  | .mk _ d _ _ _ _ => d

def DryRunResult.invalidated : DryRunResult → List Nat
  | .mk _ _ i _ _ _ => i

def DryRunResult.hasDecline : DryRunResult → Bool
  | .mk _ _ _ h _ _ => h

def DryRunResult.hasNewCode : DryRunResult → Bool
  | .mk _ _ _ _ h _ => h

def DryRunResult.needsDispatch : DryRunResult → Bool
  | .mk _ _ _ _ _ n => n

mutual

/-- The flattening of `declined` lists used for the `declined` update
result (the inner `traverse` generator at the result check). -/
def DryRunResult.flattenDeclined : DryRunResult → List Nat
  | .mk fwd dec _ _ _ _ => dec ++ flattenDeclinedList fwd

def flattenDeclinedList : List DryRunResult → List Nat
  | [] => []
  | r :: rs => r.flattenDeclined ++ flattenDeclinedList rs

end

/-- Phase-1 static-child selector: `controller => controller.pending`. -/
def dryRunSelect (c : Controller) : Option Nat := c.pending

/-- Phase-1 dynamic-child selector:
`controller => controller.previous ?? controller.pending`. -/
def dryRunSelectDynamic (c : Controller) : Option Nat := c.previous <|> c.pending

/-- Child iteration of the dry run (`iterateWithDynamics` with the phase-1
selectors, both applied to the node being expanded). -/
def dryRunChildren (n : Nat) (s : St) : List Nat :=
  childListVia s (dryRunSelect (s.ctrls n)) ++ dynListVia s (dryRunSelectDynamic (s.ctrls n))

/-- Guard for `node.select()` inside the phase-1 pre visitor. -/
def dryRunGuard (n : Nat) (s : St) : Bool :=
  ((s.ctrls n).staging <|> (s.ctrls n).current).isSome

/-- Phase-1 pre visitor: `node.pending = node.staging ?? node.select();
node.previous = node.current`. -/
def dryRunPre (n : Nat) (s : St) : St :=
  s.updCtrl n fun c => { c with pending := c.staging <|> c.current, previous := c.current }

/-- The filtering loop of the phase-1 post visitor, returning
`(invalidated, needsDispatch, hasNewCode)` for the members of one SCC. -/
def dryRunScan (s : St) (fwdUpdates : List Nat) : List Nat → List Nat × Bool × Bool
  | [] => ([], false, false)
  | n :: ns =>
    let rest := dryRunScan s fwdUpdates ns
    let c := s.ctrls n
    let hasNew := decide (c.previous ≠ c.pending)
    let cond := hasNew ||
      (match c.current with
       | none => true
       | some i => isInvalidated s i || !isAccepted s i fwdUpdates)
    let incl :=
      match c.current with
      | none => true
      | some i => !isAcceptedSelf s i
    ((if cond && incl then n :: rest.1 else rest.1), cond || rest.2.1, hasNew || rest.2.2)

/-- Phase-1 post visitor (the dry-run SCC computation). -/
def dryRunPost (cycle : List Nat) (fwd : List DryRunResult) (s : St) :
    Except (Err × St) (DryRunResult × St) :=
  let fwdUpdates := fwd.flatMap DryRunResult.invalidated
  let r := dryRunScan s fwdUpdates cycle
  let dec := r.1.filter fun n =>
    match (s.ctrls n).current with
    | some i => isDeclined s i
    | none => false
  .ok (⟨fwd, dec, r.1,
        !dec.isEmpty || fwd.any DryRunResult.hasDecline,
        r.2.2 || fwd.any DryRunResult.hasNewCode,
        r.2.1 || fwd.any DryRunResult.needsDispatch⟩, s)

/-- Phase-1 `onCancel`: clear `pending` and `previous` of the pending
nodes. -/
def dryRunOnCancel (ns : List Nat) (s : St) : St :=
  ns.foldl (fun s n => s.updCtrl n fun c => { c with pending := none, previous := none }) s

/-- The phase-1 dry-run traversal of `requestUpdate`. -/
def phase1Run (fuel root : Nat) (s : St) :
    TravInfo × Except (Err × St) (Option DryRunResult × St) :=
  traverseDF fuel root dryRunGuard dryRunPre dryRunChildren dryRunPost dryRunOnCancel .assertion s

/-- The rollback routine of `requestUpdate`: clear `pending`/`previous` on
every controller collected by the dry run (`nextControllers`). -/
def rollbackCtrls (ns : List Nat) (s : St) : St :=
  ns.foldl (fun s n => s.updCtrl n fun c => { c with pending := none, previous := none }) s

/-- Phase-2 static-child selector: `controller => controller.pending`. -/
def linkTestSelect (c : Controller) : Option Nat := c.pending

/-- Phase-2 dynamic-child selector:
`controller => controller.previous ?? controller.pending`. -/
def linkTestSelectDynamic (c : Controller) : Option Nat := c.previous <|> c.pending

/-- The selector passed to `temporary.link` in phase 2:
`controller => controller.temporary ?? controller.pending`. -/
def linkTestLinkSelector (c : Controller) : Option Nat := c.temporary <|> c.pending

/-- Child iteration of the link test. -/
def linkTestChildren (n : Nat) (s : St) : List Nat :=
  childListVia s (linkTestSelect (s.ctrls n)) ++ dynListVia s (linkTestSelectDynamic (s.ctrls n))

def linkTestGuard (n : Nat) (s : St) : Bool :=
  (s.ctrls n).pending.isSome

/-- Phase-2 first loop: clone each member's pending instance into
`temporary`, instantiate it, and record the node in the `instantiated`
list (the `scratch` of the state). -/
def instantiateTempsLoop : List Nat → St → Except (Err × St) St
  | [], s => .ok s
  | n :: ns, s =>
    match (s.ctrls n).pending with
    | none => .error (.assertion, s)
    | some p =>
      let r := cloneInst s p
      let s1 := (r.2.updCtrl n fun c => { c with temporary := some r.1 })
      let s2 := instantiateInst s1 r.1
      instantiateTempsLoop ns { s2 with scratch := s2.scratch ++ [n] }

/-- Phase-2 second loop: link each member's temporary instance (with the
resolver `linkTestLinkSelector`, whose outcome the model abstracts by the
declaration's `linkOk`). -/
def linkTempsLoop : List Nat → St → Except (Err × St) St
  | [], s => .ok s
  | n :: ns, s =>
    match (s.ctrls n).temporary with
    | none => .error (.assertion, s)
    | some t =>
      match linkInst s t with
      | .error es => .error es
      | .ok s1 => linkTempsLoop ns s1

/-- Phase-2 post visitor: an SCC has an update if a successor reported one
or some member's pending instance differs from its current one; if so its
members are clone-instantiated into `temporary` and link-tested. -/
def linkTestPost (cycle : List Nat) (fwd : List Bool) (s : St) :
    Except (Err × St) (Bool × St) :=
  let hasUpdate := fwd.any id || cycle.any fun n => (s.ctrls n).pending ≠ (s.ctrls n).current
  if hasUpdate then
    match instantiateTempsLoop cycle s with
    | .error es => .error es
    | .ok s1 =>
      match linkTempsLoop cycle s1 with
      | .error es => .error es
      | .ok s2 => .ok (true, s2)
  else .ok (false, s)

/-- The phase-2 link-test traversal (no `onCancel` in the source call). -/
def phase2Run (fuel root : Nat) (s : St) :
    TravInfo × Except (Err × St) (Option Bool × St) :=
  traverseDF fuel root linkTestGuard (fun _ s => s) linkTestChildren linkTestPost
    (fun _ s => s) .assertion s

/-- The `finally` of phase 2: unlink and clear the `temporary` of every
node in the `instantiated` list. -/
def clearTempsLoop : List Nat → St → St
  | [], s => s
  | n :: ns, s =>
    match (s.ctrls n).temporary with
    | none => clearTempsLoop ns s
    | some t =>
      let r := unlinkInst s t
      clearTempsLoop ns (r.2.updCtrl n fun c => { c with temporary := none })

def phase2Finally (s : St) : St :=
  clearTempsLoop s.scratch s

/-- The whole phase-2 segment of `requestUpdate`: skipped unless the dry
run reported new code; on a throw the catch rolls back `pending`/`previous`
and produces the `linkError` result, and the `finally` clears temporaries
on both paths.  An `.error` value means `requestUpdate` returns that
result. -/
def linkTestSegment (fuel root : Nat) (hasNewCode : Bool) (join1 : List Nat) (s : St) :
    Except (UpdateResult × St) St :=
  if hasNewCode then
    match (phase2Run fuel root s).2 with
    | .ok r => .ok (phase2Finally r.2)
    | .error (e, s1) => .error (.linkError e, phase2Finally (rollbackCtrls join1 s1))
  else .ok s

/-- Result record of the phase-3 commit traversal (`RunResult` of the
source). -/
inductive RunResult where
  | mk (forwardResults : List RunResult) (invalidated : List Nat)
       (treeDidUpdate : Bool)

def RunResult.forwardResults : RunResult → List RunResult
  | .mk f _ _ => f

def RunResult.invalidated : RunResult → List Nat
  | .mk _ i _ => i

def RunResult.treeDidUpdate : RunResult → Bool
  | .mk _ _ t => t

/-- Phase-3 static-child selector: `controller => controller.pending`. -/
def commitSelect (c : Controller) : Option Nat := c.pending

/-- Phase-3 dynamic-child selector:
`controller => controller.previous ?? node.pending` — note the source
falls back to the captured `node`'s pending, not the argument's. -/
def commitSelectDynamic (node c : Controller) : Option Nat := c.previous <|> node.pending

/-- Child iteration of the commit traversal; both selectors are applied by
`iterateWithDynamics` to the node being expanded, so the captured `node`
of `commitSelectDynamic` coincides with its argument. -/
def commitChildren (n : Nat) (s : St) : List Nat :=
  childListVia s (commitSelect (s.ctrls n)) ++
    dynListVia s (commitSelectDynamic (s.ctrls n) (s.ctrls n))

def commitGuard (n : Nat) (s : St) : Bool :=
  (s.ctrls n).pending.isSome

/-- Phase-3 error type: the `Err` plus the flag recording that the throw
came from a user `dispose` (the `dispatchLinkErrorType` local of the
source). -/
abbrev CommitErr := Bool × Err

/-- Check whether any SCC member needs an update due to new code:
`node.staging !== undefined || isInvalidated(node.select())`. -/
def needsUpdateScan (s : St) : List Nat → Except (CommitErr × St) Bool
  | [] => .ok false
  | n :: ns =>
    match (s.ctrls n).staging with
    | some _ => .ok true
    | none =>
      match (s.ctrls n).current with
      | none => .error ((false, .assertion), s)
      | some i => if isInvalidated s i then .ok true else needsUpdateScan s ns

/-- When a successor updated but no member has new code: relink every
member and run its accept callbacks, stopping at the first that fails. -/
def relinkAcceptLoop (fwdUpdates : List Nat) : List Nat → St → Except (CommitErr × St) (Bool × St)
  | [], s => .ok (false, s)
  | n :: ns, s =>
    match (s.ctrls n).current with
    | none => .error ((false, .assertion), s)
    | some i =>
      let s1 := relinkInst s i
      let r := tryAccept s1 i fwdUpdates
      if r.1 then relinkAcceptLoop fwdUpdates ns r.2 else .ok (true, r.2)

/-- The no-update commit: assert `current === pending` and clear
`pending` on every member. -/
def commitCheckLoop : List Nat → St → Except (CommitErr × St) St
  | [], s => .ok s
  | n :: ns, s =>
    if (s.ctrls n).current = (s.ctrls n).pending then
      commitCheckLoop ns (s.updCtrl n fun c => { c with pending := none })
    else .error ((false, .assertion), s)

/-- Phase-3 step 1: dispose the old instance (a throw here is fatal), then
replace `current` by `pending` — cloning when they are the same instance —
and instantiate it with the dispose data. -/
def instantiateLoop : List Nat → St → Except (CommitErr × St) St
  | [], s => .ok s
  | n :: ns, s =>
    match (s.ctrls n).pending with
    | none => .error ((false, .assertion), s)
    | some p =>
      let step : Except ((Bool × Err) × St) St :=
        match (s.ctrls n).current with
        | none => .ok s
        | some i => disposeInst s i
      match step with
      | .error es => .error es
      | .ok s1 =>
        match (s1.ctrls n).current with
        | some i =>
          if i = p then
            let r := cloneInst s1 i
            let s2 := r.2.updCtrl n fun c => { c with current := some r.1 }
            instantiateLoop ns (instantiateInst s2 r.1)
          else
            let s2 := s1.updCtrl n fun c => { c with current := some p }
            instantiateLoop ns (instantiateInst s2 p)
        | none =>
          let s2 := s1.updCtrl n fun c => { c with current := some p }
          instantiateLoop ns (instantiateInst s2 p)

/-- Phase-3 step 2: link every member's new current instance. -/
def linkLoop3 : List Nat → St → Except (CommitErr × St) St
  | [], s => .ok s
  | n :: ns, s =>
    match (s.ctrls n).current with
    | none => .error ((false, .assertion), s)
    | some i =>
      match linkInst s i with
      | .error (e, s1) => .error ((false, e), s1)
      | .ok s1 => linkLoop3 ns s1

/-- Modelled from the spec: the rollback of the `iterateWithRollback`
wrapper around evaluation — for every yielded member (asserted to be in
evaluated state) whose instance has `evaluationError` set, revert
`current` to `previous`. -/
def rollbackEvalSeen : List Nat → St → Except (CommitErr × St) St
  | [], s => .ok s
  | n :: ns, s =>
    match (s.ctrls n).current with
    | none => .error ((false, .assertion), s)
    | some i =>
      if !(s.insts i).evaluated then .error ((false, .assertion), s)
      else if (s.insts i).evaluationError ≠ none then
        rollbackEvalSeen ns (s.updCtrl n fun c => { c with current := c.previous })
      else rollbackEvalSeen ns s

/-- Increment `reevaluations` when the new declaration equals the previous
one, `loads` otherwise. -/
def countStat (n i : Nat) (s : St) : St :=
  match (s.ctrls n).previous with
  | some q =>
    if (s.insts i).declId = (s.insts q).declId then { s with statReevals := s.statReevals + 1 }
    else { s with statLoads := s.statLoads + 1 }
  | none => { s with statLoads := s.statLoads + 1 }

/-- Phase-3 step 3: evaluate members sequentially under the
iterate-with-rollback wrapper; after a successful evaluation clear
`pending` and adopt out of `staging`. -/
def evalLoop : List Nat → List Nat → St → Except (CommitErr × St) St
  | _, [], s => .ok s
  | seen, n :: ns, s =>
    match (s.ctrls n).current with
    | none =>
      match rollbackEvalSeen (seen ++ [n]) s with
      | .error es => .error es
      | .ok s1 => .error ((false, .assertion), s1)
    | some i =>
      let s1 := countStat n i s
      match evaluateInst s1 i with
      | .error (e, s2) =>
        match rollbackEvalSeen (seen ++ [n]) s2 with
        | .error es => .error es
        | .ok s3 => .error ((false, e), s3)
      | .ok s2 =>
        let s3 := s2.updCtrl n fun c => { c with pending := none }
        let s4 :=
          if (s3.ctrls n).staging = some i then
            s3.updCtrl n fun c => { c with staging := none }
          else s3
        evalLoop (seen ++ [n]) ns s4

/-- Phase-3 step 4: try self-accept on every member that has a previous
instance; members whose previous instance does not self-accept are
collected as invalidated. -/
def selfAcceptLoop : List Nat → List Nat → St → Except (CommitErr × St) (List Nat × St)
  | [], inv, s => .ok (inv, s)
  | n :: ns, inv, s =>
    match (s.ctrls n).previous with
    | none => selfAcceptLoop ns inv s
    | some q =>
      match (s.ctrls n).current with
      | none => .error ((false, .assertion), s)
      | some _ =>
        let r := tryAcceptSelf s q
        if r.1 then selfAcceptLoop ns inv r.2 else selfAcceptLoop ns (inv ++ [n]) r.2

/-- Phase-3 post visitor: decide whether the SCC must be replaced and, if
so, dispose/instantiate, link, evaluate with rollback and try self-accept
(lines 617-706 of `controller.ts`). -/
def commitPost (cycle : List Nat) (fwd : List RunResult) (s : St) :
    Except (CommitErr × St) (RunResult × St) :=
  match needsUpdateScan s cycle with
  | .error es => .error es
  | .ok needs0 =>
    let tdu := fwd.any RunResult.treeDidUpdate
    let fwdUpdates := fwd.flatMap RunResult.invalidated
    let afterRelink : Except (CommitErr × St) (Bool × St) :=
      if tdu && !needs0 then relinkAcceptLoop fwdUpdates cycle s else .ok (needs0, s)
    match afterRelink with
    | .error es => .error es
    | .ok (needsUpdate, s1) =>
      if !needsUpdate then
        match commitCheckLoop cycle s1 with
        | .error es => .error es
        | .ok s2 => .ok (⟨fwd, [], tdu⟩, s2)
      else
        match instantiateLoop cycle s1 with
        | .error es => .error es
        | .ok s2 =>
          match linkLoop3 cycle s2 with
          | .error es => .error es
          | .ok s3 =>
            match evalLoop [] cycle s3 with
            | .error es => .error es
            | .ok s4 =>
              match selfAcceptLoop cycle [] s4 with
              | .error es => .error es
              | .ok (inv, s5) => .ok (⟨fwd, inv, true⟩, s5)

/-- The phase-3 commit traversal (no `onCancel` in the source call). -/
def phase3Run (fuel root : Nat) (s : St) :
    TravInfo × Except (CommitErr × St) (Option RunResult × St) :=
  traverseDF fuel root commitGuard (fun _ s => s) commitChildren commitPost
    (fun _ s => s) (false, .assertion) s

/-- Children of the catch-block cleanup traversal: the default current
view. -/
def cleanupChildren (n : Nat) (s : St) : List Nat :=
  childListVia s (selectCurrent (s.ctrls n)) ++ dynListVia s (selectCurrent (s.ctrls n))

def cleanupGuard (n : Nat) (s : St) : Bool :=
  (s.ctrls n).current.isSome

/-- Pre visitor of the catch-block traversal: unlink and discard any
remaining pending instance. -/
def cleanupPre (n : Nat) (s : St) : St :=
  match (s.ctrls n).pending with
  | some p =>
    let r := unlinkInst s p
    r.2.updCtrl n fun c => { c with pending := none }
  | none => s

def relinkLoop : List Nat → St → Except (Err × St) St
  | [], s => .ok s
  | n :: ns, s =>
    match (s.ctrls n).current with
    | none => .error (.assertion, s)
    | some i => relinkLoop ns (relinkInst s i)

/-- Post visitor of the catch-block traversal: relink every member's
current instance. -/
def cleanupPost (cycle : List Nat) (_ : List Unit) (s : St) :
    Except (Err × St) (Unit × St) :=
  match relinkLoop cycle s with
  | .error es => .error es
  | .ok s1 => .ok ((), s1)

/-- The catch-block traversal of `requestUpdate` (lines 713-732): re-link
everything and throw away pending instances. -/
def catchCleanup (fuel root : Nat) (s : St) : Except (Err × St) St :=
  match (traverseDF fuel root cleanupGuard cleanupPre cleanupChildren cleanupPost
      (fun _ s => s) .assertion s).2 with
  | .error es => .error es
  | .ok r => .ok r.2

def setFatal (root : Nat) (e : Err) (s : St) : St :=
  s.updCtrl root fun c => { c with fatalError := some e }

/-- The consumer loop building `currentControllers`: assert that `pending`
is cleared and clear `previous` on every controller yielded by
`this.traverse()`. -/
def finalizePrevLoop : List Nat → St → Except (Err × St) St
  | [], s => .ok s
  | n :: ns, s =>
    match (s.ctrls n).pending with
    | some _ => .error (.assertion, s)
    | none => finalizePrevLoop ns (s.updCtrl n fun c => { c with previous := none })

/-- The orphan loop of the `finally`: for every previous controller not in
the new reachable set, run `prune` on its current instance (a throw makes
`requestUpdate` return a sticky fatal error), then clone the instance back
into `staging` and clear `current`/`previous`. -/
def pruneLoop (root : Nat) (currentCs : List Nat) :
    List Nat → St → Except (Err × St) (Option UpdateResult × St)
  | [], s => .ok (none, s)
  | x :: xs, s =>
    if currentCs.contains x then pruneLoop root currentCs xs s
    else
      match (s.ctrls x).current with
      | none => .error (.assertion, s)
      | some i =>
        match pruneInst s i with
        | .error (e, s1) => .ok (some (.fatalError e), setFatal root e s1)
        | .ok s1 =>
          let r := cloneInst s1 i
          pruneLoop root currentCs xs
            (r.2.updCtrl x fun c => { c with staging := some r.1, current := none, previous := none })

/-- The `finally` block of `requestUpdate` (lines 739-764): recompute the
reachable set, assert pendings are gone and clear `previous` on it, then
prune orphans.  A `some` result overrides the pending return value of the
try/catch (a `return` inside `finally`). -/
def finalizeCore (fuel root : Nat) (prevCs : List Nat) (s : St) :
    Except (Err × St) (Option UpdateResult × St) :=
  match traverseList fuel s root with
  | .error e => .error (e, s)
  | .ok ys =>
    match finalizePrevLoop ys s with
    | .error es => .error es
    | .ok s1 => pruneLoop root ys prevCs s1

def statsOf (s : St) : UpdateStats :=
  ⟨s.statLoads, s.statReevals⟩

/-- Observable outcome of a `requestUpdate` call: a returned result
(`none` = `undefined`) or an escaped exception (a rejected promise). -/
inductive Outcome where
  | ret (result : Option UpdateResult)
  | thrown (error : Err)
deriving Repr, DecidableEq

/-- Run the `finally` and combine it with the pending return value
`candidate`. -/
def runFinalize (fuel root : Nat) (prevCs : List Nat) (candidate : Option UpdateResult)
    (s : St) : Outcome × St :=
  match finalizeCore fuel root prevCs s with
  | .error (e, s1) => (.thrown e, s1)
  | .ok (some r, s1) => (.ret (some r), s1)
  | .ok (none, s1) => (.ret candidate, s1)

/-- Phase 3 plus its catch and `finally` (the `try { ... } catch { ... }
finally { ... }` of lines 601-770 and the trailing success return).  On a
non-fatal throw the catch traversal restores link state and the result is
`evaluationFailure`; on a dispose throw the result is a sticky
`fatalError`.  A throw escaping the catch still runs the `finally`, whose
own `return` would override it. -/
def commitAndFinalize (fuel root : Nat) (prevCs : List Nat) (s : St) : Outcome × St :=
  match (phase3Run fuel root s).2 with
  | .ok (rr?, s3) =>
    let candidate : Option UpdateResult :=
      match rr? with
      | some rr => if rr.treeDidUpdate then some (.success (statsOf s3)) else none
      | none => none
    runFinalize fuel root prevCs candidate s3
  | .error ((fatal, e), s3) =>
    match catchCleanup fuel root s3 with
    | .error (e2, s4) =>
      match finalizeCore fuel root prevCs s4 with
      | .error (e3, s5) => (.thrown e3, s5)
      | .ok (some r, s5) => (.ret (some r), s5)
      | .ok (none, s5) => (.thrown e2, s5)
    | .ok s4 =>
      if fatal then
        runFinalize fuel root prevCs (some (.fatalError e)) (setFatal root e s4)
      else
        runFinalize fuel root prevCs (some (.evaluationFailure e (statsOf s4))) s4

/-- `requestUpdate` (lines 404-771 of `controller.ts`).  Phase 0 returns a
sticky fatal error; phase 1 dry-runs acceptance and marks
`pending`/`previous`; its result selects between the no-op, `declined` and
`unaccepted` early returns (each rolling back); phase 2 link-tests new
code; phase 3 commits, with its catch and finally.  The invalidation-chain
formatting of the `unaccepted` result is elided (it only renders output).
A `none` root result from a fuel-starved traversal is treated as a no-op
update. -/
def requestUpdate (fuel : Nat) (s : St) (root : Nat) : Outcome × St :=
  match (s.ctrls root).fatalError with
  | some e => (.ret (some (.fatalError e)), s)
  | none =>
    let s0 : St := { s with statLoads := 0, statReevals := 0, scratch := [] }
    match phase1Run fuel root s0 with
    | (_, .error (e, s1)) => (.thrown e, s1)
    | (tj, .ok (none, s1)) => (.ret none, rollbackCtrls tj.sccs.flatten s1)
    | (tj, .ok (some ir, s1)) =>
      if ir.needsDispatch = false then (.ret none, rollbackCtrls tj.sccs.flatten s1)
      else if ir.hasDecline then
        (.ret (some (.declined ir.flattenDeclined)), rollbackCtrls tj.sccs.flatten s1)
      else if !ir.invalidated.isEmpty then
        (.ret (some .unaccepted), rollbackCtrls tj.sccs.flatten s1)
      else
        match linkTestSegment fuel root ir.hasNewCode tj.sccs.flatten s1 with
        | .error (r, s2) => (.ret (some r), s2)
        | .ok s2 =>
          match traverseList fuel s2 root with
          | .error e => (.thrown e, s2)
          | .ok prevCs => commitAndFinalize fuel root prevCs s2

/-- Children of the `dispatch` traversals: `node.iterate()` — static
imports of the current instance only. -/
def dispatchChildren (n : Nat) (s : St) : List Nat :=
  childListVia s (selectCurrent (s.ctrls n))

def dispatchGuard (n : Nat) (s : St) : Bool :=
  ((s.ctrls n).current <|> (s.ctrls n).staging).isSome

/-- Pre visitor of the first `dispatch` traversal: adopt `staging` into
`current` and instantiate it when `current` is not yet set. -/
def dispatchPre (n : Nat) (s : St) : St :=
  match (s.ctrls n).current with
  | some _ => s
  | none =>
    match (s.ctrls n).staging with
    | some i => instantiateInst (s.updCtrl n fun c => { c with current := some i }) i
    | none => s

/-- The rollback of the `dispatch` link pass (also its `onCancel`):
unlink each node's current instance and forget the slot when `unlink`
says so. -/
def unlinkClear (ns : List Nat) (s : St) : St :=
  ns.foldl
    (fun s n =>
      match (s.ctrls n).current with
      | some i =>
        let r := unlinkInst s i
        if r.1 then r.2.updCtrl n fun c => { c with current := none } else r.2
      | none => s)
    s

/-- The link loop of `dispatch` under `iterateWithRollback`. -/
def dispatchLinkLoop : List Nat → List Nat → St → Except (Err × St) St
  | _, [], s => .ok s
  | seen, n :: ns, s =>
    match (s.ctrls n).current with
    | none => .error (.assertion, unlinkClear (seen ++ [n]) s)
    | some i =>
      match linkInst s i with
      | .error (e, s1) => .error (e, unlinkClear (seen ++ [n]) s1)
      | .ok s1 => dispatchLinkLoop (seen ++ [n]) ns s1

def dispatchLinkPost (cycle : List Nat) (_ : List Unit) (s : St) :
    Except (Err × St) (Unit × St) :=
  match dispatchLinkLoop [] cycle s with
  | .error es => .error es
  | .ok s1 => .ok ((), s1)

/-- The evaluate loop of `dispatch`: clear `staging` when it is the current
instance, then evaluate (throws propagate to the caller of `dispatch`). -/
def dispatchEvalLoop : List Nat → St → Except (Err × St) St
  | [], s => .ok s
  | n :: ns, s =>
    match (s.ctrls n).current with
    | none => .error (.assertion, s)
    | some i =>
      let s1 :=
        if (s.ctrls n).staging = some i then s.updCtrl n fun c => { c with staging := none }
        else s
      match evaluateInst s1 i with
      | .error es => .error es
      | .ok s2 => dispatchEvalLoop ns s2

def dispatchEvalPost (cycle : List Nat) (_ : List Unit) (s : St) :
    Except (Err × St) (Unit × St) :=
  match dispatchEvalLoop cycle s with
  | .error es => .error es
  | .ok s1 => .ok ((), s1)

def dispatchEvalGuard (n : Nat) (s : St) : Bool :=
  (s.ctrls n).current.isSome

/-- `dispatch` (lines 251-305 of `controller.ts`): when the root has no
current instance, instantiate-and-link the reachable graph out of
`staging`, then evaluate it. -/
def dispatch (fuel : Nat) (s : St) (root : Nat) : Except (Err × St) St :=
  if (s.ctrls root).current.isSome then .ok s
  else
    match (traverseDF fuel root dispatchGuard dispatchPre dispatchChildren dispatchLinkPost
        unlinkClear .assertion s).2 with
    | .error es => .error es
    | .ok r =>
      match (traverseDF fuel root dispatchEvalGuard (fun _ s => s) dispatchChildren
          dispatchEvalPost (fun _ s => s) .assertion r.2).2 with
      | .error es => .error es
      | .ok r2 => .ok r2.2

/-- `load` (lines 308-358 of `controller.ts`): invoked from transformed
module source at any time; builds the new declaration (here: its id) and
places a fresh instance of it in `staging`.  The experimental
`evictModule` call only notifies the external loader and touches no
controller state. -/
def load (s : St) (cid : Nat) (declId : Nat) : St :=
  let r := s.allocInst declId
  r.2.updCtrl cid fun c => { c with staging := some r.1 }

/-- Build a concrete state from association lists (used by concrete
scenarios in the theorems below). -/
def mkSt (ds : List Decl) (is : List Instance) (cs : List (Nat × Controller)) : St :=
  { decls := fun n => ds.getD n {},
    insts := fun i => is.getD i { declId := 0 },
    ctrls := fun n => ((cs.lookup n).getD {}),
    nextInst := is.length, log := [], statLoads := 0, statReevals := 0, scratch := [] }

@[simp] theorem updCtrl_log (s : St) (n : Nat) (f : Controller → Controller) :
    (s.updCtrl n f).log = s.log := rfl

@[simp] theorem updCtrl_insts (s : St) (n : Nat) (f : Controller → Controller) :
    (s.updCtrl n f).insts = s.insts := rfl

@[simp] theorem updCtrl_decls (s : St) (n : Nat) (f : Controller → Controller) :
    (s.updCtrl n f).decls = s.decls := rfl

@[simp] theorem updCtrl_nextInst (s : St) (n : Nat) (f : Controller → Controller) :
    (s.updCtrl n f).nextInst = s.nextInst := rfl

@[simp] theorem updCtrl_statLoads (s : St) (n : Nat) (f : Controller → Controller) :
    (s.updCtrl n f).statLoads = s.statLoads := rfl

@[simp] theorem updCtrl_statReevals (s : St) (n : Nat) (f : Controller → Controller) :
    (s.updCtrl n f).statReevals = s.statReevals := rfl

@[simp] theorem updCtrl_scratch (s : St) (n : Nat) (f : Controller → Controller) :
    (s.updCtrl n f).scratch = s.scratch := rfl

@[simp] theorem updCtrl_ctrl_same (s : St) (n : Nat) (f : Controller → Controller) :
    (s.updCtrl n f).ctrls n = f (s.ctrls n) := by
  simp [St.updCtrl]

theorem updCtrl_ctrl_ne (s : St) {m n : Nat} (f : Controller → Controller) (h : m ≠ n) :
    (s.updCtrl n f).ctrls m = s.ctrls m := by
  simp [St.updCtrl, h]

@[simp] theorem updCtrl_declOf (s : St) (n : Nat) (f : Controller → Controller) (i : Nat) :
    (s.updCtrl n f).declOf i = s.declOf i := rfl

@[simp] theorem updInst_ctrls (s : St) (i : Nat) (f : Instance → Instance) :
    (s.updInst i f).ctrls = s.ctrls := rfl

@[simp] theorem updInst_log (s : St) (i : Nat) (f : Instance → Instance) :
    (s.updInst i f).log = s.log := rfl

@[simp] theorem updInst_decls (s : St) (i : Nat) (f : Instance → Instance) :
    (s.updInst i f).decls = s.decls := rfl

@[simp] theorem updInst_nextInst (s : St) (i : Nat) (f : Instance → Instance) :
    (s.updInst i f).nextInst = s.nextInst := rfl

@[simp] theorem updInst_scratch (s : St) (i : Nat) (f : Instance → Instance) :
    (s.updInst i f).scratch = s.scratch := rfl

@[simp] theorem updInst_inst_same (s : St) (i : Nat) (f : Instance → Instance) :
    (s.updInst i f).insts i = f (s.insts i) := by
  simp [St.updInst]

theorem updInst_inst_ne (s : St) {j i : Nat} (f : Instance → Instance) (h : j ≠ i) :
    (s.updInst i f).insts j = s.insts j := by
  simp [St.updInst, h]

@[simp] theorem push_ctrls (s : St) (e : Event) : (s.push e).ctrls = s.ctrls := rfl

@[simp] theorem push_insts (s : St) (e : Event) : (s.push e).insts = s.insts := rfl

@[simp] theorem push_decls (s : St) (e : Event) : (s.push e).decls = s.decls := rfl

@[simp] theorem push_log (s : St) (e : Event) : (s.push e).log = s.log ++ [e] := rfl

@[simp] theorem push_declOf (s : St) (e : Event) (i : Nat) :
    (s.push e).declOf i = s.declOf i := rfl

@[simp] theorem allocInst_ctrls (s : St) (d : Nat) : (s.allocInst d).2.ctrls = s.ctrls := rfl

@[simp] theorem allocInst_log (s : St) (d : Nat) : (s.allocInst d).2.log = s.log := rfl

@[simp] theorem allocInst_fst (s : St) (d : Nat) : (s.allocInst d).1 = s.nextInst := rfl

theorem allocInst_inst_lt (s : St) (d : Nat) {j : Nat} (h : j ≠ s.nextInst) :
    (s.allocInst d).2.insts j = s.insts j := by
  simp [St.allocInst, h]

/-- C10.  `load` only replaces `staging` with a freshly constructed
instance of the new declaration: on the target controller every other
field (`current`, `pending`, `previous`, `temporary`, `fatalError`,
`version`) is unchanged, every other controller is untouched, every
pre-existing heap instance is untouched, and no user callback runs. -/
theorem load_only_touches_staging (s : St) (cid declId : Nat) :
    ((load s cid declId).ctrls cid).staging = some s.nextInst ∧
    (load s cid declId).insts s.nextInst = { declId := declId } ∧
    ((load s cid declId).ctrls cid).current = (s.ctrls cid).current ∧
    ((load s cid declId).ctrls cid).pending = (s.ctrls cid).pending ∧
    ((load s cid declId).ctrls cid).previous = (s.ctrls cid).previous ∧
    ((load s cid declId).ctrls cid).temporary = (s.ctrls cid).temporary ∧
    ((load s cid declId).ctrls cid).fatalError = (s.ctrls cid).fatalError ∧
    ((load s cid declId).ctrls cid).version = (s.ctrls cid).version ∧
    (∀ m, m ≠ cid → (load s cid declId).ctrls m = s.ctrls m) ∧
    (∀ j, j ≠ s.nextInst → (load s cid declId).insts j = s.insts j) ∧
    (load s cid declId).log = s.log := by
  have hctrl : ∀ m, m ≠ cid → (load s cid declId).ctrls m = s.ctrls m := by
    intro m hm; simp [load, St.updCtrl, St.allocInst, hm]
  have hinst : ∀ j, j ≠ s.nextInst → (load s cid declId).insts j = s.insts j := by
    intro j hj; simp [load, St.updCtrl, St.allocInst, hj]
  refine ⟨?_, ?_, ?_, ?_, ?_, ?_, ?_, ?_, hctrl, hinst, ?_⟩ <;>
    simp [load, St.updCtrl, St.allocInst]

/-- Example state used to instantiate frame theorems at a concrete input. -/
def exSt : St :=
  mkSt [{ loadedModules := [1] }, {}]
    [{ declId := 0, linked := true, evaluated := true },
     { declId := 1, linked := true, evaluated := true }]
    [(0, { current := some 0 }), (1, { current := some 1 })]

/-- Witness for C10 at a concrete input. -/
theorem load_only_touches_staging_witness :
    ((load exSt 0 1).ctrls 0).staging = some exSt.nextInst ∧
    (load exSt 0 1).insts exSt.nextInst = { declId := 1 } ∧
    ((load exSt 0 1).ctrls 0).current = (exSt.ctrls 0).current ∧
    ((load exSt 0 1).ctrls 0).pending = (exSt.ctrls 0).pending ∧
    ((load exSt 0 1).ctrls 0).previous = (exSt.ctrls 0).previous ∧
    ((load exSt 0 1).ctrls 0).temporary = (exSt.ctrls 0).temporary ∧
    ((load exSt 0 1).ctrls 0).fatalError = (exSt.ctrls 0).fatalError ∧
    ((load exSt 0 1).ctrls 0).version = (exSt.ctrls 0).version ∧
    (∀ m, m ≠ 0 → (load exSt 0 1).ctrls m = exSt.ctrls m) ∧
    (∀ j, j ≠ exSt.nextInst → (load exSt 0 1).insts j = exSt.insts j) ∧
    (load exSt 0 1).log = exSt.log :=
  load_only_touches_staging exSt 0 1

/-- C7.  All three phases expand a node through the same pair of views:
the "will look like" selector resolves `pending`, and the "used to look
like" selector — `previous ?? pending` in phases 1 and 2, and
`previous ?? node.pending` in phase 3, where the captured `node` is the
controller being expanded — resolves `previous` falling back to `pending`
of that same controller, so the phase-3 child iteration coincides with the
other phases'. -/
theorem selectors_symmetric :
    (∀ c : Controller, dryRunSelect c = c.pending ∧ linkTestSelect c = c.pending ∧
      commitSelect c = c.pending) ∧
    (∀ c : Controller, dryRunSelectDynamic c = (c.previous <|> c.pending) ∧
      linkTestSelectDynamic c = (c.previous <|> c.pending) ∧
      commitSelectDynamic c c = (c.previous <|> c.pending)) ∧
    (∀ (n : Nat) (s : St), dryRunChildren n s = commitChildren n s ∧
      linkTestChildren n s = commitChildren n s) :=
  ⟨fun _ => ⟨rfl, rfl, rfl⟩, fun _ => ⟨rfl, rfl, rfl⟩, fun _ _ => ⟨rfl, rfl⟩⟩

/-- The state `requestUpdate` hands to the phase-3 commit traversal (an
observer replicating the phase-0/1/2 part of `requestUpdate`; when an
early return fires the result is irrelevant to its uses). -/
def preCommitSt (fuel : Nat) (s : St) (root : Nat) : St :=
  match (s.ctrls root).fatalError with
  | some _ => s
  | none =>
    let s0 : St := { s with statLoads := 0, statReevals := 0, scratch := [] }
    match phase1Run fuel root s0 with
    | (_, .error (_, s1)) => s1
    | (_, .ok (none, s1)) => s1
    | (tj, .ok (some ir, s1)) =>
      if ir.needsDispatch = false then s1
      else if ir.hasDecline then s1
      else if !ir.invalidated.isEmpty then s1
      else
        match linkTestSegment fuel root ir.hasNewCode tj.sccs.flatten s1 with
        | .error (_, s2) => s2
        | .ok s2 => s2

/-- The invalidated list and `treeDidUpdate` reported by the root SCC of
the phase-3 traversal, when it completes. -/
def rootCommitResult (fuel root : Nat) (s : St) : Option (List Nat × Bool) :=
  match (phase3Run fuel root s).2 with
  | .ok (some rr, _) => some (rr.invalidated, rr.treeDidUpdate)
  | _ => none

/-- The concrete input exhibiting the C8 divergence: a single root module
whose old code registered a bare `accept()` (so phase 1 does not block the
update) but whose self-accept callback fails, with new code staged. -/
def exC8 : St :=
  mkSt [{ acceptsSelf := true, acceptSelfCbOk := false }, { acceptsSelf := true }]
    [{ declId := 0, linked := true, evaluated := true }, { declId := 1 }]
    [(0, { current := some 0, staging := some 1 })]

/-- C8 (divergence).  On `exC8` phase 3 completes with `treeDidUpdate`
true and a non-empty `invalidated` on the root SCC (the self-accept
callback failed during evaluation), yet `requestUpdate` returns a
`success` result: the source never constructs the `unacceptedEvaluation`
result even though the `UpdateStatus` enum, the `UpdateSuccess` type and
`logUpdate` all provide for it. -/
theorem commitInvalidatedRootStillSuccess :
    rootCommitResult 50 0 (preCommitSt 50 exC8 0) = some ([0], true) ∧
    (requestUpdate 50 exC8 0).1 =
      .ret (some (.success { loads := 1, reevaluations := 0 })) := by
  constructor
  · rfl
  · rfl

/-- Preservation of a relation along `runPreE`, for both outcomes. -/
theorem runPreE_rel {ε : Type} {P : St → St → Prop}
    (guard : Nat → St → Bool) (pre : Nat → St → St) (ae : ε)
    (hrefl : ∀ s, P s s) (htrans : ∀ {a b c}, P a b → P b c → P a c)
    (hpre : ∀ n s, P s (pre n s)) :
    ∀ (l : List Nat) (s : St),
      (∀ s2, runPreE guard pre ae l s = .ok s2 → P s s2) ∧
      (∀ e s2, runPreE guard pre ae l s = .error (e, s2) → P s s2) := by
  intro l
  induction l with
  | nil =>
    intro s
    refine ⟨fun s2 h => ?_, fun e s2 h => ?_⟩
    · simp [runPreE] at h; subst h; exact hrefl s
    · simp [runPreE] at h
  | cons n ns ih =>
    intro s
    by_cases hg : guard n s
    · refine ⟨fun s2 h => ?_, fun e s2 h => ?_⟩
      · simp [runPreE, hg] at h
        exact htrans (hpre n s) ((ih (pre n s)).1 s2 h)
      · simp [runPreE, hg] at h
        exact htrans (hpre n s) ((ih (pre n s)).2 e s2 h)
    · refine ⟨fun s2 h => ?_, fun e s2 h => ?_⟩
      · simp [runPreE, hg] at h
      · simp [runPreE, hg] at h
        exact h.2 ▸ hrefl s

/-- Preservation of a relation along `goPosts`, for both outcomes. -/
theorem goPosts_rel {ρ ε : Type} {P : St → St → Prop}
    (post : List Nat → List ρ → St → Except (ε × St) (ρ × St))
    (all : List (List Nat)) (ch : Nat → List Nat)
    (hrefl : ∀ s, P s s) (htrans : ∀ {a b c}, P a b → P b c → P a c)
    (hok : ∀ scc fwd s r s', post scc fwd s = .ok (r, s') → P s s')
    (herr : ∀ scc fwd s e s', post scc fwd s = .error (e, s') → P s s') :
    ∀ (l : List (List Nat)) (acc : List ρ) (s : St),
      (∀ acc2 s2, goPosts post all ch l acc s = .ok (acc2, s2) → P s s2) ∧
      (∀ e rem s2, goPosts post all ch l acc s = .error (e, rem, s2) → P s s2) := by
  intro l
  induction l with
  | nil =>
    intro acc s
    refine ⟨fun acc2 s2 h => ?_, fun e rem s2 h => ?_⟩
    · simp [goPosts] at h; exact h.2 ▸ hrefl s
    · simp [goPosts] at h
  | cons scc rest ih =>
    intro acc s
    rcases hpost : post scc ((succIdxs all ch acc.length scc).filterMap fun j => acc.get? j) s with
      ⟨e, s1⟩ | ⟨r, s1⟩
    · refine ⟨fun acc2 s2 h => ?_, fun e2 rem s2 h => ?_⟩
      · simp only [goPosts] at h
        rw [hpost] at h
        simp at h
      · simp only [goPosts] at h
        rw [hpost] at h
        simp at h
        exact h.2.2 ▸ herr _ _ _ _ _ hpost
    · refine ⟨fun acc2 s2 h => ?_, fun e2 rem s2 h => ?_⟩
      · simp only [goPosts] at h
        rw [hpost] at h
        exact htrans (hok _ _ _ _ _ hpost) ((ih (acc ++ [r]) s1).1 acc2 s2 h)
      · simp only [goPosts] at h
        rw [hpost] at h
        exact htrans (hok _ _ _ _ _ hpost) ((ih (acc ++ [r]) s1).2 e2 rem s2 h)

/-- Preservation of a relation along a whole `traverseDF`, for both
outcomes, when the guard/pre, the post (both outcomes) and `onCancel`
preserve it. -/
theorem travResult_rel {ρ ε : Type} {P : St → St → Prop}
    (guard : Nat → St → Bool) (pre : Nat → St → St)
    (post : List Nat → List ρ → St → Except (ε × St) (ρ × St))
    (onCancel : List Nat → St → St) (ae : ε) (entered : List Nat)
    (sccs : List (List Nat)) (chPure : Nat → List Nat) (s : St)
    (hrefl : ∀ s, P s s) (htrans : ∀ {a b c}, P a b → P b c → P a c)
    (hpre : ∀ n s, P s (pre n s))
    (hok : ∀ scc fwd s r s', post scc fwd s = .ok (r, s') → P s s')
    (herr : ∀ scc fwd s e s', post scc fwd s = .error (e, s') → P s s')
    (honc : ∀ ns s, P s (onCancel ns s)) :
    (∀ orr s2, travResult guard pre post onCancel ae entered sccs chPure s = .ok (orr, s2) →
       P s s2) ∧
    (∀ e s2, travResult guard pre post onCancel ae entered sccs chPure s = .error (e, s2) →
       P s s2) := by
  rcases hrp : runPreE guard pre ae entered s with ⟨e1, s1⟩ | s1
  · refine ⟨fun orr s2 h => ?_, fun e s2 h => ?_⟩
    · simp only [travResult] at h
      rw [hrp] at h
      simp at h
    · simp only [travResult] at h
      rw [hrp] at h
      simp at h
      exact h.2 ▸ (runPreE_rel guard pre ae hrefl htrans hpre entered s).2 e1 s1 hrp
  · have hp1 : P s s1 := (runPreE_rel guard pre ae hrefl htrans hpre entered s).1 s1 hrp
    rcases hgp : goPosts post sccs chPure sccs [] s1 with ⟨e2, rem, s2⟩ | ⟨acc, s2⟩
    · refine ⟨fun orr s3 h => ?_, fun e s3 h => ?_⟩
      · simp only [travResult] at h
        rw [hrp] at h
        dsimp only at h
        rw [hgp] at h
        simp at h
      · simp only [travResult] at h
        rw [hrp] at h
        dsimp only at h
        rw [hgp] at h
        simp at h
        exact h.2 ▸ htrans hp1 (htrans
          ((goPosts_rel post sccs chPure hrefl htrans hok herr sccs [] s1).2 e2 rem s2 hgp)
          (honc rem.flatten s2))
    · refine ⟨fun orr s3 h => ?_, fun e s3 h => ?_⟩
      · simp only [travResult] at h
        rw [hrp] at h
        dsimp only at h
        rw [hgp] at h
        simp at h
        exact h.2 ▸ htrans hp1
          ((goPosts_rel post sccs chPure hrefl htrans hok herr sccs [] s1).1 acc s2 hgp)
      · simp only [travResult] at h
        rw [hrp] at h
        dsimp only at h
        rw [hgp] at h
        simp at h

theorem traverseDF_rel {ρ ε : Type} {P : St → St → Prop}
    (fuel root : Nat) (guard : Nat → St → Bool) (pre : Nat → St → St)
    (children : Nat → St → List Nat)
    (post : List Nat → List ρ → St → Except (ε × St) (ρ × St))
    (onCancel : List Nat → St → St) (ae : ε) (s : St)
    (hrefl : ∀ s, P s s) (htrans : ∀ {a b c}, P a b → P b c → P a c)
    (hpre : ∀ n s, P s (pre n s))
    (hok : ∀ scc fwd s r s', post scc fwd s = .ok (r, s') → P s s')
    (herr : ∀ scc fwd s e s', post scc fwd s = .error (e, s') → P s s')
    (honc : ∀ ns s, P s (onCancel ns s)) :
    (∀ orr s2, (traverseDF fuel root guard pre children post onCancel ae s).2 = .ok (orr, s2) →
       P s s2) ∧
    (∀ e s2, (traverseDF fuel root guard pre children post onCancel ae s).2 = .error (e, s2) →
       P s s2) :=
  travResult_rel guard pre post onCancel ae _ _ _ s hrefl htrans hpre hok herr honc

/-- `pending` is never (re)assigned a value: it is either kept or cleared. -/
def PendMono (s s' : St) : Prop :=
  ∀ c, (s'.ctrls c).pending ≠ none → (s'.ctrls c).pending = (s.ctrls c).pending

/-- Frame of the phase-1 dry run and of the rollback routine: only
`pending` and `previous` of controllers change. -/
def Frame1 (s s' : St) : Prop :=
  s'.log = s.log ∧ s'.decls = s.decls ∧ s'.insts = s.insts ∧ s'.nextInst = s.nextInst ∧
  ∀ c, (s'.ctrls c).current = (s.ctrls c).current ∧
    (s'.ctrls c).staging = (s.ctrls c).staging ∧
    (s'.ctrls c).temporary = (s.ctrls c).temporary ∧
    (s'.ctrls c).fatalError = (s.ctrls c).fatalError ∧
    (s'.ctrls c).version = (s.ctrls c).version

/-- Frame of the phase-2 link test: no user events, no change to any
controller slot except `temporary`, no change to pre-existing instances'
declarations. -/
def Frame2 (s s' : St) : Prop :=
  s'.log = s.log ∧ s'.decls = s.decls ∧ s.nextInst ≤ s'.nextInst ∧
  (∀ j, j < s.nextInst → (s'.insts j).declId = (s.insts j).declId) ∧
  ∀ c, (s'.ctrls c).current = (s.ctrls c).current ∧
    (s'.ctrls c).pending = (s.ctrls c).pending ∧
    (s'.ctrls c).previous = (s.ctrls c).previous ∧
    (s'.ctrls c).staging = (s.ctrls c).staging ∧
    (s'.ctrls c).fatalError = (s.ctrls c).fatalError ∧
    (s'.ctrls c).version = (s.ctrls c).version

/-- Frame of the phase-3 commit traversal: declarations of pre-existing
instances are unchanged, `pending` is only ever cleared, and
`previous`/`temporary`/`fatalError`/`version` are untouched. -/
def Frame3 (s s' : St) : Prop :=
  s'.decls = s.decls ∧ s.nextInst ≤ s'.nextInst ∧
  (∀ j, j < s.nextInst → (s'.insts j).declId = (s.insts j).declId) ∧
  PendMono s s' ∧
  ∀ c, (s'.ctrls c).previous = (s.ctrls c).previous ∧
    (s'.ctrls c).temporary = (s.ctrls c).temporary ∧
    (s'.ctrls c).fatalError = (s.ctrls c).fatalError ∧
    (s'.ctrls c).version = (s.ctrls c).version

/-- Frame of the catch-block cleanup traversal: only `pending` slots are
cleared and instances relinked/unlinked; no user events, no allocation. -/
def FrameC (s s' : St) : Prop :=
  s'.log = s.log ∧ s'.decls = s.decls ∧ s'.nextInst = s.nextInst ∧
  (∀ j, (s'.insts j).declId = (s.insts j).declId) ∧
  PendMono s s' ∧
  ∀ c, (s'.ctrls c).current = (s.ctrls c).current ∧
    (s'.ctrls c).previous = (s.ctrls c).previous ∧
    (s'.ctrls c).staging = (s.ctrls c).staging ∧
    (s'.ctrls c).temporary = (s.ctrls c).temporary ∧
    (s'.ctrls c).fatalError = (s.ctrls c).fatalError ∧
    (s'.ctrls c).version = (s.ctrls c).version

theorem frame1_refl (s : St) : Frame1 s s :=
  ⟨rfl, rfl, rfl, rfl, fun _ => ⟨rfl, rfl, rfl, rfl, rfl⟩⟩

theorem frame1_trans {a b c : St} (h1 : Frame1 a b) (h2 : Frame1 b c) : Frame1 a c := by
  obtain ⟨l1, d1, i1, n1, f1⟩ := h1
  obtain ⟨l2, d2, i2, n2, f2⟩ := h2
  refine ⟨l2.trans l1, d2.trans d1, i2.trans i1, n2.trans n1, fun x => ?_⟩
  obtain ⟨a1, a2, a3, a4, a5⟩ := f1 x
  obtain ⟨b1, b2, b3, b4, b5⟩ := f2 x
  exact ⟨b1.trans a1, b2.trans a2, b3.trans a3, b4.trans a4, b5.trans a5⟩

theorem frame2_refl (s : St) : Frame2 s s :=
  ⟨rfl, rfl, le_refl _, fun _ _ => rfl, fun _ => ⟨rfl, rfl, rfl, rfl, rfl, rfl⟩⟩

theorem frame2_trans {a b c : St} (h1 : Frame2 a b) (h2 : Frame2 b c) : Frame2 a c := by
  obtain ⟨l1, d1, n1, i1, f1⟩ := h1
  obtain ⟨l2, d2, n2, i2, f2⟩ := h2
  refine ⟨l2.trans l1, d2.trans d1, n1.trans n2, fun j hj => ?_, fun x => ?_⟩
  · exact (i2 j (lt_of_lt_of_le hj n1)).trans (i1 j hj)
  · obtain ⟨a1, a2, a3, a4, a5, a6⟩ := f1 x
    obtain ⟨b1, b2, b3, b4, b5, b6⟩ := f2 x
    exact ⟨b1.trans a1, b2.trans a2, b3.trans a3, b4.trans a4, b5.trans a5, b6.trans a6⟩

theorem pendMono_refl (s : St) : PendMono s s := fun _ _ => rfl

theorem pendMono_trans {a b c : St} (h1 : PendMono a b) (h2 : PendMono b c) :
    PendMono a c := by
  intro x hx
  have hbc := h2 x hx
  have hb : (b.ctrls x).pending ≠ none := by rw [← hbc]; exact hx
  exact hbc.trans (h1 x hb)

theorem frame3_refl (s : St) : Frame3 s s :=
  ⟨rfl, le_refl _, fun _ _ => rfl, pendMono_refl s, fun _ => ⟨rfl, rfl, rfl, rfl⟩⟩

theorem frame3_trans {a b c : St} (h1 : Frame3 a b) (h2 : Frame3 b c) : Frame3 a c := by
  obtain ⟨d1, n1, i1, p1, f1⟩ := h1
  obtain ⟨d2, n2, i2, p2, f2⟩ := h2
  refine ⟨d2.trans d1, n1.trans n2, fun j hj => ?_, pendMono_trans p1 p2, fun x => ?_⟩
  · exact (i2 j (lt_of_lt_of_le hj n1)).trans (i1 j hj)
  · obtain ⟨a1, a2, a3, a4⟩ := f1 x
    obtain ⟨b1, b2, b3, b4⟩ := f2 x
    exact ⟨b1.trans a1, b2.trans a2, b3.trans a3, b4.trans a4⟩

theorem frameC_refl (s : St) : FrameC s s :=
  ⟨rfl, rfl, rfl, fun _ => rfl, pendMono_refl s, fun _ => ⟨rfl, rfl, rfl, rfl, rfl, rfl⟩⟩

theorem frameC_trans {a b c : St} (h1 : FrameC a b) (h2 : FrameC b c) : FrameC a c := by
  obtain ⟨l1, d1, n1, i1, p1, f1⟩ := h1
  obtain ⟨l2, d2, n2, i2, p2, f2⟩ := h2
  refine ⟨l2.trans l1, d2.trans d1, n2.trans n1, fun j => (i2 j).trans (i1 j),
    pendMono_trans p1 p2, fun x => ?_⟩
  obtain ⟨a1, a2, a3, a4, a5, a6⟩ := f1 x
  obtain ⟨b1, b2, b3, b4, b5, b6⟩ := f2 x
  exact ⟨b1.trans a1, b2.trans a2, b3.trans a3, b4.trans a4, b5.trans a5, b6.trans a6⟩

/-- Generic preservation along a left fold. -/
theorem foldl_rel {α : Type} {P : St → St → Prop}
    (hrefl : ∀ s, P s s) (htrans : ∀ {a b c}, P a b → P b c → P a c)
    (f : St → α → St) (hf : ∀ s n, P s (f s n)) :
    ∀ (l : List α) (s : St), P s (l.foldl f s) := by
  intro l
  induction l with
  | nil => intro s; exact hrefl s
  | cons n ns ih => intro s; exact htrans (hf s n) (ih (f s n))

/-- A controller update touching only `pending`/`previous` realises
`Frame1`. -/
theorem frame1_updCtrl (s : St) (n : Nat) (f : Controller → Controller)
    (hf : ∀ x : Controller, (f x).current = x.current ∧ (f x).staging = x.staging ∧
      (f x).temporary = x.temporary ∧ (f x).fatalError = x.fatalError ∧
      (f x).version = x.version) :
    Frame1 s (s.updCtrl n f) := by
  refine ⟨rfl, rfl, rfl, rfl, fun c => ?_⟩
  by_cases hc : c = n
  · subst hc
    simpa using hf (s.ctrls c)
  · simp [updCtrl_ctrl_ne s f hc]

theorem frame1_rollback (s : St) (l : List Nat) : Frame1 s (rollbackCtrls l s) := by
  refine foldl_rel frame1_refl (fun h1 h2 => frame1_trans h1 h2) _ (fun s n => ?_) l s
  exact frame1_updCtrl s n _ (fun x => ⟨rfl, rfl, rfl, rfl, rfl⟩)

theorem frame1_onCancel (s : St) (l : List Nat) : Frame1 s (dryRunOnCancel l s) := by
  refine foldl_rel frame1_refl (fun h1 h2 => frame1_trans h1 h2) _ (fun s n => ?_) l s
  exact frame1_updCtrl s n _ (fun x => ⟨rfl, rfl, rfl, rfl, rfl⟩)

/-- `Frame1` for the whole phase-1 traversal (either outcome). -/
theorem phase1_frame (fuel root : Nat) (s : St) :
    (∀ orr s2, (phase1Run fuel root s).2 = .ok (orr, s2) → Frame1 s s2) ∧
    (∀ e s2, (phase1Run fuel root s).2 = .error (e, s2) → Frame1 s s2) := by
  refine traverseDF_rel fuel root _ _ _ _ _ _ s frame1_refl
    (fun h1 h2 => frame1_trans h1 h2) (fun n s => ?_) (fun scc fwd s r s' h => ?_)
    (fun scc fwd s e s' h => ?_) (fun ns s => frame1_onCancel s ns)
  · exact frame1_updCtrl s n _ (fun x => ⟨rfl, rfl, rfl, rfl, rfl⟩)
  · simp only [dryRunPost] at h
    cases h
    exact frame1_refl _
  · simp [dryRunPost] at h

theorem frame2_updCtrl (s : St) (n : Nat) (f : Controller → Controller)
    (hf : ∀ x : Controller, (f x).current = x.current ∧ (f x).pending = x.pending ∧
      (f x).previous = x.previous ∧ (f x).staging = x.staging ∧
      (f x).fatalError = x.fatalError ∧ (f x).version = x.version) :
    Frame2 s (s.updCtrl n f) := by
  refine ⟨rfl, rfl, le_refl _, fun _ _ => rfl, fun c => ?_⟩
  by_cases hc : c = n
  · subst hc
    simpa using hf (s.ctrls c)
  · simp [updCtrl_ctrl_ne s f hc]

theorem frame2_updInst (s : St) (i : Nat) (f : Instance → Instance)
    (hf : ∀ x : Instance, (f x).declId = x.declId) :
    Frame2 s (s.updInst i f) := by
  refine ⟨rfl, rfl, le_refl _, fun j _ => ?_, fun c => ⟨rfl, rfl, rfl, rfl, rfl, rfl⟩⟩
  by_cases hj : j = i
  · subst hj; simpa using hf (s.insts j)
  · simp [updInst_inst_ne s f hj]

theorem frame2_alloc (s : St) (d : Nat) : Frame2 s (s.allocInst d).2 := by
  refine ⟨rfl, rfl, by simp [St.allocInst], fun j hj => ?_,
    fun c => ⟨rfl, rfl, rfl, rfl, rfl, rfl⟩⟩
  have : j ≠ s.nextInst := Nat.ne_of_lt hj
  simp [St.allocInst, this]

theorem frame2_scratch (s : St) (l : List Nat) : Frame2 s { s with scratch := l } :=
  ⟨rfl, rfl, le_refl _, fun _ _ => rfl, fun _ => ⟨rfl, rfl, rfl, rfl, rfl, rfl⟩⟩

theorem instantiateTempsLoop_frame :
    ∀ (l : List Nat) (s : St),
      (∀ s', instantiateTempsLoop l s = .ok s' → Frame2 s s') ∧
      (∀ e s', instantiateTempsLoop l s = .error (e, s') → Frame2 s s') := by
  intro l
  induction l with
  | nil =>
    intro s
    refine ⟨fun s' h => ?_, fun e s' h => ?_⟩
    · simp [instantiateTempsLoop] at h; exact h ▸ frame2_refl s
    · simp [instantiateTempsLoop] at h
  | cons n ns ih =>
    intro s
    rcases hp : (s.ctrls n).pending with _ | p
    · refine ⟨fun s' h => ?_, fun e s' h => ?_⟩
      · simp [instantiateTempsLoop, hp] at h
      · simp [instantiateTempsLoop, hp] at h
        exact h.2 ▸ frame2_refl s
    · have h1 : Frame2 s (cloneInst s p).2 := frame2_alloc s (s.insts p).declId
      have h2 : Frame2 (cloneInst s p).2
          ((cloneInst s p).2.updCtrl n fun c => { c with temporary := some (cloneInst s p).1 }) :=
        frame2_updCtrl (cloneInst s p).2 n
          (fun c => { c with temporary := some (cloneInst s p).1 })
          (fun x => ⟨rfl, rfl, rfl, rfl, rfl, rfl⟩)
      have h3 : Frame2
          ((cloneInst s p).2.updCtrl n fun c => { c with temporary := some (cloneInst s p).1 })
          (instantiateInst
            ((cloneInst s p).2.updCtrl n fun c => { c with temporary := some (cloneInst s p).1 })
            (cloneInst s p).1) :=
        frame2_updInst _ _ _ (fun x => rfl)
      have h4 := frame2_scratch
        (instantiateInst
          ((cloneInst s p).2.updCtrl n fun c => { c with temporary := some (cloneInst s p).1 })
          (cloneInst s p).1)
        ((instantiateInst
          ((cloneInst s p).2.updCtrl n fun c => { c with temporary := some (cloneInst s p).1 })
          (cloneInst s p).1).scratch ++ [n])
      have hstep := frame2_trans h1 (frame2_trans h2 (frame2_trans h3 h4))
      refine ⟨fun s' h => ?_, fun e s' h => ?_⟩
      · simp only [instantiateTempsLoop] at h
        rw [hp] at h
        exact frame2_trans hstep ((ih _).1 s' h)
      · simp only [instantiateTempsLoop] at h
        rw [hp] at h
        exact frame2_trans hstep ((ih _).2 e s' h)

theorem linkTempsLoop_frame :
    ∀ (l : List Nat) (s : St),
      (∀ s', linkTempsLoop l s = .ok s' → Frame2 s s') ∧
      (∀ e s', linkTempsLoop l s = .error (e, s') → Frame2 s s') := by
  intro l
  induction l with
  | nil =>
    intro s
    refine ⟨fun s' h => ?_, fun e s' h => ?_⟩
    · simp [linkTempsLoop] at h; exact h ▸ frame2_refl s
    · simp [linkTempsLoop] at h
  | cons n ns ih =>
    intro s
    rcases ht : (s.ctrls n).temporary with _ | t
    · refine ⟨fun s' h => ?_, fun e s' h => ?_⟩
      · simp [linkTempsLoop, ht] at h
      · simp [linkTempsLoop, ht] at h
        exact h.2 ▸ frame2_refl s
    · rcases hl : linkInst s t with ⟨e1, s1⟩ | s1
      · refine ⟨fun s' h => ?_, fun e s' h => ?_⟩
        · simp only [linkTempsLoop] at h
          rw [ht] at h
          dsimp only at h
          rw [hl] at h
          simp at h
        · simp only [linkTempsLoop] at h
          rw [ht] at h
          dsimp only at h
          rw [hl] at h
          simp at h
          simp only [linkInst] at hl
          by_cases hok : (s.declOf t).linkOk
          · simp [hok] at hl
          · simp [hok] at hl
            exact h.2 ▸ hl.2 ▸ frame2_refl s
      · have hstep : Frame2 s s1 := by
          simp only [linkInst] at hl
          by_cases hok : (s.declOf t).linkOk
          · simp [hok] at hl
            exact hl ▸ frame2_updInst s t _ (fun x => rfl)
          · simp [hok] at hl
        refine ⟨fun s' h => ?_, fun e s' h => ?_⟩
        · simp only [linkTempsLoop] at h
          rw [ht] at h
          dsimp only at h
          rw [hl] at h
          exact frame2_trans hstep ((ih s1).1 s' h)
        · simp only [linkTempsLoop] at h
          rw [ht] at h
          dsimp only at h
          rw [hl] at h
          exact frame2_trans hstep ((ih s1).2 e s' h)

theorem linkTestPost_frame (cycle : List Nat) (fwd : List Bool) (s : St) :
    (∀ r s', linkTestPost cycle fwd s = .ok (r, s') → Frame2 s s') ∧
    (∀ e s', linkTestPost cycle fwd s = .error (e, s') → Frame2 s s') := by
  by_cases hu : (fwd.any id || cycle.any fun n => (s.ctrls n).pending ≠ (s.ctrls n).current) = true
  · rcases hi : instantiateTempsLoop cycle s with ⟨e1, s1⟩ | s1
    · refine ⟨fun r s' h => ?_, fun e s' h => ?_⟩
      · simp only [linkTestPost] at h
        rw [hu] at h
        simp only [if_true] at h
        rw [hi] at h
        simp at h
      · simp only [linkTestPost] at h
        rw [hu] at h
        simp only [if_true] at h
        rw [hi] at h
        simp at h
        exact h.2 ▸ (instantiateTempsLoop_frame cycle s).2 e1 s1 hi
    · have hf1 : Frame2 s s1 := (instantiateTempsLoop_frame cycle s).1 s1 hi
      rcases hl : linkTempsLoop cycle s1 with ⟨e2, s2⟩ | s2
      · refine ⟨fun r s' h => ?_, fun e s' h => ?_⟩
        · simp only [linkTestPost] at h
          rw [hu] at h
          simp only [if_true] at h
          rw [hi] at h
          dsimp only at h
          rw [hl] at h
          simp at h
        · simp only [linkTestPost] at h
          rw [hu] at h
          simp only [if_true] at h
          rw [hi] at h
          dsimp only at h
          rw [hl] at h
          simp at h
          exact h.2 ▸ frame2_trans hf1 ((linkTempsLoop_frame cycle s1).2 e2 s2 hl)
      · refine ⟨fun r s' h => ?_, fun e s' h => ?_⟩
        · simp only [linkTestPost] at h
          rw [hu] at h
          simp only [if_true] at h
          rw [hi] at h
          dsimp only at h
          rw [hl] at h
          simp at h
          exact h.2 ▸ frame2_trans hf1 ((linkTempsLoop_frame cycle s1).1 s2 hl)
        · simp only [linkTestPost] at h
          rw [hu] at h
          simp only [if_true] at h
          rw [hi] at h
          dsimp only at h
          rw [hl] at h
          simp at h
  · refine ⟨fun r s' h => ?_, fun e s' h => ?_⟩
    · simp only [linkTestPost] at h
      rw [eq_false_of_ne_true hu] at h
      simp at h
      exact h.2 ▸ frame2_refl s
    · simp only [linkTestPost] at h
      rw [eq_false_of_ne_true hu] at h
      simp at h

/-- `Frame2` for the whole phase-2 traversal (either outcome). -/
theorem phase2_frame (fuel root : Nat) (s : St) :
    (∀ orr s2, (phase2Run fuel root s).2 = .ok (orr, s2) → Frame2 s s2) ∧
    (∀ e s2, (phase2Run fuel root s).2 = .error (e, s2) → Frame2 s s2) := by
  refine traverseDF_rel fuel root _ _ _ _ _ _ s frame2_refl
    (fun h1 h2 => frame2_trans h1 h2) (fun n s => frame2_refl s)
    (fun scc fwd s r s' h => (linkTestPost_frame scc fwd s).1 r s' h)
    (fun scc fwd s e s' h => (linkTestPost_frame scc fwd s).2 e s' h)
    (fun ns s => frame2_refl s)

/-- Invariant of the link-test pass: a controller whose `temporary` slot is
occupied has been recorded in the `instantiated` scratch list. -/
def TempInScratch (s : St) : Prop :=
  ∀ c, (s.ctrls c).temporary ≠ none → c ∈ s.scratch

theorem tis_instantiateTempsLoop :
    ∀ (l : List Nat) (s : St), TempInScratch s →
      (∀ s', instantiateTempsLoop l s = .ok s' → TempInScratch s') ∧
      (∀ e s', instantiateTempsLoop l s = .error (e, s') → TempInScratch s') := by
  intro l
  induction l with
  | nil =>
    intro s hs
    refine ⟨fun s' h => ?_, fun e s' h => ?_⟩
    · simp [instantiateTempsLoop] at h; exact h ▸ hs
    · simp [instantiateTempsLoop] at h
  | cons n ns ih =>
    intro s hs
    rcases hp : (s.ctrls n).pending with _ | p
    · refine ⟨fun s' h => ?_, fun e s' h => ?_⟩
      · simp [instantiateTempsLoop, hp] at h
      · simp [instantiateTempsLoop, hp] at h
        exact h.2 ▸ hs
    · have hstep : TempInScratch
          { instantiateInst
              ((cloneInst s p).2.updCtrl n fun c => { c with temporary := some (cloneInst s p).1 })
              (cloneInst s p).1 with
            scratch := (instantiateInst
              ((cloneInst s p).2.updCtrl n fun c => { c with temporary := some (cloneInst s p).1 })
              (cloneInst s p).1).scratch ++ [n] } := by
        intro c hc
        simp only [instantiateInst, updInst_ctrls] at hc ⊢
        by_cases hcn : c = n
        · subst hcn
          simp [St.updCtrl, instantiateInst, cloneInst, St.allocInst]
        · rw [updCtrl_ctrl_ne _ _ hcn] at hc
          simp only [cloneInst, allocInst_ctrls] at hc
          simp only [instantiateInst, updInst_scratch, updCtrl_scratch, cloneInst,
            St.allocInst]
          exact List.mem_append_left _ (hs c hc)
      refine ⟨fun s' h => ?_, fun e s' h => ?_⟩
      · simp only [instantiateTempsLoop] at h
        rw [hp] at h
        exact (ih _ hstep).1 s' h
      · simp only [instantiateTempsLoop] at h
        rw [hp] at h
        exact (ih _ hstep).2 e s' h

theorem linkTempsLoop_ctrls :
    ∀ (l : List Nat) (s : St),
      (∀ s', linkTempsLoop l s = .ok s' → s'.ctrls = s.ctrls ∧ s'.scratch = s.scratch) ∧
      (∀ e s', linkTempsLoop l s = .error (e, s') → s'.ctrls = s.ctrls ∧ s'.scratch = s.scratch) := by
  intro l
  induction l with
  | nil =>
    intro s
    refine ⟨fun s' h => ?_, fun e s' h => ?_⟩
    · simp [linkTempsLoop] at h; exact h ▸ ⟨rfl, rfl⟩
    · simp [linkTempsLoop] at h
  | cons n ns ih =>
    intro s
    rcases ht : (s.ctrls n).temporary with _ | t
    · refine ⟨fun s' h => ?_, fun e s' h => ?_⟩
      · simp [linkTempsLoop, ht] at h
      · simp [linkTempsLoop, ht] at h
        exact h.2 ▸ ⟨rfl, rfl⟩
    · rcases hl : linkInst s t with ⟨e1, s1⟩ | s1
      · have hl1 : s1.ctrls = s.ctrls ∧ s1.scratch = s.scratch := by
          simp only [linkInst] at hl
          by_cases hok : (s.declOf t).linkOk
          · simp [hok] at hl
          · simp [hok] at hl
            exact hl.2 ▸ ⟨rfl, rfl⟩
        refine ⟨fun s' h => ?_, fun e s' h => ?_⟩
        · simp only [linkTempsLoop] at h
          rw [ht] at h
          dsimp only at h
          rw [hl] at h
          simp at h
        · simp only [linkTempsLoop] at h
          rw [ht] at h
          dsimp only at h
          rw [hl] at h
          simp at h
          exact h.2 ▸ hl1
      · have hl1 : s1.ctrls = s.ctrls ∧ s1.scratch = s.scratch := by
          simp only [linkInst] at hl
          by_cases hok : (s.declOf t).linkOk
          · simp [hok] at hl
            exact hl ▸ ⟨rfl, rfl⟩
          · simp [hok] at hl
        refine ⟨fun s' h => ?_, fun e s' h => ?_⟩
        · simp only [linkTempsLoop] at h
          rw [ht] at h
          dsimp only at h
          rw [hl] at h
          have := (ih s1).1 s' h
          exact ⟨this.1.trans hl1.1, this.2.trans hl1.2⟩
        · simp only [linkTempsLoop] at h
          rw [ht] at h
          dsimp only at h
          rw [hl] at h
          have := (ih s1).2 e s' h
          exact ⟨this.1.trans hl1.1, this.2.trans hl1.2⟩

/-- The link-test invariant is preserved by the whole phase-2 traversal. -/
theorem tis_phase2 (fuel root : Nat) (s : St) (hs : TempInScratch s) :
    (∀ orr s2, (phase2Run fuel root s).2 = .ok (orr, s2) → TempInScratch s2) ∧
    (∀ e s2, (phase2Run fuel root s).2 = .error (e, s2) → TempInScratch s2) := by
  have main := traverseDF_rel (P := fun a b => TempInScratch a → TempInScratch b)
    fuel root linkTestGuard (fun _ s => s) linkTestChildren linkTestPost
    (fun _ s => s) Err.assertion s (fun _ h => h) (fun h1 h2 h => h2 (h1 h))
    (fun _ _ h => h) ?_ ?_ (fun _ _ h => h)
  · exact ⟨fun orr s2 h => main.1 orr s2 h hs, fun e s2 h => main.2 e s2 h hs⟩
  · intro scc fwd s r s' h hts
    simp only [linkTestPost] at h
    by_cases hu : (fwd.any id || scc.any fun n => (s.ctrls n).pending ≠ (s.ctrls n).current) = true
    · rw [hu] at h
      simp only [if_true] at h
      rcases hi : instantiateTempsLoop scc s with ⟨e1, s1⟩ | s1
      · rw [hi] at h; simp at h
      · rw [hi] at h
        dsimp only at h
        rcases hl : linkTempsLoop scc s1 with ⟨e2, s2⟩ | s2
        · rw [hl] at h; simp at h
        · rw [hl] at h
          simp at h
          have h1 : TempInScratch s1 := (tis_instantiateTempsLoop scc s hts).1 s1 hi
          have h2 := (linkTempsLoop_ctrls scc s1).1 s2 hl
          obtain ⟨-, hse⟩ := h
          subst hse
          intro c hc
          rw [h2.1] at hc
          rw [h2.2]
          exact h1 c hc
    · rw [eq_false_of_ne_true hu] at h
      simp at h
      exact h.2 ▸ hts
  · intro scc fwd s e s' h hts
    simp only [linkTestPost] at h
    by_cases hu : (fwd.any id || scc.any fun n => (s.ctrls n).pending ≠ (s.ctrls n).current) = true
    · rw [hu] at h
      simp only [if_true] at h
      rcases hi : instantiateTempsLoop scc s with ⟨e1, s1⟩ | s1
      · rw [hi] at h
        simp at h
        exact h.2 ▸ (tis_instantiateTempsLoop scc s hts).2 e1 s1 hi
      · rw [hi] at h
        dsimp only at h
        rcases hl : linkTempsLoop scc s1 with ⟨e2, s2⟩ | s2
        · rw [hl] at h
          simp at h
          have h1 : TempInScratch s1 := (tis_instantiateTempsLoop scc s hts).1 s1 hi
          have h2 := (linkTempsLoop_ctrls scc s1).2 e2 s2 hl
          obtain ⟨-, hse⟩ := h
          subst hse
          intro c hc
          rw [h2.1] at hc
          rw [h2.2]
          exact h1 c hc
        · rw [hl] at h; simp at h
    · rw [eq_false_of_ne_true hu] at h
      simp at h

/-- Effect of the phase-2 `finally` loop: afterwards no controller in the
processed list keeps a `temporary`, non-`temporary` observables are
untouched, and `temporary` slots are never newly occupied. -/
theorem clearTempsLoop_spec :
    ∀ (l : List Nat) (s : St),
      (∀ c, ((clearTempsLoop l s).ctrls c).temporary ≠ none →
        ((s.ctrls c).temporary ≠ none ∧ c ∉ l)) ∧
      (clearTempsLoop l s).log = s.log ∧
      (clearTempsLoop l s).decls = s.decls ∧
      (clearTempsLoop l s).nextInst = s.nextInst ∧
      (∀ j, ((clearTempsLoop l s).insts j).declId = (s.insts j).declId) ∧
      ∀ c, ((clearTempsLoop l s).ctrls c).current = (s.ctrls c).current ∧
        ((clearTempsLoop l s).ctrls c).pending = (s.ctrls c).pending ∧
        ((clearTempsLoop l s).ctrls c).previous = (s.ctrls c).previous ∧
        ((clearTempsLoop l s).ctrls c).staging = (s.ctrls c).staging ∧
        ((clearTempsLoop l s).ctrls c).fatalError = (s.ctrls c).fatalError ∧
        ((clearTempsLoop l s).ctrls c).version = (s.ctrls c).version := by
  intro l
  induction l with
  | nil =>
    intro s
    exact ⟨fun c hc => ⟨by simpa [clearTempsLoop] using hc, by simp⟩, rfl, rfl, rfl,
      fun _ => rfl, fun _ => ⟨rfl, rfl, rfl, rfl, rfl, rfl⟩⟩
  | cons n ns ih =>
    intro s
    rcases ht : (s.ctrls n).temporary with _ | t
    · have heq : clearTempsLoop (n :: ns) s = clearTempsLoop ns s := by
        simp [clearTempsLoop, ht]
      rw [heq]
      obtain ⟨hc, hl, hd, hn, hi, hf⟩ := ih s
      refine ⟨fun c h2 => ?_, hl, hd, hn, hi, hf⟩
      obtain ⟨h3, h4⟩ := hc c h2
      refine ⟨h3, ?_⟩
      intro hmem
      rcases List.mem_cons.mp hmem with hcn | hcn
      · subst hcn; exact h3 ht
      · exact h4 hcn
    · have heq : clearTempsLoop (n :: ns) s =
          clearTempsLoop ns ((unlinkInst s t).2.updCtrl n fun c => { c with temporary := none }) := by
        simp [clearTempsLoop, ht]
      rw [heq]
      set s1 := (unlinkInst s t).2.updCtrl n fun c => { c with temporary := none } with hs1
      obtain ⟨hc, hl, hd, hn, hi, hf⟩ := ih s1
      have hs1t : ∀ c, (s1.ctrls c).temporary =
          (if c = n then none else (s.ctrls c).temporary) := by
        intro c
        by_cases hcn : c = n
        · subst hcn; simp [hs1, unlinkInst]
        · simp [hs1, unlinkInst, updCtrl_ctrl_ne _ _ hcn, hcn]
      have hs1other : ∀ c, (s1.ctrls c).current = (s.ctrls c).current ∧
          (s1.ctrls c).pending = (s.ctrls c).pending ∧
          (s1.ctrls c).previous = (s.ctrls c).previous ∧
          (s1.ctrls c).staging = (s.ctrls c).staging ∧
          (s1.ctrls c).fatalError = (s.ctrls c).fatalError ∧
          (s1.ctrls c).version = (s.ctrls c).version := by
        intro c
        by_cases hcn : c = n
        · subst hcn; simp [hs1, unlinkInst]
        · simp [hs1, unlinkInst, updCtrl_ctrl_ne _ _ hcn]
      refine ⟨fun c h2 => ?_, by rw [hl]; simp [hs1, unlinkInst],
        by rw [hd]; simp [hs1, unlinkInst],
        by rw [hn]; simp [hs1, unlinkInst], fun j => ?_, fun c => ?_⟩
      · obtain ⟨h3, h4⟩ := hc c h2
        rw [hs1t c] at h3
        by_cases hcn : c = n
        · subst hcn; simp at h3
        · rw [if_neg hcn] at h3
          refine ⟨h3, fun hmem => ?_⟩
          rcases List.mem_cons.mp hmem with h5 | h5
          · exact hcn h5
          · exact h4 h5
      · rw [hi j]
        by_cases hj : j = t
        · subst hj; simp [hs1, unlinkInst]
        · simp [hs1, unlinkInst, updInst_inst_ne _ _ hj]
      · obtain ⟨a1, a2, a3, a4, a5, a6⟩ := hf c
        obtain ⟨b1, b2, b3, b4, b5, b6⟩ := hs1other c
        exact ⟨a1.trans b1, a2.trans b2, a3.trans b3, a4.trans b4, a5.trans b5, a6.trans b6⟩

/-- Effect of the rollback routine: `pending`/`previous` cleared on the
listed controllers, everything else untouched. -/
theorem rollbackCtrls_spec :
    ∀ (l : List Nat) (s : St),
      (∀ c, c ∈ l → ((rollbackCtrls l s).ctrls c).pending = none ∧
        ((rollbackCtrls l s).ctrls c).previous = none) ∧
      (∀ c, c ∉ l → (rollbackCtrls l s).ctrls c = s.ctrls c) ∧
      (rollbackCtrls l s).scratch = s.scratch := by
  intro l
  induction l with
  | nil =>
    intro s
    exact ⟨fun c hc => absurd hc (List.not_mem_nil c), fun c _ => rfl, rfl⟩
  | cons n ns ih =>
    intro s
    have hstep : rollbackCtrls (n :: ns) s =
        rollbackCtrls ns (s.updCtrl n fun c => { c with pending := none, previous := none }) := rfl
    rw [hstep]
    set s1 := s.updCtrl n fun c => { c with pending := none, previous := none } with hs1
    obtain ⟨h1, h2, h3⟩ := ih s1
    refine ⟨fun c hc => ?_, fun c hc => ?_, by rw [h3]; simp [hs1]⟩
    · rcases List.mem_cons.mp hc with hcn | hcn
      · subst hcn
        by_cases hcns : c ∈ ns
        · exact h1 c hcns
        · rw [h2 c hcns]
          simp [hs1]
      · exact h1 c hcn
    · have hcn : c ≠ n := fun h => hc (h ▸ List.mem_cons_self n ns)
      have hcns : c ∉ ns := fun h => hc (List.mem_cons_of_mem n h)
      rw [h2 c hcns, hs1, updCtrl_ctrl_ne _ _ hcn]

/-- C2.  The link test has no user-visible side effects: it is skipped
without new code; on either outcome no user callback runs and no
controller's `current` changes; every `temporary` is cleared by the
`finally`; its per-instance link resolver is `temporary ?? pending`; and a
link throw yields exactly the rolled-back `linkError` return. -/
theorem linkTestNoSideEffects :
    (∀ (fuel root : Nat) (j : List Nat) (s : St),
       linkTestSegment fuel root false j s = .ok s) ∧
    (∀ c : Controller, linkTestLinkSelector c = (c.temporary <|> c.pending)) ∧
    (∀ (fuel root : Nat) (j : List Nat) (s s' : St),
       linkTestSegment fuel root true j s = .ok s' →
       s'.log = s.log ∧
       (∀ c, (s'.ctrls c).current = (s.ctrls c).current ∧
         (s'.ctrls c).pending = (s.ctrls c).pending ∧
         (s'.ctrls c).previous = (s.ctrls c).previous ∧
         (s'.ctrls c).staging = (s.ctrls c).staging ∧
         (s'.ctrls c).fatalError = (s.ctrls c).fatalError) ∧
       (TempInScratch s → ∀ c, (s'.ctrls c).temporary = none)) ∧
    (∀ (fuel root : Nat) (j : List Nat) (s : St) (res : UpdateResult) (s' : St),
       linkTestSegment fuel root true j s = .error (res, s') →
       (∃ e, res = .linkError e) ∧
       s'.log = s.log ∧
       (∀ c, (s'.ctrls c).current = (s.ctrls c).current ∧
         (s'.ctrls c).staging = (s.ctrls c).staging ∧
         (s'.ctrls c).fatalError = (s.ctrls c).fatalError) ∧
       (∀ c, c ∈ j → (s'.ctrls c).pending = none ∧ (s'.ctrls c).previous = none) ∧
       (TempInScratch s → ∀ c, (s'.ctrls c).temporary = none)) := by
  refine ⟨fun _ _ _ _ => rfl, fun _ => rfl, ?_, ?_⟩
  · intro fuel root j s s' h
    simp only [linkTestSegment] at h
    rcases h2 : (phase2Run fuel root s).2 with ⟨e1, s1⟩ | ⟨orr, s1⟩
    · rw [h2] at h; simp at h
    · rw [h2] at h
      simp at h
      subst h
      have hf : Frame2 s s1 := (phase2_frame fuel root s).1 orr s1 h2
      have ht : TempInScratch s → TempInScratch s1 :=
        fun hts => (tis_phase2 fuel root s hts).1 orr s1 h2
      obtain ⟨hc, hl, hd, hn, hi, hfields⟩ := clearTempsLoop_spec s1.scratch s1
      obtain ⟨l2, d2, n2, i2, f2⟩ := hf
      refine ⟨?_, fun c => ?_, fun hts c => ?_⟩
      · exact (show (phase2Finally s1).log = s1.log from hl).trans l2
      · obtain ⟨a1, a2, a3, a4, a5, a6⟩ := hfields c
        obtain ⟨b1, b2, b3, b4, b5, b6⟩ := f2 c
        exact ⟨a1.trans b1, a2.trans b2, a3.trans b3, a4.trans b4, a5.trans b5⟩
      · by_contra hne
        obtain ⟨h3, h4⟩ := hc c hne
        exact h4 (ht hts c h3)
  · intro fuel root j s res s' h
    simp only [linkTestSegment] at h
    rcases h2 : (phase2Run fuel root s).2 with ⟨e1, s1⟩ | ⟨orr, s1⟩
    · rw [h2] at h
      simp at h
      obtain ⟨hres, hs'⟩ := h
      subst hs'
      have hf : Frame2 s s1 := (phase2_frame fuel root s).2 e1 s1 h2
      have ht : TempInScratch s → TempInScratch s1 :=
        fun hts => (tis_phase2 fuel root s hts).2 e1 s1 h2
      set s2 := rollbackCtrls j s1 with hs2
      obtain ⟨r1, r2, r3⟩ := rollbackCtrls_spec j s1
      have hrb : Frame1 s1 s2 := frame1_rollback s1 j
      obtain ⟨hc, hl, hd, hn, hi, hfields⟩ := clearTempsLoop_spec s2.scratch s2
      obtain ⟨l2, d2, n2, i2, f2⟩ := hf
      obtain ⟨lb, db, ib, nb, fb⟩ := hrb
      refine ⟨⟨e1, hres.symm⟩, ?_, fun c => ?_, fun c hcj => ?_, fun hts c => ?_⟩
      · exact hl.trans (lb.trans l2)
      · obtain ⟨a1, a2, a3, a4, a5, a6⟩ := hfields c
        obtain ⟨p1, p2, p3, p4, p5⟩ := fb c
        obtain ⟨b1, b2, b3, b4, b5, b6⟩ := f2 c
        exact ⟨a1.trans (p1.trans b1), a4.trans (p2.trans b4), a5.trans (p4.trans b5)⟩
      · obtain ⟨a1, a2, a3, a4, a5, a6⟩ := hfields c
        obtain ⟨q1, q2⟩ := r1 c hcj
        exact ⟨a2.trans q1, a3.trans q2⟩
      · by_contra hne
        obtain ⟨h3, h4⟩ := hc c hne
        have hts2 : TempInScratch s2 := by
          intro x hx
          have hx1 : (s1.ctrls x).temporary ≠ none := by
            rw [← (fb x).2.2.1]
            exact hx
          rw [r3]
          exact ht hts x hx1
        exact h4 (hts2 c h3)
    · rw [h2] at h; simp at h

/-- A state as phase 1 leaves it: a root importing one child whose staged
new code fails to link. -/
def exC2p : St :=
  { mkSt
      [{ loadedModules := [1], acceptsSelf := true },
       { acceptsSelf := true },
       { acceptsSelf := true, linkOk := false }]
      [{ declId := 0, linked := true, evaluated := true },
       { declId := 1, linked := true, evaluated := true },
       { declId := 2 }]
      [(0, { current := some 0, pending := some 0, previous := some 0 }),
       (1, { current := some 1, pending := some 2, previous := some 1, staging := some 2 })] with
    scratch := [] }

/-- The error outcome of the link test on `exC2p`. -/
def exC2err : UpdateResult × St :=
  match linkTestSegment 7 0 true [0, 1] exC2p with
  | .error rs => rs
  | .ok s => (.unaccepted, s)

theorem exC2p_temps : ∀ c, (exC2p.ctrls c).temporary = none := by
  intro c
  match c with
  | 0 => rfl
  | 1 => rfl
  | _ + 2 => rfl

/-- Witness for C2 at a concrete input. -/
theorem linkTestNoSideEffects_witness :
    linkTestSegment 7 0 false [0, 1] exC2p = .ok exC2p ∧
    (∃ e, exC2err.1 = .linkError e) ∧
    exC2err.2.log = exC2p.log ∧
    (exC2err.2.ctrls 1).current = (exC2p.ctrls 1).current ∧
    (exC2err.2.ctrls 1).pending = none ∧
    (exC2err.2.ctrls 1).previous = none ∧
    (∀ c, (exC2err.2.ctrls c).temporary = none) := by
  have h4 := linkTestNoSideEffects.2.2.2 7 0 [0, 1] exC2p exC2err.1 exC2err.2 (by rfl)
  have hts : TempInScratch exC2p := fun c hc => absurd (exC2p_temps c) hc
  exact ⟨linkTestNoSideEffects.1 7 0 [0, 1] exC2p, h4.1, h4.2.1,
    (h4.2.2.1 1).1, (h4.2.2.2.1 1 (by decide)).1, (h4.2.2.2.1 1 (by decide)).2,
    h4.2.2.2.2 hts⟩

instance : Inhabited DryRunResult := ⟨.mk [] [] [] false false false⟩

/-- Inversion of a successful `travResult`. -/
theorem travResult_ok_inv {ρ ε : Type} (guard : Nat → St → Bool) (pre : Nat → St → St)
    (post : List Nat → List ρ → St → Except (ε × St) (ρ × St))
    (onCancel : List Nat → St → St) (ae : ε) (entered : List Nat)
    (sccs : List (List Nat)) (chPure : Nat → List Nat) (s : St) (orr : Option ρ) (s2 : St)
    (h : travResult guard pre post onCancel ae entered sccs chPure s = .ok (orr, s2)) :
    ∃ s1 acc, runPreE guard pre ae entered s = .ok s1 ∧
      goPosts post sccs chPure sccs [] s1 = .ok (acc, s2) ∧ acc.getLast? = orr := by
  rcases hrp : runPreE guard pre ae entered s with ⟨e1, s1⟩ | s1
  · simp only [travResult] at h
    rw [hrp] at h
    simp at h
  · simp only [travResult] at h
    rw [hrp] at h
    dsimp only at h
    rcases hgp : goPosts post sccs chPure sccs [] s1 with ⟨e2, rem, s3⟩ | ⟨acc, s3⟩
    · rw [hgp] at h; simp at h
    · rw [hgp] at h
      simp at h
      exact ⟨s1, acc, rfl, h.2 ▸ hgp, h.1⟩

/-- `goPosts` with a state-pure post: the state never changes and every
accumulated result satisfies an invariant closed under the post. -/
theorem goPosts_results_pure {ρ ε : Type}
    (post : List Nat → List ρ → St → Except (ε × St) (ρ × St))
    (all : List (List Nat)) (ch : Nat → List Nat) (s0 : St) (Q : ρ → Prop)
    (hpure : ∀ scc fwd r s', post scc fwd s0 = .ok (r, s') → s' = s0)
    (hq : ∀ scc fwd r s', (∀ x ∈ fwd, Q x) → post scc fwd s0 = .ok (r, s') → Q r) :
    ∀ (l : List (List Nat)) (acc : List ρ) (acc2 : List ρ) (s2 : St),
      (∀ x ∈ acc, Q x) → goPosts post all ch l acc s0 = .ok (acc2, s2) →
      (∀ x ∈ acc2, Q x) ∧ s2 = s0 := by
  intro l
  induction l with
  | nil =>
    intro acc acc2 s2 hacc h
    simp [goPosts] at h
    exact ⟨h.1 ▸ hacc, h.2.symm⟩
  | cons scc rest ih =>
    intro acc acc2 s2 hacc h
    simp only [goPosts] at h
    rcases hpost : post scc ((succIdxs all ch acc.length scc).filterMap fun j => acc.get? j) s0 with
      ⟨e1, s1⟩ | ⟨r, s1⟩
    · rw [hpost] at h; simp at h
    · rw [hpost] at h
      have hfwd : ∀ x ∈ (succIdxs all ch acc.length scc).filterMap fun j => acc.get? j, Q x := by
        intro x hx
        obtain ⟨j, _, hj⟩ := List.mem_filterMap.mp hx
        exact hacc x (List.get?_mem hj)
      have hr : Q r := hq _ _ _ _ hfwd hpost
      have hs1 : s1 = s0 := hpure _ _ _ _ hpost
      subst hs1
      have hacc2 : ∀ x ∈ acc ++ [r], Q x := by
        intro x hx
        rcases List.mem_append.mp hx with hx | hx
        · exact hacc x hx
        · simp at hx; exact hx ▸ hr
      exact ih (acc ++ [r]) acc2 s2 hacc2 h

theorem dryRunPost_pure (scc : List Nat) (fwd : List DryRunResult) (s : St)
    (r : DryRunResult) (s' : St) (h : dryRunPost scc fwd s = .ok (r, s')) : s' = s := by
  simp only [dryRunPost] at h
  cases h
  rfl

/-- In a dry-run SCC result, an invalidated-list inclusion forces
`needsDispatch`. -/
theorem dryRunScan_ne_nil (s : St) (fw : List Nat) :
    ∀ l : List Nat, (dryRunScan s fw l).1 ≠ [] → (dryRunScan s fw l).2.1 = true := by
  intro l
  induction l with
  | nil => intro h; simp [dryRunScan] at h
  | cons n ns ih =>
    intro h
    simp only [dryRunScan] at h ⊢
    by_cases hcond : ((decide ((s.ctrls n).previous ≠ (s.ctrls n).pending)) ||
        (match (s.ctrls n).current with
         | none => true
         | some i => isInvalidated s i || !isAccepted s i fw)) = true
    · rw [hcond]
      simp
    · rw [eq_false_of_ne_true hcond] at h ⊢
      simp only [Bool.false_and, Bool.false_or] at h ⊢
      simp at h
      exact ih h

/-- The declined list of one dry-run SCC is the declined filter of its own
invalidated list: a declined module outside the invalidated set
contributes nothing. -/
theorem dryRunPost_declined_eq (scc : List Nat) (fwd : List DryRunResult) (s : St)
    (r : DryRunResult) (s' : St) (h : dryRunPost scc fwd s = .ok (r, s')) :
    r.declined = r.invalidated.filter (fun n =>
      match (s.ctrls n).current with
      | some i => isDeclined s i
      | none => false) := by
  simp only [dryRunPost] at h
  cases h
  rfl

/-- Declined entries of a dry-run result tree produced by `dryRunPost` at
state `s` are controllers whose current instance is declined. -/
def DeclSound (s : St) (r : DryRunResult) : Prop :=
  ∀ n ∈ r.flattenDeclined, ∃ i, (s.ctrls n).current = some i ∧ isDeclined s i = true

theorem flattenDeclinedList_mem :
    ∀ (l : List DryRunResult) (n : Nat), n ∈ flattenDeclinedList l →
      ∃ r ∈ l, n ∈ r.flattenDeclined := by
  intro l
  induction l with
  | nil => intro n h; simp [flattenDeclinedList] at h
  | cons r rs ih =>
    intro n h
    simp only [flattenDeclinedList] at h
    rcases List.mem_append.mp h with h1 | h1
    · exact ⟨r, List.mem_cons_self r rs, h1⟩
    · obtain ⟨r2, hr2, hn⟩ := ih n h1
      exact ⟨r2, List.mem_cons_of_mem r hr2, hn⟩

theorem dryRunPost_declSound (scc : List Nat) (fwd : List DryRunResult) (s : St)
    (r : DryRunResult) (s' : St) (hfwd : ∀ x ∈ fwd, DeclSound s x)
    (h : dryRunPost scc fwd s = .ok (r, s')) : DeclSound s r := by
  simp only [dryRunPost] at h
  cases h
  intro n hn
  simp only [DryRunResult.flattenDeclined] at hn
  rcases List.mem_append.mp hn with hn | hn
  · have hfil := List.mem_filter.mp hn
    rcases hc : (s.ctrls n).current with _ | i
    · rw [hc] at hfil
      simp at hfil
    · rw [hc] at hfil
      exact ⟨i, rfl, by simpa using hfil.2⟩
  · obtain ⟨r2, hr2, hn2⟩ := flattenDeclinedList_mem fwd n hn
    exact hfwd r2 hr2 n hn2

/-- `hasDecline` forces `needsDispatch` in every dry-run result. -/
def DecDisp (r : DryRunResult) : Prop :=
  r.hasDecline = true → r.needsDispatch = true

theorem dryRunPost_decDisp (scc : List Nat) (fwd : List DryRunResult) (s : St)
    (r : DryRunResult) (s' : St) (hfwd : ∀ x ∈ fwd, DecDisp x)
    (h : dryRunPost scc fwd s = .ok (r, s')) : DecDisp r := by
  simp only [dryRunPost] at h
  cases h
  intro hd
  simp only [DryRunResult.hasDecline, DryRunResult.needsDispatch] at hd ⊢
  rcases Bool.or_eq_true_iff.mp hd with hd | hd
  · have hne : (dryRunScan s (fwd.flatMap DryRunResult.invalidated) scc).1 ≠ [] := by
      intro hnil
      rw [hnil] at hd
      simp at hd
    rw [dryRunScan_ne_nil s _ scc hne]
    simp
  · obtain ⟨x, hx, hxd⟩ := List.any_eq_true.mp hd
    have := hfwd x hx hxd
    refine Bool.or_eq_true_iff.mpr (Or.inr ?_)
    exact List.any_eq_true.mpr ⟨x, hx, this⟩

/-- Inversion of a successful phase-1 run: the pre pass succeeded, the
posts folded without error, posts were state-pure, and the root result is
the last accumulated one. -/
theorem phase1Run_ok_inv (fuel root : Nat) (s : St) (tj : TravInfo)
    (orr : Option DryRunResult) (s1 : St)
    (h : phase1Run fuel root s = (tj, .ok (orr, s1))) :
    ∃ acc, runPreE dryRunGuard dryRunPre Err.assertion tj.entered s = .ok s1 ∧
      goPosts dryRunPost tj.sccs (fun n => dryRunChildren n (dryRunPre n s)) tj.sccs [] s1 =
        .ok (acc, s1) ∧
      acc.getLast? = orr ∧
      tj = tarjanOut (fun n => dryRunChildren n (dryRunPre n s)) fuel root := by
  have hfst := congrArg Prod.fst h
  have hsnd := congrArg Prod.snd h
  simp only [phase1Run, traverseDF] at hfst hsnd
  obtain ⟨s2, acc, hrp, hgp, hlast⟩ :=
    travResult_ok_inv dryRunGuard dryRunPre dryRunPost dryRunOnCancel Err.assertion
      _ _ _ s orr s1 hsnd
  have hpure : ∀ x ∈ acc, True ∧ s1 = s2 → True := fun _ _ _ => trivial
  have hgp2 := goPosts_results_pure dryRunPost _ _ s2 (fun _ => True)
    (fun scc fwd r s' hh => dryRunPost_pure scc fwd s2 r s' hh)
    (fun _ _ _ _ _ _ => trivial) _ [] acc s1 (by simp) hgp
  have hs12 : s1 = s2 := hgp2.2
  subst hs12
  rw [hfst] at hrp hgp
  exact ⟨acc, hrp, hgp, hlast, hfst.symm⟩

/-- C3.  If the dry run reports a decline, `requestUpdate` rolls back and
returns the `declined` result listing controllers whose current instance
is declined; no user callback has run, `current`/`staging` are untouched,
and (by `dryRunPost_declined_eq`) only modules in the SCC's own
invalidated list can contribute to the declined list. -/
theorem declineBlocksUpdate (fuel : Nat) (s : St) (root : Nat) (tj : TravInfo)
    (ir : DryRunResult) (s1 : St)
    (hfatal : (s.ctrls root).fatalError = none)
    (h1 : phase1Run fuel root { s with statLoads := 0, statReevals := 0, scratch := [] } =
      (tj, .ok (some ir, s1)))
    (hdec : ir.hasDecline = true) :
    requestUpdate fuel s root =
      (.ret (some (.declined ir.flattenDeclined)), rollbackCtrls tj.sccs.flatten s1) ∧
    (rollbackCtrls tj.sccs.flatten s1).log = s.log ∧
    (∀ c, c ∈ tj.sccs.flatten → ((rollbackCtrls tj.sccs.flatten s1).ctrls c).pending = none ∧
       ((rollbackCtrls tj.sccs.flatten s1).ctrls c).previous = none) ∧
    (∀ c, ((rollbackCtrls tj.sccs.flatten s1).ctrls c).current = (s.ctrls c).current ∧
       ((rollbackCtrls tj.sccs.flatten s1).ctrls c).staging = (s.ctrls c).staging) ∧
    (∀ n, n ∈ ir.flattenDeclined → ∃ i, (s1.ctrls n).current = some i ∧
       isDeclined s1 i = true) ∧
    (∀ cycle fwd s2 r s', dryRunPost cycle fwd s2 = .ok (r, s') →
       r.declined = r.invalidated.filter (fun n =>
         match (s2.ctrls n).current with
         | some i => isDeclined s2 i
         | none => false)) := by
  obtain ⟨acc, hrp, hgp, hlast, htj⟩ := phase1Run_ok_inv fuel root _ tj (some ir) s1 h1
  have hsnd := congrArg Prod.snd h1
  have hq := goPosts_results_pure dryRunPost tj.sccs _ s1
    (fun r => DeclSound s1 r ∧ DecDisp r)
    (fun scc fwd r s' hh => dryRunPost_pure scc fwd s1 r s' hh)
    (fun scc fwd r s' hfwd hh =>
      ⟨dryRunPost_declSound scc fwd s1 r s' (fun x hx => (hfwd x hx).1) hh,
       dryRunPost_decDisp scc fwd s1 r s' (fun x hx => (hfwd x hx).2) hh⟩)
    tj.sccs [] acc s1 (by simp) hgp
  have hir : DeclSound s1 ir ∧ DecDisp ir :=
    hq.1 ir (List.mem_of_mem_getLast? (by rw [hlast]; rfl))
  have hnd : ir.needsDispatch = true := hir.2 hdec
  have hru : requestUpdate fuel s root =
      (.ret (some (.declined ir.flattenDeclined)), rollbackCtrls tj.sccs.flatten s1) := by
    simp only [requestUpdate]
    rw [hfatal]
    dsimp only
    rw [h1]
    dsimp only
    rw [hnd, hdec]
    simp
  have hframe : Frame1 { s with statLoads := 0, statReevals := 0, scratch := [] } s1 :=
    (phase1_frame fuel root _).1 (some ir) s1 hsnd
  have hrb : Frame1 s1 (rollbackCtrls tj.sccs.flatten s1) := frame1_rollback s1 _
  obtain ⟨l1, d1, i1, n1, f1⟩ := hframe
  obtain ⟨l2, d2, i2, n2, f2⟩ := hrb
  obtain ⟨r1, r2, r3⟩ := rollbackCtrls_spec tj.sccs.flatten s1
  refine ⟨hru, l2.trans l1, r1, fun c => ?_, hir.1, ?_⟩
  · exact ⟨(f2 c).1.trans (f1 c).1, (f2 c).2.1.trans (f1 c).2.1⟩
  · intro cycle fwd s2 r s' hh
    exact dryRunPost_declined_eq cycle fwd s2 r s' hh

def p1tj (fuel root : Nat) (s : St) : TravInfo :=
  (phase1Run fuel root s).1

def p1res (fuel root : Nat) (s : St) : DryRunResult :=
  match (phase1Run fuel root s).2 with
  | .ok (some r, _) => r
  | _ => default

def p1st (fuel root : Nat) (s : St) : St :=
  match (phase1Run fuel root s).2 with
  | .ok (_, st) => st
  | .error (_, st) => st

/-- Concrete input for C3: a root importing a child whose current code
called `decline()` and which has new code staged. -/
def exC3 : St :=
  mkSt [{ loadedModules := [1] }, { declined := true }, {}]
    [{ declId := 0, linked := true, evaluated := true },
     { declId := 1, linked := true, evaluated := true },
     { declId := 2 }]
    [(0, { current := some 0 }), (1, { current := some 1, staging := some 2 })]

def exC3s0 : St := { exC3 with statLoads := 0, statReevals := 0, scratch := [] }

/-- Witness for C3 at a concrete input. -/
theorem declineBlocksUpdate_witness :
    (requestUpdate 20 exC3 0).1 = .ret (some (.declined [1])) ∧
    (requestUpdate 20 exC3 0).2.log = exC3.log := by
  have h := declineBlocksUpdate 20 exC3 0 (p1tj 20 0 exC3s0) (p1res 20 0 exC3s0)
    (p1st 20 0 exC3s0) rfl (by rfl) (by rfl)
  have hfst := congrArg Prod.fst h.1
  have hsnd := congrArg Prod.snd h.1
  constructor
  · rw [hfst]; rfl
  · rw [hsnd]; exact h.2.1

/-- `runPreE` succeeds and maintains a unary invariant when the invariant
implies the guard and is preserved by the pre effect. -/
theorem runPreE_ok_of {ε : Type} (guard : Nat → St → Bool) (pre : Nat → St → St) (ae : ε)
    (P : St → Prop) (hpre : ∀ n s, P s → P (pre n s))
    (hguard : ∀ n s, P s → guard n s = true) :
    ∀ (l : List Nat) (s : St), P s →
      ∃ s', runPreE guard pre ae l s = .ok s' ∧ P s' := by
  intro l
  induction l with
  | nil => intro s hs; exact ⟨s, rfl, hs⟩
  | cons n ns ih =>
    intro s hs
    obtain ⟨s', h1, h2⟩ := ih (pre n s) (hpre n s hs)
    exact ⟨s', by simp [runPreE, hguard n s hs, h1], h2⟩

/-- `runPreE` leaves controllers outside the processed list untouched. -/
theorem runPreE_untouched {ε : Type} (guard : Nat → St → Bool) (pre : Nat → St → St) (ae : ε)
    (hloc : ∀ n s c, c ≠ n → ((pre n s).ctrls c) = s.ctrls c) :
    ∀ (l : List Nat) (s : St) (c : Nat), c ∉ l →
      (∀ s2, runPreE guard pre ae l s = .ok s2 → s2.ctrls c = s.ctrls c) ∧
      (∀ e s2, runPreE guard pre ae l s = .error (e, s2) → s2.ctrls c = s.ctrls c) := by
  intro l
  induction l with
  | nil =>
    intro s c _
    refine ⟨fun s2 h => ?_, fun e s2 h => ?_⟩
    · simp [runPreE] at h; exact h ▸ rfl
    · simp [runPreE] at h
  | cons n ns ih =>
    intro s c hc
    have hcn : c ≠ n := fun h => hc (h ▸ List.mem_cons_self n ns)
    have hcns : c ∉ ns := fun h => hc (List.mem_cons_of_mem n h)
    by_cases hg : guard n s
    · refine ⟨fun s2 h => ?_, fun e s2 h => ?_⟩
      · simp only [runPreE, hg, if_true] at h
        exact ((ih (pre n s) c hcns).1 s2 h).trans (hloc n s c hcn)
      · simp only [runPreE, hg, if_true] at h
        exact ((ih (pre n s) c hcns).2 e s2 h).trans (hloc n s c hcn)
    · refine ⟨fun s2 h => ?_, fun e s2 h => ?_⟩
      · simp [runPreE, hg] at h
      · simp [runPreE, hg] at h
        exact h.2 ▸ rfl

theorem flatMap_invalidated_nil (fwd : List DryRunResult)
    (h : ∀ x ∈ fwd, x.invalidated = []) : fwd.flatMap DryRunResult.invalidated = [] := by
  induction fwd with
  | nil => rfl
  | cons r rs ih =>
    simp only [List.flatMap_cons]
    rw [h r (List.mem_cons_self r rs), ih (fun x hx => h x (List.mem_cons_of_mem r hx))]
    rfl

theorem dryRunScan_trivial (s1 : St)
    (hc : ∀ c, ∃ i, (s1.ctrls c).current = some i ∧ isInvalidated s1 i = false)
    (hpp : ∀ c, (s1.ctrls c).pending = (s1.ctrls c).previous) :
    ∀ l : List Nat, dryRunScan s1 [] l = ([], false, false) := by
  intro l
  induction l with
  | nil => rfl
  | cons n ns ih =>
    obtain ⟨i, hcur, hinv⟩ := hc n
    simp only [dryRunScan, ih, hcur]
    rw [hpp n]
    simp [hinv, isAccepted]

theorem goPosts_ok_total {ρ ε : Type}
    (post : List Nat → List ρ → St → Except (ε × St) (ρ × St))
    (all : List (List Nat)) (ch : Nat → List Nat)
    (htot : ∀ scc fwd s, ∃ r, post scc fwd s = .ok (r, s)) :
    ∀ (l : List (List Nat)) (acc : List ρ) (s : St),
      ∃ acc2, goPosts post all ch l acc s = .ok (acc2, s) := by
  intro l
  induction l with
  | nil => intro acc s; exact ⟨acc, rfl⟩
  | cons scc rest ih =>
    intro acc s
    obtain ⟨r, hr⟩ := htot scc ((succIdxs all ch acc.length scc).filterMap fun j => acc.get? j) s
    obtain ⟨acc2, h2⟩ := ih (acc ++ [r]) s
    refine ⟨acc2, ?_⟩
    simp only [goPosts]
    rw [hr]
    exact h2

/-- C4.  With no reachable new code (`staging` empty everywhere), every
controller current and none invalidated, the dry run computes
`needsDispatch = false` and `requestUpdate` is a no-op: it returns
`undefined`, runs no user code, clears `pending`/`previous` everywhere and
leaves every `current` untouched. -/
theorem noSpuriousReload (fuel : Nat) (s : St) (root : Nat)
    (hfatal : (s.ctrls root).fatalError = none)
    (hcur : ∀ c, ∃ i, (s.ctrls c).current = some i ∧ isInvalidated s i = false)
    (hstag : ∀ c, (s.ctrls c).staging = none)
    (hclean : ∀ c, (s.ctrls c).pending = none ∧ (s.ctrls c).previous = none)
    (hfa : ∀ c, c ∈ (phase1Run fuel root
        { s with statLoads := 0, statReevals := 0, scratch := [] }).1.entered →
      c ∈ (phase1Run fuel root
        { s with statLoads := 0, statReevals := 0, scratch := [] }).1.sccs.flatten) :
    (requestUpdate fuel s root).1 = .ret none ∧
    (requestUpdate fuel s root).2.log = s.log ∧
    (∀ c, ((requestUpdate fuel s root).2.ctrls c).pending = none ∧
       ((requestUpdate fuel s root).2.ctrls c).previous = none) ∧
    (∀ c, ((requestUpdate fuel s root).2.ctrls c).current = (s.ctrls c).current) := by
  set s0 : St := { s with statLoads := 0, statReevals := 0, scratch := [] } with hs0
  set ch : Nat → List Nat := fun n => dryRunChildren n (dryRunPre n s0) with hch
  set tj := tarjanOut ch fuel root with htjdef
  set P : St → Prop := fun s' => s'.insts = s.insts ∧ s'.decls = s.decls ∧ s'.log = s.log ∧
    ∀ c, (s'.ctrls c).current = (s.ctrls c).current ∧ (s'.ctrls c).staging = none ∧
      (s'.ctrls c).pending = (s'.ctrls c).previous with hPdef
  have hP0 : P s0 := ⟨rfl, rfl, rfl, fun c => ⟨rfl, hstag c, by rw [(hclean c).1, (hclean c).2]⟩⟩
  have hpre : ∀ n st, P st → P (dryRunPre n st) := by
    intro n st hP
    obtain ⟨hi, hd, hlg, hf⟩ := hP
    refine ⟨hi, hd, hlg, fun c => ?_⟩
    by_cases hcn : c = n
    · subst hcn
      obtain ⟨h1, h2, h3⟩ := hf c
      simp only [dryRunPre, updCtrl_ctrl_same]
      exact ⟨h1, h2, by simp [h2]⟩
    · rw [show (dryRunPre n st).ctrls c = st.ctrls c from updCtrl_ctrl_ne st _ hcn]
      exact hf c
  have hguard : ∀ n st, P st → dryRunGuard n st = true := by
    intro n st hP
    obtain ⟨i, hci, _⟩ := hcur n
    obtain ⟨h1, h2, h3⟩ := hP.2.2.2 n
    simp [dryRunGuard, h2, h1, hci]
  obtain ⟨s1, hrp, hP1⟩ := runPreE_ok_of dryRunGuard dryRunPre Err.assertion P hpre hguard
    tj.entered s0 hP0
  obtain ⟨acc, hgp⟩ := goPosts_ok_total dryRunPost tj.sccs ch
    (fun scc fwd st => ⟨_, rfl⟩) tj.sccs [] s1
  have hq := goPosts_results_pure dryRunPost tj.sccs ch s1
    (fun r => r.needsDispatch = false ∧ r.invalidated = [])
    (fun scc fwd r s' hh => dryRunPost_pure scc fwd s1 r s' hh)
    (fun scc fwd r s' hfwd hh => by
      simp only [dryRunPost] at hh
      cases hh
      have hfm : fwd.flatMap DryRunResult.invalidated = [] :=
        flatMap_invalidated_nil fwd (fun x hx => (hfwd x hx).2)
      have hsc : dryRunScan s1 [] scc = ([], false, false) := by
        refine dryRunScan_trivial s1 (fun c => ?_) (fun c => (hP1.2.2.2 c).2.2) scc
        obtain ⟨i, hci, hinv⟩ := hcur c
        refine ⟨i, (hP1.2.2.2 c).1.trans hci, ?_⟩
        simp only [isInvalidated, St.declOf]
        rw [hP1.1, hP1.2.1]
        exact hinv
      rw [hfm, hsc]
      simp only [DryRunResult.needsDispatch, DryRunResult.invalidated]
      constructor
      · simp only [Bool.false_or]
        rw [List.any_eq_false]
        intro x hx
        rw [(hfwd x hx).1]
        simp
      · trivial)
    tj.sccs [] acc s1 (by simp) hgp
  have htr : travResult dryRunGuard dryRunPre dryRunPost dryRunOnCancel Err.assertion
      tj.entered tj.sccs ch s0 = .ok (acc.getLast?, s1) := by
    simp only [travResult]
    rw [hrp]
    dsimp only
    rw [hgp]
  have hp1 : phase1Run fuel root s0 = (tj, .ok (acc.getLast?, s1)) := by
    have : phase1Run fuel root s0 =
        (tj, travResult dryRunGuard dryRunPre dryRunPost dryRunOnCancel Err.assertion
          tj.entered tj.sccs ch s0) := rfl
    rw [this, htr]
  have hru : requestUpdate fuel s root = (.ret none, rollbackCtrls tj.sccs.flatten s1) := by
    simp only [requestUpdate]
    rw [hfatal]
    dsimp only
    rw [hp1]
    rcases hl : acc.getLast? with _ | ir
    · rfl
    · have hir := hq.1 ir (List.mem_of_mem_getLast? (by rw [hl]; rfl))
      dsimp only
      rw [hir.1]
      simp
  have hfa2 : ∀ c, c ∈ tj.entered → c ∈ tj.sccs.flatten := by
    intro c hc
    have he : (phase1Run fuel root s0).1 = tj := congrArg Prod.fst hp1
    have := hfa c
    rw [he] at this
    exact this hc
  rw [hru]
  have hrbs := rollbackCtrls_spec tj.sccs.flatten s1
  have hrbf : Frame1 s1 (rollbackCtrls tj.sccs.flatten s1) := frame1_rollback s1 _
  refine ⟨rfl, hrbf.1.trans hP1.2.2.1, fun c => ?_, fun c => ?_⟩
  · by_cases hcf : c ∈ tj.sccs.flatten
    · exact hrbs.1 c hcf
    · rw [hrbs.2.1 c hcf]
      have hce : c ∉ tj.entered := fun h => hcf (hfa2 c h)
      have hun := (runPreE_untouched dryRunGuard dryRunPre Err.assertion
        (fun n st x hx => updCtrl_ctrl_ne st _ hx) tj.entered s0 c hce).1 s1 hrp
      rw [hun]
      exact hclean c
  · exact ((frame1_rollback s1 tj.sccs.flatten).2.2.2.2 c).1.trans (hP1.2.2.2 c).1

/-- Concrete input for C4: every controller current, nothing staged. -/
def exC4 : St :=
  { decls := fun n => if n = 0 then { loadedModules := [1] } else {},
    insts := fun i => { declId := if i = 0 then 0 else 1, linked := true, evaluated := true },
    ctrls := fun c => { current := some (if c = 0 then 0 else if c = 1 then 1 else 2) },
    nextInst := 3, log := [], statLoads := 0, statReevals := 0, scratch := [] }

/-- Witness for C4 at a concrete input. -/
theorem noSpuriousReload_witness :
    (requestUpdate 20 exC4 0).1 = .ret none ∧
    (requestUpdate 20 exC4 0).2.log = exC4.log ∧
    ((requestUpdate 20 exC4 0).2.ctrls 1).pending = none ∧
    ((requestUpdate 20 exC4 0).2.ctrls 0).current = (exC4.ctrls 0).current := by
  have h := noSpuriousReload 20 exC4 0 rfl ?_ (fun c => rfl) (fun c => ⟨rfl, rfl⟩) ?_
  · exact ⟨h.1, h.2.1, (h.2.2.1 1).1, h.2.2.2 0⟩
  · intro c
    refine ⟨if c = 0 then 0 else if c = 1 then 1 else 2, rfl, ?_⟩
    simp only [isInvalidated, St.declOf, exC4]
    rw [apply_ite Decl.invalidated]
    simp
  · decide

theorem frame3_updCtrl (s : St) (n : Nat) (f : Controller → Controller)
    (hf : ∀ x : Controller, ((f x).pending = x.pending ∨ (f x).pending = none) ∧
      (f x).previous = x.previous ∧ (f x).temporary = x.temporary ∧
      (f x).fatalError = x.fatalError ∧ (f x).version = x.version) :
    Frame3 s (s.updCtrl n f) := by
  refine ⟨rfl, le_refl _, fun _ _ => rfl, fun c hc => ?_, fun c => ?_⟩
  · by_cases hcn : c = n
    · subst hcn
      rw [updCtrl_ctrl_same] at hc ⊢
      rcases (hf (s.ctrls c)).1 with h | h
      · exact h
      · exact absurd h hc
    · rw [updCtrl_ctrl_ne s f hcn]
  · by_cases hcn : c = n
    · subst hcn
      rw [updCtrl_ctrl_same]
      exact (hf (s.ctrls c)).2
    · rw [updCtrl_ctrl_ne s f hcn]
      exact ⟨rfl, rfl, rfl, rfl⟩

theorem frame3_updInst (s : St) (i : Nat) (f : Instance → Instance)
    (hf : ∀ x : Instance, (f x).declId = x.declId) : Frame3 s (s.updInst i f) := by
  refine ⟨rfl, le_refl _, fun j _ => ?_, fun c _ => rfl, fun c => ⟨rfl, rfl, rfl, rfl⟩⟩
  by_cases hj : j = i
  · subst hj; simpa using hf (s.insts j)
  · simp [updInst_inst_ne s f hj]

theorem frame3_alloc (s : St) (d : Nat) : Frame3 s (s.allocInst d).2 := by
  refine ⟨rfl, by simp [St.allocInst], fun j hj => ?_, fun c _ => rfl,
    fun c => ⟨rfl, rfl, rfl, rfl⟩⟩
  have : j ≠ s.nextInst := Nat.ne_of_lt hj
  simp [St.allocInst, this]

theorem frame3_push (s : St) (e : Event) : Frame3 s (s.push e) :=
  ⟨rfl, le_refl _, fun _ _ => rfl, fun c _ => rfl, fun c => ⟨rfl, rfl, rfl, rfl⟩⟩

theorem frame3_countStat (n i : Nat) (s : St) : Frame3 s (countStat n i s) := by
  unfold countStat
  rcases (s.ctrls n).previous with _ | q
  · exact ⟨rfl, le_refl _, fun _ _ => rfl, fun c _ => rfl, fun c => ⟨rfl, rfl, rfl, rfl⟩⟩
  · by_cases hd : (s.insts i).declId = (s.insts q).declId <;>
      simp only [hd, if_true, if_false] <;>
      exact ⟨rfl, le_refl _, fun _ _ => rfl, fun c _ => rfl, fun c => ⟨rfl, rfl, rfl, rfl⟩⟩

theorem needsUpdateScan_frame (s : St) :
    ∀ l : List Nat, (∀ e s', needsUpdateScan s l = .error (e, s') → s' = s) := by
  intro l
  induction l with
  | nil => intro e s' h; simp [needsUpdateScan] at h
  | cons n ns ih =>
    intro e s' h
    simp only [needsUpdateScan] at h
    rcases hst : (s.ctrls n).staging with _ | i
    · rw [hst] at h
      rcases hc : (s.ctrls n).current with _ | j
      · rw [hc] at h
        simp at h
        exact h.2.symm
      · rw [hc] at h
        by_cases hin : isInvalidated s j
        · simp [hin] at h
        · simp only [hin, if_false, Bool.false_eq_true] at h
          exact ih e s' h
    · rw [hst] at h
      simp at h

theorem relinkAcceptLoop_frame (fw : List Nat) :
    ∀ (l : List Nat) (s : St),
      (∀ r s', relinkAcceptLoop fw l s = .ok (r, s') → Frame3 s s') ∧
      (∀ e s', relinkAcceptLoop fw l s = .error (e, s') → Frame3 s s') := by
  intro l
  induction l with
  | nil =>
    intro s
    refine ⟨fun r s' h => ?_, fun e s' h => ?_⟩
    · simp [relinkAcceptLoop] at h; exact h.2 ▸ frame3_refl s
    · simp [relinkAcceptLoop] at h
  | cons n ns ih =>
    intro s
    rcases hc : (s.ctrls n).current with _ | i
    · refine ⟨fun r s' h => ?_, fun e s' h => ?_⟩
      · simp [relinkAcceptLoop, hc] at h
      · simp [relinkAcceptLoop, hc] at h
        exact h.2 ▸ frame3_refl s
    · have hstep : Frame3 s (tryAccept (relinkInst s i) i fw).2 := by
        refine frame3_trans (show Frame3 s (relinkInst s i) from
          frame3_updInst s i (fun t => { t with linked := true }) (fun x => rfl)) ?_
        exact frame3_push (relinkInst s i) (.acceptCb i)
      refine ⟨fun r s' h => ?_, fun e s' h => ?_⟩
      · simp only [relinkAcceptLoop] at h
        rw [hc] at h
        dsimp only at h
        by_cases hacc : (tryAccept (relinkInst s i) i fw).1 = true
        · rw [hacc] at h
          simp only [if_true] at h
          exact frame3_trans hstep ((ih _).1 r s' h)
        · rw [eq_false_of_ne_true hacc] at h
          simp at h
          exact h.2 ▸ hstep
      · simp only [relinkAcceptLoop] at h
        rw [hc] at h
        dsimp only at h
        by_cases hacc : (tryAccept (relinkInst s i) i fw).1 = true
        · rw [hacc] at h
          simp only [if_true] at h
          exact frame3_trans hstep ((ih _).2 e s' h)
        · rw [eq_false_of_ne_true hacc] at h
          simp at h

theorem commitCheckLoop_frame :
    ∀ (l : List Nat) (s : St),
      (∀ s', commitCheckLoop l s = .ok s' → Frame3 s s') ∧
      (∀ e s', commitCheckLoop l s = .error (e, s') → Frame3 s s') := by
  intro l
  induction l with
  | nil =>
    intro s
    refine ⟨fun s' h => ?_, fun e s' h => ?_⟩
    · simp [commitCheckLoop] at h; exact h ▸ frame3_refl s
    · simp [commitCheckLoop] at h
  | cons n ns ih =>
    intro s
    by_cases hcp : (s.ctrls n).current = (s.ctrls n).pending
    · have hstep : Frame3 s (s.updCtrl n fun c => { c with pending := none }) :=
        frame3_updCtrl s n _ (fun x => ⟨Or.inr rfl, rfl, rfl, rfl, rfl⟩)
      refine ⟨fun s' h => ?_, fun e s' h => ?_⟩
      · simp only [commitCheckLoop, hcp, if_true] at h
        exact frame3_trans hstep ((ih _).1 s' h)
      · simp only [commitCheckLoop, hcp, if_true] at h
        exact frame3_trans hstep ((ih _).2 e s' h)
    · refine ⟨fun s' h => ?_, fun e s' h => ?_⟩
      · simp [commitCheckLoop, hcp] at h
      · simp [commitCheckLoop, hcp] at h
        exact h.2 ▸ frame3_refl s

theorem frame3_inst_set (s : St) (n p : Nat) :
    Frame3 s (instantiateInst (s.updCtrl n fun c => { c with current := some p }) p) :=
  frame3_trans
    (frame3_updCtrl s n (fun c => { c with current := some p })
      (fun x => ⟨Or.inl rfl, rfl, rfl, rfl, rfl⟩))
    (frame3_updInst (s.updCtrl n fun c => { c with current := some p }) p
      (fun t => { t with linked := false, evaluated := false, evaluationError := none })
      (fun x => rfl))

theorem disposeInst_frame (s : St) (i : Nat) :
    (∀ s', disposeInst s i = .ok s' → Frame3 s s') ∧
    (∀ e s', disposeInst s i = .error (e, s') → Frame3 s s') := by
  constructor
  · intro s' h
    simp only [disposeInst] at h
    rcases hd : ((s.push (.disposeCb i)).declOf i).disposeError with _ | e
    · rw [hd] at h
      simp at h
      exact h ▸ frame3_push s _
    · rw [hd] at h
      simp at h
  · intro e s' h
    simp only [disposeInst] at h
    rcases hd : ((s.push (.disposeCb i)).declOf i).disposeError with _ | e2
    · rw [hd] at h
      simp at h
    · rw [hd] at h
      simp at h
      exact h.2 ▸ frame3_push s _

theorem evaluateInst_frame (s : St) (i : Nat) :
    (∀ s', evaluateInst s i = .ok s' → Frame3 s s') ∧
    (∀ e s', evaluateInst s i = .error (e, s') → Frame3 s s') := by
  constructor
  · intro s' h
    simp only [evaluateInst] at h
    by_cases hev : (s.insts i).evaluated = true
    · rw [if_pos hev] at h
      cases h
      exact frame3_refl s
    · rw [if_neg hev] at h
      rcases he : ((s.push (.evalBody i)).declOf i).evalError with _ | e
      · rw [he] at h
        simp at h
        exact h ▸ frame3_trans (frame3_push s _) (frame3_updInst _ _ _ (fun x => rfl))
      · rw [he] at h
        simp at h
  · intro e s' h
    simp only [evaluateInst] at h
    by_cases hev : (s.insts i).evaluated = true
    · rw [if_pos hev] at h
      cases h
    · rw [if_neg hev] at h
      rcases he : ((s.push (.evalBody i)).declOf i).evalError with _ | e2
      · rw [he] at h
        simp at h
      · rw [he] at h
        simp at h
        exact h.2 ▸ frame3_trans (frame3_push s _) (frame3_updInst _ _ _ (fun x => rfl))

theorem instantiateLoop_frame :
    ∀ (l : List Nat) (s : St),
      (∀ s', instantiateLoop l s = .ok s' → Frame3 s s') ∧
      (∀ e s', instantiateLoop l s = .error (e, s') → Frame3 s s') := by
  intro l
  induction l with
  | nil =>
    intro s
    refine ⟨fun s' h => ?_, fun e s' h => ?_⟩
    · simp [instantiateLoop] at h; exact h ▸ frame3_refl s
    · simp [instantiateLoop] at h
  | cons n ns ih =>
    intro s
    rcases hp : (s.ctrls n).pending with _ | p
    · refine ⟨fun s' h => ?_, fun e s' h => ?_⟩
      · simp [instantiateLoop, hp] at h
      · simp [instantiateLoop, hp] at h
        exact h.2 ▸ frame3_refl s
    · rcases hc : (s.ctrls n).current with _ | i
      · -- current = none
        have hstep : Frame3 s
            (instantiateInst (s.updCtrl n fun c => { c with current := some p }) p) :=
          frame3_inst_set s n p
        refine ⟨fun s' h => ?_, fun e s' h => ?_⟩
        · simp only [instantiateLoop] at h
          rw [hp, hc] at h
          dsimp only at h
          rw [hc] at h
          dsimp only at h
          exact frame3_trans hstep ((ih _).1 s' h)
        · simp only [instantiateLoop] at h
          rw [hp, hc] at h
          dsimp only at h
          rw [hc] at h
          dsimp only at h
          exact frame3_trans hstep ((ih _).2 e s' h)
      · -- current = some i : dispose first
        rcases hd : disposeInst s i with ⟨e1, s1⟩ | s1
        · refine ⟨fun s' h => ?_, fun e s' h => ?_⟩
          · simp only [instantiateLoop] at h
            rw [hp, hc] at h
            dsimp only at h
            rw [hd] at h
            simp at h
          · simp only [instantiateLoop] at h
            rw [hp, hc] at h
            dsimp only at h
            rw [hd] at h
            simp at h
            exact h.2 ▸ (disposeInst_frame s i).2 e1 s1 hd
        · have hf1 : Frame3 s s1 := (disposeInst_frame s i).1 s1 hd
          refine ⟨fun s' h => ?_, fun e s' h => ?_⟩
          all_goals
            simp only [instantiateLoop] at h
          all_goals
            rw [hp, hc] at h
          all_goals
            dsimp only at h
          all_goals
            rw [hd] at h
          all_goals
            dsimp only at h
          all_goals
            rcases hc1 : (s1.ctrls n).current with _ | i1
          all_goals
            rw [hc1] at h
          all_goals
            dsimp only at h
          · -- ok outcome, current none after dispose
            refine frame3_trans hf1 (frame3_trans ?_ ((ih _).1 s' h))
            exact frame3_inst_set s1 n p
          · -- ok outcome, current some after dispose
            by_cases hip : i1 = p
            · rw [if_pos hip] at h
              refine frame3_trans hf1 (frame3_trans ?_ ((ih _).1 s' h))
              exact frame3_trans (frame3_alloc s1 (s1.insts i1).declId)
                (frame3_inst_set (cloneInst s1 i1).2 n (cloneInst s1 i1).1)
            · rw [if_neg hip] at h
              refine frame3_trans hf1 (frame3_trans ?_ ((ih _).1 s' h))
              exact frame3_inst_set s1 n p
          · -- error outcome, current none after dispose
            refine frame3_trans hf1 (frame3_trans ?_ ((ih _).2 e s' h))
            exact frame3_inst_set s1 n p
          · -- error outcome, current some after dispose
            by_cases hip : i1 = p
            · rw [if_pos hip] at h
              refine frame3_trans hf1 (frame3_trans ?_ ((ih _).2 e s' h))
              exact frame3_trans (frame3_alloc s1 (s1.insts i1).declId)
                (frame3_inst_set (cloneInst s1 i1).2 n (cloneInst s1 i1).1)
            · rw [if_neg hip] at h
              refine frame3_trans hf1 (frame3_trans ?_ ((ih _).2 e s' h))
              exact frame3_inst_set s1 n p

theorem linkLoop3_frame :
    ∀ (l : List Nat) (s : St),
      (∀ s', linkLoop3 l s = .ok s' → Frame3 s s') ∧
      (∀ e s', linkLoop3 l s = .error (e, s') → Frame3 s s') := by
  intro l
  induction l with
  | nil =>
    intro s
    refine ⟨fun s' h => ?_, fun e s' h => ?_⟩
    · simp [linkLoop3] at h; exact h ▸ frame3_refl s
    · simp [linkLoop3] at h
  | cons n ns ih =>
    intro s
    rcases hc : (s.ctrls n).current with _ | i
    · refine ⟨fun s' h => ?_, fun e s' h => ?_⟩
      · simp [linkLoop3, hc] at h
      · simp [linkLoop3, hc] at h
        exact h.2 ▸ frame3_refl s
    · by_cases hok : (s.declOf i).linkOk = true
      · have hli : linkInst s i = .ok (s.updInst i fun t => { t with linked := true }) := by
          simp [linkInst, hok]
        have hstep : Frame3 s (s.updInst i fun t => { t with linked := true }) :=
          frame3_updInst s i _ (fun x => rfl)
        refine ⟨fun s' h => ?_, fun e s' h => ?_⟩
        · simp only [linkLoop3] at h
          rw [hc] at h
          dsimp only at h
          rw [hli] at h
          dsimp only at h
          exact frame3_trans hstep ((ih _).1 s' h)
        · simp only [linkLoop3] at h
          rw [hc] at h
          dsimp only at h
          rw [hli] at h
          dsimp only at h
          exact frame3_trans hstep ((ih _).2 e s' h)
      · have hli : linkInst s i = .error (.link i, s) := by
          simp [linkInst, hok]
        refine ⟨fun s' h => ?_, fun e s' h => ?_⟩
        · simp only [linkLoop3] at h
          rw [hc] at h
          dsimp only at h
          rw [hli] at h
          simp at h
        · simp only [linkLoop3] at h
          rw [hc] at h
          dsimp only at h
          rw [hli] at h
          simp at h
          exact h.2 ▸ frame3_refl s

theorem rollbackEvalSeen_frame :
    ∀ (l : List Nat) (s : St),
      (∀ s', rollbackEvalSeen l s = .ok s' → Frame3 s s') ∧
      (∀ e s', rollbackEvalSeen l s = .error (e, s') → Frame3 s s') := by
  intro l
  induction l with
  | nil =>
    intro s
    refine ⟨fun s' h => ?_, fun e s' h => ?_⟩
    · simp [rollbackEvalSeen] at h; exact h ▸ frame3_refl s
    · simp [rollbackEvalSeen] at h
  | cons n ns ih =>
    intro s
    rcases hc : (s.ctrls n).current with _ | i
    · refine ⟨fun s' h => ?_, fun e s' h => ?_⟩
      · simp [rollbackEvalSeen, hc] at h
      · simp [rollbackEvalSeen, hc] at h
        exact h.2 ▸ frame3_refl s
    · by_cases hev : (s.insts i).evaluated = true
      · by_cases herr : (s.insts i).evaluationError = none
        · refine ⟨fun s' h => ?_, fun e s' h => ?_⟩
          all_goals
            simp only [rollbackEvalSeen] at h
          all_goals
            rw [hc] at h
          all_goals
            simp only [hev, herr, Bool.not_true, ne_eq, not_true_eq_false, if_neg,
              if_false, Bool.false_eq_true, ite_false] at h
          · exact (ih s).1 s' h
          · exact (ih s).2 e s' h
        · have hstep : Frame3 s (s.updCtrl n fun c => { c with current := c.previous }) :=
            frame3_updCtrl s n _ (fun x => ⟨Or.inl rfl, rfl, rfl, rfl, rfl⟩)
          refine ⟨fun s' h => ?_, fun e s' h => ?_⟩
          all_goals
            simp only [rollbackEvalSeen] at h
          all_goals
            rw [hc] at h
          all_goals
            simp only [hev, herr, Bool.not_true, ne_eq, not_false_eq_true, if_true,
              Bool.false_eq_true, ite_false, ite_true] at h
          · exact frame3_trans hstep ((ih _).1 s' h)
          · exact frame3_trans hstep ((ih _).2 e s' h)
      · refine ⟨fun s' h => ?_, fun e s' h => ?_⟩
        all_goals
          simp only [rollbackEvalSeen] at h
        all_goals
          rw [hc] at h
        all_goals
          simp only [hev, Bool.not_false, if_true, ite_true] at h
        · simp at h
        · simp at h
          exact h.2 ▸ frame3_refl s

theorem evalLoop_frame :
    ∀ (l seen : List Nat) (s : St),
      (∀ s', evalLoop seen l s = .ok s' → Frame3 s s') ∧
      (∀ e s', evalLoop seen l s = .error (e, s') → Frame3 s s') := by
  intro l
  induction l with
  | nil =>
    intro seen s
    refine ⟨fun s' h => ?_, fun e s' h => ?_⟩
    · simp [evalLoop] at h; exact h ▸ frame3_refl s
    · simp [evalLoop] at h
  | cons n ns ih =>
    intro seen s
    rcases hc : (s.ctrls n).current with _ | i
    · rcases hrb : rollbackEvalSeen (seen ++ [n]) s with ⟨e1, s1⟩ | s1
      · refine ⟨fun s' h => ?_, fun e s' h => ?_⟩
        all_goals
          simp only [evalLoop] at h
        all_goals
          rw [hc] at h
        all_goals
          dsimp only at h
        all_goals
          rw [hrb] at h
        · simp at h
        · simp at h
          exact h.2 ▸ (rollbackEvalSeen_frame _ s).2 e1 s1 hrb
      · refine ⟨fun s' h => ?_, fun e s' h => ?_⟩
        all_goals
          simp only [evalLoop] at h
        all_goals
          rw [hc] at h
        all_goals
          dsimp only at h
        all_goals
          rw [hrb] at h
        · simp at h
        · simp at h
          exact h.2 ▸ (rollbackEvalSeen_frame _ s).1 s1 hrb
    · have hcs : Frame3 s (countStat n i s) := frame3_countStat n i s
      rcases hev : evaluateInst (countStat n i s) i with ⟨e1, s2⟩ | s2
      · have hf2 : Frame3 (countStat n i s) s2 :=
          (evaluateInst_frame _ i).2 e1 s2 hev
        rcases hrb : rollbackEvalSeen (seen ++ [n]) s2 with ⟨e2, s3⟩ | s3
        · refine ⟨fun s' h => ?_, fun e s' h => ?_⟩
          all_goals
            simp only [evalLoop] at h
          all_goals
            rw [hc] at h
          all_goals
            dsimp only at h
          all_goals
            rw [hev] at h
          all_goals
            dsimp only at h
          all_goals
            rw [hrb] at h
          · simp at h
          · simp at h
            refine frame3_trans hcs (frame3_trans hf2 ?_)
            exact h.2 ▸ (rollbackEvalSeen_frame _ s2).2 e2 s3 hrb
        · refine ⟨fun s' h => ?_, fun e s' h => ?_⟩
          all_goals
            simp only [evalLoop] at h
          all_goals
            rw [hc] at h
          all_goals
            dsimp only at h
          all_goals
            rw [hev] at h
          all_goals
            dsimp only at h
          all_goals
            rw [hrb] at h
          · simp at h
          · simp at h
            refine frame3_trans hcs (frame3_trans hf2 ?_)
            exact h.2 ▸ (rollbackEvalSeen_frame _ s2).1 s3 hrb
      · have hf2 : Frame3 (countStat n i s) s2 :=
          (evaluateInst_frame _ i).1 s2 hev
        have hf3 : Frame3 s2 (s2.updCtrl n fun c => { c with pending := none }) :=
          frame3_updCtrl s2 n _ (fun x => ⟨Or.inr rfl, rfl, rfl, rfl, rfl⟩)
        have hf4 : ∀ t : St, Frame3 t
            (if (t.ctrls n).staging = some i then
              t.updCtrl n fun c => { c with staging := none } else t) := by
          intro t
          by_cases hst : (t.ctrls n).staging = some i
          · rw [if_pos hst]
            exact frame3_updCtrl t n _ (fun x => ⟨Or.inl rfl, rfl, rfl, rfl, rfl⟩)
          · rw [if_neg hst]
            exact frame3_refl t
        refine ⟨fun s' h => ?_, fun e s' h => ?_⟩
        all_goals
          simp only [evalLoop] at h
        all_goals
          rw [hc] at h
        all_goals
          dsimp only at h
        all_goals
          rw [hev] at h
        all_goals
          dsimp only at h
        · refine frame3_trans hcs (frame3_trans hf2 (frame3_trans hf3
            (frame3_trans (hf4 _) ((ih _ _).1 s' h))))
        · refine frame3_trans hcs (frame3_trans hf2 (frame3_trans hf3
            (frame3_trans (hf4 _) ((ih _ _).2 e s' h))))

theorem selfAcceptLoop_frame :
    ∀ (l inv : List Nat) (s : St),
      (∀ r s', selfAcceptLoop l inv s = .ok (r, s') → Frame3 s s') ∧
      (∀ e s', selfAcceptLoop l inv s = .error (e, s') → Frame3 s s') := by
  intro l
  induction l with
  | nil =>
    intro inv s
    refine ⟨fun r s' h => ?_, fun e s' h => ?_⟩
    · simp [selfAcceptLoop] at h; exact h.2 ▸ frame3_refl s
    · simp [selfAcceptLoop] at h
  | cons n ns ih =>
    intro inv s
    rcases hq : (s.ctrls n).previous with _ | q
    · refine ⟨fun r s' h => ?_, fun e s' h => ?_⟩
      all_goals
        simp only [selfAcceptLoop] at h
      all_goals
        rw [hq] at h
      all_goals
        dsimp only at h
      · exact (ih inv s).1 r s' h
      · exact (ih inv s).2 e s' h
    · rcases hc : (s.ctrls n).current with _ | i
      · refine ⟨fun r s' h => ?_, fun e s' h => ?_⟩
        all_goals
          simp only [selfAcceptLoop] at h
        all_goals
          rw [hq, hc] at h
        all_goals
          dsimp only at h
        · simp at h
        · simp at h
          exact h.2 ▸ frame3_refl s
      · have hstep : Frame3 s (tryAcceptSelf s q).2 := by
          simp only [tryAcceptSelf]
          by_cases ha : (s.declOf q).acceptsSelf = true
          · rw [if_pos ha]
            exact frame3_push s _
          · rw [if_neg ha]
            exact frame3_refl s
        refine ⟨fun r s' h => ?_, fun e s' h => ?_⟩
        all_goals
          simp only [selfAcceptLoop] at h
        all_goals
          rw [hq, hc] at h
        all_goals
          dsimp only at h
        all_goals
          by_cases hr : (tryAcceptSelf s q).1 = true
        all_goals
          simp only [hr, if_true, ite_true, Bool.false_eq_true, if_false, ite_false] at h
        · exact frame3_trans hstep ((ih _ _).1 r s' h)
        · exact frame3_trans hstep ((ih _ _).1 r s' h)
        · exact frame3_trans hstep ((ih _ _).2 e s' h)
        · exact frame3_trans hstep ((ih _ _).2 e s' h)

theorem commitPost_frame (cycle : List Nat) (fwd : List RunResult) (s : St) :
    (∀ r s', commitPost cycle fwd s = .ok (r, s') → Frame3 s s') ∧
    (∀ e s', commitPost cycle fwd s = .error (e, s') → Frame3 s s') := by
  rcases hscan : needsUpdateScan s cycle with ⟨e0, s0⟩ | needs0
  · refine ⟨fun r s' h => ?_, fun e s' h => ?_⟩
    all_goals
      simp only [commitPost] at h
    all_goals
      rw [hscan] at h
    · simp at h
    · simp at h
      exact h.2 ▸ (needsUpdateScan_frame s cycle e0 s0 hscan) ▸ frame3_refl s
  · rcases hrel : (if fwd.any RunResult.treeDidUpdate && !needs0 then
        relinkAcceptLoop (fwd.flatMap RunResult.invalidated) cycle s
      else .ok (needs0, s)) with ⟨e1, s1⟩ | ⟨needsUpdate, s1⟩
    · have hf1 : Frame3 s s1 := by
        by_cases hb : (fwd.any RunResult.treeDidUpdate && !needs0) = true
        · rw [if_pos hb] at hrel
          exact (relinkAcceptLoop_frame _ cycle s).2 e1 s1 hrel
        · rw [if_neg hb] at hrel
          simp at hrel
      refine ⟨fun r s' h => ?_, fun e s' h => ?_⟩
      all_goals
        simp only [commitPost] at h
      all_goals
        rw [hscan] at h
      all_goals
        dsimp only at h
      all_goals
        rw [hrel] at h
      · simp at h
      · simp at h
        exact h.2 ▸ hf1
    · have hf1 : Frame3 s s1 := by
        by_cases hb : (fwd.any RunResult.treeDidUpdate && !needs0) = true
        · rw [if_pos hb] at hrel
          exact (relinkAcceptLoop_frame _ cycle s).1 needsUpdate s1 hrel
        · rw [if_neg hb] at hrel
          simp at hrel
          exact hrel.2 ▸ frame3_refl s
      by_cases hnu : needsUpdate = true
      · -- the replace path
        rcases hil : instantiateLoop cycle s1 with ⟨e2, s2⟩ | s2
        · refine ⟨fun r s' h => ?_, fun e s' h => ?_⟩
          all_goals
            simp only [commitPost] at h
          all_goals
            rw [hscan] at h
          all_goals
            dsimp only at h
          all_goals
            rw [hrel] at h
          all_goals
            dsimp only at h
          all_goals
            simp only [hnu, Bool.not_true, Bool.false_eq_true, if_false, ite_false] at h
          all_goals
            rw [hil] at h
          · simp at h
          · simp at h
            exact h.2 ▸ frame3_trans hf1 ((instantiateLoop_frame cycle s1).2 e2 s2 hil)
        · have hf2 : Frame3 s1 s2 := (instantiateLoop_frame cycle s1).1 s2 hil
          rcases hll : linkLoop3 cycle s2 with ⟨e3, s3⟩ | s3
          · refine ⟨fun r s' h => ?_, fun e s' h => ?_⟩
            all_goals
              simp only [commitPost] at h
            all_goals
              rw [hscan] at h
            all_goals
              dsimp only at h
            all_goals
              rw [hrel] at h
            all_goals
              dsimp only at h
            all_goals
              simp only [hnu, Bool.not_true, Bool.false_eq_true, if_false, ite_false] at h
            all_goals
              rw [hil] at h
            all_goals
              dsimp only at h
            all_goals
              rw [hll] at h
            · simp at h
            · simp at h
              refine h.2 ▸ frame3_trans hf1 (frame3_trans hf2 ?_)
              exact (linkLoop3_frame cycle s2).2 e3 s3 hll
          · have hf3 : Frame3 s2 s3 := (linkLoop3_frame cycle s2).1 s3 hll
            rcases hel : evalLoop [] cycle s3 with ⟨e4, s4⟩ | s4
            · refine ⟨fun r s' h => ?_, fun e s' h => ?_⟩
              all_goals
                simp only [commitPost] at h
              all_goals
                rw [hscan] at h
              all_goals
                dsimp only at h
              all_goals
                rw [hrel] at h
              all_goals
                dsimp only at h
              all_goals
                simp only [hnu, Bool.not_true, Bool.false_eq_true, if_false, ite_false] at h
              all_goals
                rw [hil] at h
              all_goals
                dsimp only at h
              all_goals
                rw [hll] at h
              all_goals
                dsimp only at h
              all_goals
                rw [hel] at h
              · simp at h
              · simp at h
                refine h.2 ▸ frame3_trans hf1 (frame3_trans hf2 (frame3_trans hf3 ?_))
                exact (evalLoop_frame cycle [] s3).2 e4 s4 hel
            · have hf4 : Frame3 s3 s4 := (evalLoop_frame cycle [] s3).1 s4 hel
              rcases hsa : selfAcceptLoop cycle [] s4 with ⟨e5, s5⟩ | ⟨inv, s5⟩
              all_goals
                refine ⟨fun r s' h => ?_, fun e s' h => ?_⟩
              all_goals
                simp only [commitPost] at h
              all_goals
                rw [hscan] at h
              all_goals
                dsimp only at h
              all_goals
                rw [hrel] at h
              all_goals
                dsimp only at h
              all_goals
                simp only [hnu, Bool.not_true, Bool.false_eq_true, if_false, ite_false] at h
              all_goals
                rw [hil] at h
              all_goals
                dsimp only at h
              all_goals
                rw [hll] at h
              all_goals
                dsimp only at h
              all_goals
                rw [hel] at h
              all_goals
                dsimp only at h
              all_goals
                rw [hsa] at h
              all_goals
                simp at h
              · refine h.2 ▸ frame3_trans hf1 (frame3_trans hf2 (frame3_trans hf3
                  (frame3_trans hf4 ?_)))
                exact (selfAcceptLoop_frame cycle [] s4).2 e5 s5 hsa
              · refine h.2 ▸ frame3_trans hf1 (frame3_trans hf2 (frame3_trans hf3
                  (frame3_trans hf4 ?_)))
                exact (selfAcceptLoop_frame cycle [] s4).1 inv s5 hsa
      · -- the no-update check path
        rcases hck : commitCheckLoop cycle s1 with ⟨e2, s2⟩ | s2
        all_goals
          refine ⟨fun r s' h => ?_, fun e s' h => ?_⟩
        all_goals
          simp only [commitPost] at h
        all_goals
          rw [hscan] at h
        all_goals
          dsimp only at h
        all_goals
          rw [hrel] at h
        all_goals
          dsimp only at h
        all_goals
          simp only [hnu, Bool.not_false, if_true, ite_true] at h
        all_goals
          rw [hck] at h
        all_goals
          simp at h
        · exact h.2 ▸ frame3_trans hf1 ((commitCheckLoop_frame cycle s1).2 e2 s2 hck)
        · exact h.2 ▸ frame3_trans hf1 ((commitCheckLoop_frame cycle s1).1 s2 hck)

theorem phase3_frame (fuel root : Nat) (s : St) :
    (∀ orr s2, (phase3Run fuel root s).2 = .ok (orr, s2) → Frame3 s s2) ∧
    (∀ e s2, (phase3Run fuel root s).2 = .error (e, s2) → Frame3 s s2) := by
  refine traverseDF_rel fuel root _ _ _ _ _ _ s frame3_refl
    (fun h1 h2 => frame3_trans h1 h2) (fun n s => frame3_refl s)
    (fun scc fwd s r s' h => (commitPost_frame scc fwd s).1 r s' h)
    (fun scc fwd s e s' h => (commitPost_frame scc fwd s).2 e s' h)
    (fun ns s => frame3_refl s)

theorem frameC_updInst (s : St) (i : Nat) (f : Instance → Instance)
    (hf : ∀ x : Instance, (f x).declId = x.declId) : FrameC s (s.updInst i f) := by
  refine ⟨rfl, rfl, rfl, fun j => ?_, fun c _ => rfl,
    fun c => ⟨rfl, rfl, rfl, rfl, rfl, rfl⟩⟩
  by_cases hj : j = i
  · subst hj; simpa using hf (s.insts j)
  · simp [updInst_inst_ne s f hj]

theorem frameC_updCtrl (s : St) (n : Nat) (f : Controller → Controller)
    (hf : ∀ x : Controller, ((f x).pending = x.pending ∨ (f x).pending = none) ∧
      (f x).current = x.current ∧ (f x).previous = x.previous ∧
      (f x).staging = x.staging ∧ (f x).temporary = x.temporary ∧
      (f x).fatalError = x.fatalError ∧ (f x).version = x.version) :
    FrameC s (s.updCtrl n f) := by
  refine ⟨rfl, rfl, rfl, fun _ => rfl, fun c hc => ?_, fun c => ?_⟩
  · by_cases hcn : c = n
    · subst hcn
      rw [updCtrl_ctrl_same] at hc ⊢
      rcases (hf (s.ctrls c)).1 with h | h
      · exact h
      · exact absurd h hc
    · rw [updCtrl_ctrl_ne s f hcn]
  · by_cases hcn : c = n
    · subst hcn
      rw [updCtrl_ctrl_same]
      exact ⟨(hf _).2.1, (hf _).2.2.1, (hf _).2.2.2.1, (hf _).2.2.2.2.1,
        (hf _).2.2.2.2.2.1, (hf _).2.2.2.2.2.2⟩
    · rw [updCtrl_ctrl_ne s f hcn]
      exact ⟨rfl, rfl, rfl, rfl, rfl, rfl⟩

theorem frameC_cleanupPre (n : Nat) (s : St) : FrameC s (cleanupPre n s) := by
  unfold cleanupPre
  rcases hp : (s.ctrls n).pending with _ | p
  · exact frameC_refl s
  · refine frameC_trans
      (frameC_updInst s p (fun t => { t with linked := false }) (fun x => rfl)) ?_
    exact frameC_updCtrl _ n _
      (fun x => ⟨Or.inr rfl, rfl, rfl, rfl, rfl, rfl, rfl⟩)

theorem relinkLoop_frame :
    ∀ (l : List Nat) (s : St),
      (∀ s', relinkLoop l s = .ok s' → FrameC s s') ∧
      (∀ e s', relinkLoop l s = .error (e, s') → FrameC s s') := by
  intro l
  induction l with
  | nil =>
    intro s
    refine ⟨fun s' h => ?_, fun e s' h => ?_⟩
    · simp [relinkLoop] at h; exact h ▸ frameC_refl s
    · simp [relinkLoop] at h
  | cons n ns ih =>
    intro s
    rcases hc : (s.ctrls n).current with _ | i
    · refine ⟨fun s' h => ?_, fun e s' h => ?_⟩
      · simp [relinkLoop, hc] at h
      · simp [relinkLoop, hc] at h
        exact h.2 ▸ frameC_refl s
    · have hstep : FrameC s (relinkInst s i) :=
        frameC_updInst s i (fun t => { t with linked := true }) (fun x => rfl)
      refine ⟨fun s' h => ?_, fun e s' h => ?_⟩
      all_goals
        simp only [relinkLoop] at h
      all_goals
        rw [hc] at h
      all_goals
        dsimp only at h
      · exact frameC_trans hstep ((ih _).1 s' h)
      · exact frameC_trans hstep ((ih _).2 e s' h)

theorem cleanupPost_frame (cycle : List Nat) (fwd : List Unit) (s : St) :
    (∀ r s', cleanupPost cycle fwd s = .ok (r, s') → FrameC s s') ∧
    (∀ e s', cleanupPost cycle fwd s = .error (e, s') → FrameC s s') := by
  rcases hrl : relinkLoop cycle s with ⟨e1, s1⟩ | s1
  · refine ⟨fun r s' h => ?_, fun e s' h => ?_⟩
    all_goals
      simp only [cleanupPost] at h
    all_goals
      rw [hrl] at h
    · simp at h
    · simp at h
      exact h.2 ▸ (relinkLoop_frame cycle s).2 e1 s1 hrl
  · refine ⟨fun r s' h => ?_, fun e s' h => ?_⟩
    all_goals
      simp only [cleanupPost] at h
    all_goals
      rw [hrl] at h
    · simp at h
      exact h ▸ (relinkLoop_frame cycle s).1 s1 hrl
    · simp at h

theorem catchCleanup_frame (fuel root : Nat) (s : St) :
    (∀ s', catchCleanup fuel root s = .ok s' → FrameC s s') ∧
    (∀ e s', catchCleanup fuel root s = .error (e, s') → FrameC s s') := by
  have hrel := traverseDF_rel fuel root cleanupGuard cleanupPre cleanupChildren cleanupPost
    (fun _ s => s) .assertion s frameC_refl
    (fun h1 h2 => frameC_trans h1 h2) (fun n s => frameC_cleanupPre n s)
    (fun scc fwd s r s' h => (cleanupPost_frame scc fwd s).1 r s' h)
    (fun scc fwd s e s' h => (cleanupPost_frame scc fwd s).2 e s' h)
    (fun ns s => frameC_refl s)
  rcases htr : (traverseDF fuel root cleanupGuard cleanupPre cleanupChildren cleanupPost
      (fun _ s => s) .assertion s).2 with ⟨e1, s1⟩ | r1
  · refine ⟨fun s' h => ?_, fun e s' h => ?_⟩
    all_goals
      simp only [catchCleanup] at h
    all_goals
      rw [htr] at h
    · simp at h
    · simp at h
      exact h.2 ▸ hrel.2 e1 s1 htr
  · refine ⟨fun s' h => ?_, fun e s' h => ?_⟩
    all_goals
      simp only [catchCleanup] at h
    all_goals
      rw [htr] at h
    · simp at h
      exact h ▸ hrel.1 r1.1 r1.2 (by rw [htr])
    · simp at h

/-- Frame of the `previousControllers`-building loop: only `previous`
slots of controllers change. -/
def FrameF (s s' : St) : Prop :=
  s'.log = s.log ∧ s'.decls = s.decls ∧ s'.insts = s.insts ∧ s'.nextInst = s.nextInst ∧
  ∀ c, (s'.ctrls c).current = (s.ctrls c).current ∧
    (s'.ctrls c).pending = (s.ctrls c).pending ∧
    (s'.ctrls c).staging = (s.ctrls c).staging ∧
    (s'.ctrls c).temporary = (s.ctrls c).temporary ∧
    (s'.ctrls c).fatalError = (s.ctrls c).fatalError ∧
    (s'.ctrls c).version = (s.ctrls c).version

theorem frameF_refl (s : St) : FrameF s s :=
  ⟨rfl, rfl, rfl, rfl, fun _ => ⟨rfl, rfl, rfl, rfl, rfl, rfl⟩⟩

theorem frameF_trans {a b c : St} (h1 : FrameF a b) (h2 : FrameF b c) : FrameF a c := by
  obtain ⟨l1, d1, i1, n1, f1⟩ := h1
  obtain ⟨l2, d2, i2, n2, f2⟩ := h2
  refine ⟨l2.trans l1, d2.trans d1, i2.trans i1, n2.trans n1, fun x => ?_⟩
  obtain ⟨a1, b1, c1, e1, g1, v1⟩ := f1 x
  obtain ⟨a2, b2, c2, e2, g2, v2⟩ := f2 x
  exact ⟨a2.trans a1, b2.trans b1, c2.trans c1, e2.trans e1, g2.trans g1, v2.trans v1⟩

theorem finalizePrevLoop_spec :
    ∀ (l : List Nat) (s : St),
      (∀ s', finalizePrevLoop l s = .ok s' →
        FrameF s s' ∧
        (∀ c, c ∈ l → (s'.ctrls c).previous = none) ∧
        (∀ c, c ∉ l → (s'.ctrls c).previous = (s.ctrls c).previous)) ∧
      (∀ e s', finalizePrevLoop l s = .error (e, s') →
        FrameF s s' ∧
        (∀ c, (s'.ctrls c).previous = (s.ctrls c).previous ∨
          (s'.ctrls c).previous = none)) := by
  intro l
  induction l with
  | nil =>
    intro s
    refine ⟨fun s' h => ?_, fun e s' h => ?_⟩
    · simp [finalizePrevLoop] at h
      exact ⟨h ▸ frameF_refl s, fun c hc => absurd hc (List.not_mem_nil c),
        fun c _ => h ▸ rfl⟩
    · simp [finalizePrevLoop] at h
  | cons n ns ih =>
    intro s
    rcases hp : (s.ctrls n).pending with _ | p
    · have hstep : FrameF s (s.updCtrl n fun c => { c with previous := none }) := by
        refine ⟨rfl, rfl, rfl, rfl, fun c => ?_⟩
        by_cases hcn : c = n
        · subst hcn
          rw [updCtrl_ctrl_same]
          exact ⟨rfl, rfl, rfl, rfl, rfl, rfl⟩
        · rw [updCtrl_ctrl_ne s _ hcn]
          exact ⟨rfl, rfl, rfl, rfl, rfl, rfl⟩
      have hprev : ∀ c,
          ((s.updCtrl n fun c => { c with previous := none }).ctrls c).previous =
            (s.ctrls c).previous ∨
          ((s.updCtrl n fun c => { c with previous := none }).ctrls c).previous = none := by
        intro c
        by_cases hcn : c = n
        · subst hcn
          rw [updCtrl_ctrl_same]
          exact Or.inr rfl
        · rw [updCtrl_ctrl_ne s _ hcn]
          exact Or.inl rfl
      refine ⟨fun s' h => ?_, fun e s' h => ?_⟩
      all_goals
        simp only [finalizePrevLoop] at h
      all_goals
        rw [hp] at h
      all_goals
        dsimp only at h
      · obtain ⟨hf, hmem, hnmem⟩ := (ih _).1 s' h
        refine ⟨frameF_trans hstep hf, fun c hc => ?_, fun c hc => ?_⟩
        · rcases List.mem_cons.mp hc with hcn | hcn
          · subst hcn
            by_cases hcns : c ∈ ns
            · exact hmem c hcns
            · rw [hnmem c hcns, updCtrl_ctrl_same]
          · exact hmem c hcn
        · have hcn : c ≠ n := fun hcc => hc (hcc ▸ List.mem_cons_self n ns)
          have hcns : c ∉ ns := fun hcc => hc (List.mem_cons_of_mem n hcc)
          rw [hnmem c hcns, updCtrl_ctrl_ne s _ hcn]
      · obtain ⟨hf, hdis⟩ := (ih _).2 e s' h
        refine ⟨frameF_trans hstep hf, fun c => ?_⟩
        rcases hdis c with hd | hd
        · rw [hd]
          exact hprev c
        · exact Or.inr hd
    · refine ⟨fun s' h => ?_, fun e s' h => ?_⟩
      all_goals
        simp only [finalizePrevLoop] at h
      all_goals
        rw [hp] at h
      all_goals
        dsimp only at h
      · simp at h
      · simp at h
        exact ⟨h.2 ▸ frameF_refl s, fun c => h.2 ▸ Or.inl rfl⟩

/-- What the orphan-pruning loop keeps intact: `pending` and `temporary`
everywhere, `fatalError` away from the root, `previous` unless cleared. -/
def KeepP (root : Nat) (s s' : St) : Prop :=
  (∀ c, c ≠ root → (s'.ctrls c).fatalError = (s.ctrls c).fatalError) ∧
  (∀ c, (s'.ctrls c).pending = (s.ctrls c).pending) ∧
  (∀ c, (s'.ctrls c).temporary = (s.ctrls c).temporary) ∧
  (∀ c, (s'.ctrls c).previous = (s.ctrls c).previous ∨ (s'.ctrls c).previous = none)

theorem keepP_refl (root : Nat) (s : St) : KeepP root s s :=
  ⟨fun _ _ => rfl, fun _ => rfl, fun _ => rfl, fun _ => Or.inl rfl⟩

theorem keepP_trans {root : Nat} {a b c : St} (h1 : KeepP root a b) (h2 : KeepP root b c) :
    KeepP root a c := by
  refine ⟨fun x hx => (h2.1 x hx).trans (h1.1 x hx), fun x => (h2.2.1 x).trans (h1.2.1 x),
    fun x => (h2.2.2.1 x).trans (h1.2.2.1 x), fun x => ?_⟩
  rcases h2.2.2.2 x with hd | hd
  · rw [hd]
    exact h1.2.2.2 x
  · exact Or.inr hd

theorem pruneLoop_keep (root : Nat) (cur : List Nat) :
    ∀ (l : List Nat) (s : St),
      (∀ r s', pruneLoop root cur l s = .ok (r, s') →
        KeepP root s s' ∧
        (r = none → ∀ c, (s'.ctrls c).fatalError = (s.ctrls c).fatalError)) ∧
      (∀ e s', pruneLoop root cur l s = .error (e, s') →
        KeepP root s s' ∧
        (∀ c, (s'.ctrls c).fatalError = (s.ctrls c).fatalError)) := by
  intro l
  induction l with
  | nil =>
    intro s
    refine ⟨fun r s' h => ?_, fun e s' h => ?_⟩
    · simp [pruneLoop] at h
      exact ⟨h.2 ▸ keepP_refl root s, fun _ c => h.2 ▸ rfl⟩
    · simp [pruneLoop] at h
  | cons x xs ih =>
    intro s
    by_cases hin : cur.contains x = true
    · refine ⟨fun r s' h => ?_, fun e s' h => ?_⟩
      all_goals
        simp only [pruneLoop] at h
      all_goals
        rw [if_pos hin] at h
      · exact (ih s).1 r s' h
      · exact (ih s).2 e s' h
    · rcases hc : (s.ctrls x).current with _ | i
      · refine ⟨fun r s' h => ?_, fun e s' h => ?_⟩
        all_goals
          simp only [pruneLoop] at h
        all_goals
          rw [if_neg hin, hc] at h
        · simp at h
        · simp at h
          exact ⟨h.2 ▸ keepP_refl root s, fun c => h.2 ▸ rfl⟩
      · rcases hpr : ((s.push (.pruneCb i)).declOf i).pruneError with _ | pe
        · -- prune succeeds
          have hpi : pruneInst s i = .ok (s.push (.pruneCb i)) := by
            unfold pruneInst
            dsimp only
            rw [show ((s.push (.pruneCb i)).declOf i).pruneError =
              ((s.push (.pruneCb i)).declOf i).pruneError from rfl, hpr]
          have hstep : KeepP root s
              ((cloneInst (s.push (.pruneCb i)) i).2.updCtrl x fun c =>
                { c with staging := some (cloneInst (s.push (.pruneCb i)) i).1,
                         current := none, previous := none }) := by
            refine ⟨fun c _ => ?_, fun c => ?_, fun c => ?_, fun c => ?_⟩
            all_goals
              by_cases hcx : c = x
            all_goals
              first
              | (subst hcx; rw [updCtrl_ctrl_same]; first | rfl | exact Or.inr rfl)
              | (rw [updCtrl_ctrl_ne _ _ hcx]; first | rfl | exact Or.inl rfl)
          refine ⟨fun r s' h => ?_, fun e s' h => ?_⟩
          all_goals
            simp only [pruneLoop] at h
          all_goals
            rw [if_neg hin, hc] at h
          all_goals
            dsimp only at h
          all_goals
            rw [hpi] at h
          all_goals
            dsimp only at h
          · obtain ⟨hk, hnone⟩ := (ih _).1 r s' h
            refine ⟨keepP_trans hstep hk, fun hr c => ?_⟩
            rw [hnone hr c]
            by_cases hcx : c = x
            · subst hcx
              rw [updCtrl_ctrl_same]
              rfl
            · rw [updCtrl_ctrl_ne _ _ hcx]
              rfl
          · obtain ⟨hk, hfat⟩ := (ih _).2 e s' h
            refine ⟨keepP_trans hstep hk, fun c => ?_⟩
            rw [hfat c]
            by_cases hcx : c = x
            · subst hcx
              rw [updCtrl_ctrl_same]
              rfl
            · rw [updCtrl_ctrl_ne _ _ hcx]
              rfl
        · -- prune throws: fatal result, setFatal on root
          have hpi : pruneInst s i = .error (.user pe, s.push (.pruneCb i)) := by
            unfold pruneInst
            dsimp only
            rw [hpr]
          refine ⟨fun r s' h => ?_, fun e s' h => ?_⟩
          all_goals
            simp only [pruneLoop] at h
          all_goals
            rw [if_neg hin, hc] at h
          all_goals
            dsimp only at h
          all_goals
            rw [hpi] at h
          all_goals
            simp at h
          refine ⟨⟨fun c hcr => ?_, fun c => ?_, fun c => ?_, fun c => ?_⟩,
            fun hr => ?_⟩
          · rw [← h.2, setFatal, updCtrl_ctrl_ne _ _ hcr]
            rfl
          · rw [← h.2, setFatal]
            by_cases hcr : c = root
            · subst hcr
              rw [updCtrl_ctrl_same]
              rfl
            · rw [updCtrl_ctrl_ne _ _ hcr]
              rfl
          · rw [← h.2, setFatal]
            by_cases hcr : c = root
            · subst hcr
              rw [updCtrl_ctrl_same]
              rfl
            · rw [updCtrl_ctrl_ne _ _ hcr]
              rfl
          · rw [← h.2, setFatal]
            by_cases hcr : c = root
            · subst hcr
              rw [updCtrl_ctrl_same]
              exact Or.inl rfl
            · rw [updCtrl_ctrl_ne _ _ hcr]
              exact Or.inl rfl
          · intro c
            rw [← h.1] at hr
            cases hr

theorem linkTestSegment_fatal (fuel root : Nat) (hnc : Bool) (join1 : List Nat) (s : St) :
    (∀ s2, linkTestSegment fuel root hnc join1 s = .ok s2 →
      ∀ c, (s2.ctrls c).fatalError = (s.ctrls c).fatalError) ∧
    (∀ r s2, linkTestSegment fuel root hnc join1 s = .error (r, s2) →
      ∀ c, (s2.ctrls c).fatalError = (s.ctrls c).fatalError) := by
  by_cases hb : hnc = true
  · subst hb
    rcases h2 : (phase2Run fuel root s).2 with ⟨e1, s1⟩ | r1
    · refine ⟨fun s2 h c => ?_, fun r s2 h c => ?_⟩
      all_goals
        simp only [linkTestSegment, if_true] at h
      all_goals
        rw [h2] at h
      · simp at h
      · simp at h
        rw [← h.2, phase2Finally]
        rw [((clearTempsLoop_spec _ _).2.2.2.2.2 c).2.2.2.2.1]
        rw [((frame1_rollback s1 join1).2.2.2.2 c).2.2.2.1]
        exact (((phase2_frame fuel root s).2 e1 s1 h2).2.2.2.2 c).2.2.2.2.1
    · refine ⟨fun s2 h c => ?_, fun r s2 h c => ?_⟩
      all_goals
        simp only [linkTestSegment, if_true] at h
      all_goals
        rw [h2] at h
      · simp at h
        rw [← h, phase2Finally]
        rw [((clearTempsLoop_spec _ _).2.2.2.2.2 c).2.2.2.2.1]
        exact (((phase2_frame fuel root s).1 r1.1 r1.2 (by rw [h2])).2.2.2.2 c).2.2.2.2.1
      · simp at h
  · have hb' : hnc = false := by
      cases hnc
      · rfl
      · exact absurd rfl hb
    subst hb'
    refine ⟨fun s2 h c => ?_, fun r s2 h c => ?_⟩
    all_goals
      simp only [linkTestSegment, Bool.false_eq_true, if_false, ite_false] at h
    · cases h
      rfl
    · cases h

theorem finalizeCore_fatal (fuel root : Nat) (prevCs : List Nat) (s : St) :
    (∀ r s', finalizeCore fuel root prevCs s = .ok (r, s') →
      ∀ c, c ≠ root → (s'.ctrls c).fatalError = (s.ctrls c).fatalError) ∧
    (∀ e s', finalizeCore fuel root prevCs s = .error (e, s') →
      ∀ c, (s'.ctrls c).fatalError = (s.ctrls c).fatalError) := by
  rcases htl : traverseList fuel s root with e0 | ys
  · refine ⟨fun r s' h c hcr => ?_, fun e s' h c => ?_⟩
    all_goals
      simp only [finalizeCore] at h
    all_goals
      rw [htl] at h
    · simp at h
    · simp at h
      rw [← h.2]
  · rcases hfp : finalizePrevLoop ys s with ⟨e1, s1⟩ | s1
    · refine ⟨fun r s' h c hcr => ?_, fun e s' h c => ?_⟩
      all_goals
        simp only [finalizeCore] at h
      all_goals
        rw [htl] at h
      all_goals
        dsimp only at h
      all_goals
        rw [hfp] at h
      · simp at h
      · simp at h
        rw [← h.2]
        exact ((((finalizePrevLoop_spec ys s).2 e1 s1 hfp).1.2.2.2.2) c).2.2.2.2.1
    · have hf1 : ∀ c, (s1.ctrls c).fatalError = (s.ctrls c).fatalError := fun c =>
        ((((finalizePrevLoop_spec ys s).1 s1 hfp).1.2.2.2.2) c).2.2.2.2.1
      refine ⟨fun r s' h c hcr => ?_, fun e s' h c => ?_⟩
      all_goals
        simp only [finalizeCore] at h
      all_goals
        rw [htl] at h
      all_goals
        dsimp only at h
      all_goals
        rw [hfp] at h
      all_goals
        dsimp only at h
      · rw [((pruneLoop_keep root ys prevCs s1).1 r s' h).1.1 c hcr]
        exact hf1 c
      · rw [((pruneLoop_keep root ys prevCs s1).2 e s' h).2 c]
        exact hf1 c

theorem runFinalize_fatal (fuel root : Nat) (prevCs : List Nat)
    (cand : Option UpdateResult) (s : St) :
    ∀ c, c ≠ root →
      (((runFinalize fuel root prevCs cand s).2).ctrls c).fatalError =
        (s.ctrls c).fatalError := by
  intro c hcr
  rcases hfc : finalizeCore fuel root prevCs s with ⟨e1, s1⟩ | ⟨r1, s1⟩
  · simp only [runFinalize]
    rw [hfc]
    exact (finalizeCore_fatal fuel root prevCs s).2 e1 s1 hfc c
  · rcases r1 with _ | r1
    all_goals
      simp only [runFinalize]
    all_goals
      rw [hfc]
    · exact (finalizeCore_fatal fuel root prevCs s).1 none s1 hfc c hcr
    · exact (finalizeCore_fatal fuel root prevCs s).1 (some r1) s1 hfc c hcr

theorem commitAndFinalize_fatal (fuel root : Nat) (prevCs : List Nat) (s : St) :
    ∀ c, c ≠ root →
      (((commitAndFinalize fuel root prevCs s).2).ctrls c).fatalError =
        (s.ctrls c).fatalError := by
  intro c hcr
  rcases h3 : (phase3Run fuel root s).2 with ⟨⟨fatal, e⟩, s3⟩ | ⟨rr?, s3⟩
  · have hf3 : (s3.ctrls c).fatalError = (s.ctrls c).fatalError :=
      (((phase3_frame fuel root s).2 _ s3 h3).2.2.2.2 c).2.2.1
    rcases hcc : catchCleanup fuel root s3 with ⟨e2, s4⟩ | s4
    · have hf4 : (s4.ctrls c).fatalError = (s3.ctrls c).fatalError :=
        (((catchCleanup_frame fuel root s3).2 e2 s4 hcc).2.2.2.2.2 c).2.2.2.2.1
      rcases hfc : finalizeCore fuel root prevCs s4 with ⟨e3, s5⟩ | ⟨r5, s5⟩
      · simp only [commitAndFinalize]
        rw [h3]
        dsimp only
        rw [hcc]
        dsimp only
        rw [hfc]
        rw [(finalizeCore_fatal fuel root prevCs s4).2 e3 s5 hfc c, hf4, hf3]
      · have hf5 : (s5.ctrls c).fatalError = (s4.ctrls c).fatalError :=
          (finalizeCore_fatal fuel root prevCs s4).1 r5 s5 hfc c hcr
        rcases r5 with _ | r5
        all_goals
          simp only [commitAndFinalize]
        all_goals
          rw [h3]
        all_goals
          dsimp only
        all_goals
          rw [hcc]
        all_goals
          dsimp only
        all_goals
          rw [hfc]
        all_goals
          rw [hf5, hf4, hf3]
    · have hf4 : (s4.ctrls c).fatalError = (s3.ctrls c).fatalError :=
        (((catchCleanup_frame fuel root s3).1 s4 hcc).2.2.2.2.2 c).2.2.2.2.1
      by_cases hft : fatal = true
      · subst hft
        simp only [commitAndFinalize]
        rw [h3]
        dsimp only
        rw [hcc]
        dsimp only
        rw [if_pos rfl]
        rw [runFinalize_fatal fuel root prevCs _ _ c hcr]
        rw [setFatal, updCtrl_ctrl_ne _ _ hcr, hf4, hf3]
      · have hft' : fatal = false := by
          cases fatal
          · rfl
          · exact absurd rfl hft
        subst hft'
        simp only [commitAndFinalize]
        rw [h3]
        dsimp only
        rw [hcc]
        dsimp only
        rw [if_neg (by simp)]
        rw [runFinalize_fatal fuel root prevCs _ _ c hcr, hf4, hf3]
  · have hf3 : (s3.ctrls c).fatalError = (s.ctrls c).fatalError :=
      (((phase3_frame fuel root s).1 rr? s3 h3).2.2.2.2 c).2.2.1
    simp only [commitAndFinalize]
    rw [h3]
    dsimp only
    rw [runFinalize_fatal fuel root prevCs _ _ c hcr, hf3]

/-- **C5**: once a `requestUpdate` has set the root controller's
`fatalError`, every later `requestUpdate` on it returns that same
`fatalError` result immediately — the state (and hence the user-event log
and the whole graph) is returned unchanged, so no traversal effect and no
user callback happens — and no `requestUpdate` ever clears a controller's
`fatalError`. -/
theorem stickyFatal (fuel root : Nat) (s : St) :
    (∀ fe, (s.ctrls root).fatalError = some fe →
      requestUpdate fuel s root = (.ret (some (.fatalError fe)), s)) ∧
    (∀ c f, (s.ctrls c).fatalError = some f →
      (((requestUpdate fuel s root).2).ctrls c).fatalError = some f) := by
  constructor
  · intro fe hfe
    simp only [requestUpdate]
    rw [hfe]
  · intro c f hf
    rcases hroot : (s.ctrls root).fatalError with _ | fe
    · have hcr : c ≠ root := by
        intro he
        rw [he, hroot] at hf
        cases hf
      simp only [requestUpdate]
      rw [hroot]
      dsimp only
      rcases h1 : phase1Run fuel root { s with statLoads := 0, statReevals := 0, scratch := [] } with ⟨tj, r1⟩
      have hsnd : (phase1Run fuel root { s with statLoads := 0, statReevals := 0, scratch := [] }).2 = r1 := by
        rw [h1]
      rcases r1 with ⟨e, s1⟩ | ⟨ir?, s1⟩
      · dsimp only
        rw [(((phase1_frame fuel root _).2 e s1 hsnd).2.2.2.2 c).2.2.2.1]
        exact hf
      · have hfat1 : (s1.ctrls c).fatalError = some f := by
          rw [(((phase1_frame fuel root _).1 ir? s1 hsnd).2.2.2.2 c).2.2.2.1]
          exact hf
        have hfatrb : ((rollbackCtrls tj.sccs.flatten s1).ctrls c).fatalError = some f := by
          rw [((frame1_rollback s1 tj.sccs.flatten).2.2.2.2 c).2.2.2.1]
          exact hfat1
        rcases ir? with _ | ir
        · dsimp only
          exact hfatrb
        · dsimp only
          by_cases hnd : ir.needsDispatch = false
          · rw [if_pos hnd]
            exact hfatrb
          · rw [if_neg hnd]
            by_cases hdec : ir.hasDecline = true
            · rw [if_pos hdec]
              exact hfatrb
            · rw [if_neg hdec]
              by_cases hinv : (!ir.invalidated.isEmpty) = true
              · rw [if_pos hinv]
                exact hfatrb
              · rw [if_neg hinv]
                rcases hlt : linkTestSegment fuel root ir.hasNewCode tj.sccs.flatten s1
                  with ⟨r, s2⟩ | s2
                · dsimp only
                  rw [(linkTestSegment_fatal fuel root _ _ s1).2 r s2 hlt c]
                  exact hfat1
                · have hfat2 : (s2.ctrls c).fatalError = some f := by
                    rw [(linkTestSegment_fatal fuel root _ _ s1).1 s2 hlt c]
                    exact hfat1
                  dsimp only
                  rcases htl : traverseList fuel s2 root with e | prevCs
                  · dsimp only
                    exact hfat2
                  · dsimp only
                    rw [commitAndFinalize_fatal fuel root prevCs s2 c hcr]
                    exact hfat2
    · simp only [requestUpdate]
      rw [hroot]
      exact hf

def exC5 : St :=
  mkSt [{}] [{ declId := 0, linked := true, evaluated := true }]
    [(0, { current := some 0, fatalError := some (.user 9) })]

theorem stickyFatal_witness :
    (exC5.ctrls 0).fatalError = some (.user 9) ∧
    requestUpdate 20 exC5 0 = (.ret (some (.fatalError (.user 9))), exC5) ∧
    ((requestUpdate 20 exC5 0).2.ctrls 0).fatalError = some (.user 9) :=
  ⟨rfl, (stickyFatal 20 0 exC5).1 (.user 9) rfl,
    (stickyFatal 20 0 exC5).2 0 (.user 9) rfl⟩

@[simp] theorem allocInst_nextInst (s : St) (d : Nat) :
    (s.allocInst d).2.nextInst = s.nextInst + 1 := rfl

@[simp] theorem allocInst_inst_same (s : St) (d : Nat) :
    (s.allocInst d).2.insts s.nextInst = { declId := d } := by
  simp [St.allocInst]

@[simp] theorem push_nextInst (s : St) (e : Event) : (s.push e).nextInst = s.nextInst := rfl

/-- The sequence of `prune` callbacks the orphan loop runs: one per list
entry outside the new reachable set, on its `current` instance. -/
def pruneEvents (cur l : List Nat) (s : St) : List Event :=
  (l.filter (fun x => !cur.contains x)).map
    (fun x => Event.pruneCb ((s.ctrls x).current.getD 0))

theorem pruneLoop_ok_spec (root : Nat) (cur : List Nat) :
    ∀ (l : List Nat) (s : St), l.Nodup →
      (∀ x, x ∈ l → cur.contains x = false →
        ∃ i, (s.ctrls x).current = some i ∧ i < s.nextInst) →
      ∀ s', pruneLoop root cur l s = .ok (none, s') →
        s'.log = s.log ++ pruneEvents cur l s ∧
        s.nextInst ≤ s'.nextInst ∧
        (∀ j, j < s.nextInst → s'.insts j = s.insts j) ∧
        (∀ c, c ∉ l → s'.ctrls c = s.ctrls c) ∧
        (∀ x, x ∈ l → cur.contains x = false →
          (s'.ctrls x).current = none ∧ (s'.ctrls x).previous = none ∧
          ∃ j, (s'.ctrls x).staging = some j ∧ s.nextInst ≤ j ∧ j < s'.nextInst ∧
            (s'.insts j).declId = (s.insts ((s.ctrls x).current.getD 0)).declId) := by
  intro l
  induction l with
  | nil =>
    intro s _ _ s' h
    simp [pruneLoop] at h
    exact ⟨by rw [← h]; simp [pruneEvents], h ▸ le_refl _, fun j _ => h ▸ rfl,
      fun c _ => h ▸ rfl, fun x hx => absurd hx (List.not_mem_nil x)⟩
  | cons x xs ih =>
    intro s hnd hcur s' h
    obtain ⟨hxxs, hndxs⟩ := List.nodup_cons.mp hnd
    by_cases hin : cur.contains x = true
    · simp only [pruneLoop] at h
      rw [if_pos hin] at h
      obtain ⟨hlog, hni, hinst, hctrl, horph⟩ := ih s hndxs
        (fun y hy hcy => hcur y (List.mem_cons_of_mem x hy) hcy) s' h
      have hxmem : x ∈ cur := by
        simpa using hin
      have hev : pruneEvents cur (x :: xs) s = pruneEvents cur xs s := by
        simp [pruneEvents, List.filter_cons, hxmem]
      refine ⟨hev ▸ hlog, hni, hinst, fun c hc => hctrl c fun hcc =>
        hc (List.mem_cons_of_mem x hcc), fun y hy hcy => ?_⟩
      rcases List.mem_cons.mp hy with hyx | hyx
      · subst hyx
        rw [hin] at hcy
        cases hcy
      · exact horph y hyx hcy
    · have hin' : cur.contains x = false := by
        cases hcc : cur.contains x
        · rfl
        · exact absurd hcc hin
      obtain ⟨i, hci, hilt⟩ := hcur x (List.mem_cons_self x xs) hin'
      rcases hpr : ((s.push (.pruneCb i)).declOf i).pruneError with _ | pe
      · have hpi : pruneInst s i = .ok (s.push (.pruneCb i)) := by
          unfold pruneInst
          dsimp only
          rw [hpr]
        simp only [pruneLoop] at h
        rw [if_neg hin, hci] at h
        dsimp only at h
        rw [hpi] at h
        dsimp only at h
        have hcur2 : ∀ y, y ∈ xs → cur.contains y = false →
            ∃ i2, (((cloneInst (s.push (.pruneCb i)) i).2.updCtrl x fun c =>
              { c with staging := some (cloneInst (s.push (.pruneCb i)) i).1,
                       current := none, previous := none }).ctrls y).current = some i2 ∧
              i2 < ((cloneInst (s.push (.pruneCb i)) i).2.updCtrl x fun c =>
                { c with staging := some (cloneInst (s.push (.pruneCb i)) i).1,
                         current := none, previous := none }).nextInst := by
          intro y hy hcy
          obtain ⟨i2, hci2, hilt2⟩ := hcur y (List.mem_cons_of_mem x hy) hcy
          have hyx : y ≠ x := fun hyy => hxxs (hyy ▸ hy)
          refine ⟨i2, ?_, ?_⟩
          · rw [updCtrl_ctrl_ne _ _ hyx]
            simpa using hci2
          · simp [cloneInst]
            omega
        obtain ⟨hlog, hni, hinst, hctrl, horph⟩ := ih _ hndxs hcur2 s' h
        have hs2log : ((cloneInst (s.push (.pruneCb i)) i).2.updCtrl x fun c =>
            { c with staging := some (cloneInst (s.push (.pruneCb i)) i).1,
                     current := none, previous := none }).log = s.log ++ [.pruneCb i] := by
          simp [cloneInst]
        have hs2ni : ((cloneInst (s.push (.pruneCb i)) i).2.updCtrl x fun c =>
            { c with staging := some (cloneInst (s.push (.pruneCb i)) i).1,
                     current := none, previous := none }).nextInst = s.nextInst + 1 := by
          simp [cloneInst]
        have hs2ctrlne : ∀ c, c ≠ x →
            (((cloneInst (s.push (.pruneCb i)) i).2.updCtrl x fun c =>
              { c with staging := some (cloneInst (s.push (.pruneCb i)) i).1,
                       current := none, previous := none }).ctrls c) = s.ctrls c := by
          intro c hc
          rw [updCtrl_ctrl_ne _ _ hc]
          rfl
        have hs2instlt : ∀ j, j < s.nextInst →
            (((cloneInst (s.push (.pruneCb i)) i).2.updCtrl x fun c =>
              { c with staging := some (cloneInst (s.push (.pruneCb i)) i).1,
                       current := none, previous := none }).insts j) = s.insts j := by
          intro j hj
          rw [updCtrl_insts]
          unfold cloneInst
          rw [allocInst_inst_lt _ _ (by simp; omega)]
          rfl
        have hev : pruneEvents cur xs ((cloneInst (s.push (.pruneCb i)) i).2.updCtrl x fun c =>
            { c with staging := some (cloneInst (s.push (.pruneCb i)) i).1,
                     current := none, previous := none }) = pruneEvents cur xs s := by
          unfold pruneEvents
          refine List.map_congr_left fun y hy => ?_
          have hyxs : y ∈ xs := List.mem_of_mem_filter hy
          have hyx : y ≠ x := fun hyy => hxxs (hyy ▸ hyxs)
          rw [hs2ctrlne y hyx]
        have hxnm : x ∉ cur := by
          simpa using hin
        refine ⟨?_, ?_, ?_, ?_, ?_⟩
        · rw [hlog, hev, hs2log]
          simp [pruneEvents, List.filter_cons, hxnm, hci]
        · omega
        · intro j hj
          rw [hinst j (by omega), hs2instlt j hj]
        · intro c hc
          have hcx : c ≠ x := fun hcc => hc (hcc ▸ List.mem_cons_self x xs)
          rw [hctrl c (fun hcc => hc (List.mem_cons_of_mem x hcc)), hs2ctrlne c hcx]
        · intro y hy hcy
          rcases List.mem_cons.mp hy with hyx | hyx
          · subst hyx
            have hctrly := hctrl y hxxs
            rw [hctrly, updCtrl_ctrl_same]
            refine ⟨rfl, rfl, s.nextInst, ?_, le_refl _, ?_, ?_⟩
            · simp [cloneInst]
            · omega
            · rw [hinst s.nextInst (by omega)]
              rw [updCtrl_insts]
              unfold cloneInst
              rw [hci]
              simp [St.allocInst]
          · have hyne : y ≠ x := fun hyy => hxxs (hyy ▸ hyx)
            obtain ⟨hcn, hpn, j, hst, hjge, hjlt, hjd⟩ := horph y hyx hcy
            refine ⟨hcn, hpn, j, hst, ?_, hjlt, ?_⟩
            · omega
            · rw [hjd, hs2ctrlne y hyne]
              obtain ⟨i2, hci2, hilt2⟩ := hcur y (List.mem_cons_of_mem x hyx) hcy
              rw [hci2]
              simp only [Option.getD_some]
              rw [hs2instlt i2 hilt2]
      · have hpi : pruneInst s i = .error (.user pe, s.push (.pruneCb i)) := by
          unfold pruneInst
          dsimp only
          rw [hpr]
        simp only [pruneLoop] at h
        rw [if_neg hin, hci] at h
        dsimp only at h
        rw [hpi] at h
        simp at h

theorem pruneLoop_some_fatal (root : Nat) (cur : List Nat) :
    ∀ (l : List Nat) (s : St) (r : UpdateResult) (s' : St),
      pruneLoop root cur l s = .ok (some r, s') →
      ∃ e, r = .fatalError e ∧ (s'.ctrls root).fatalError = some e := by
  intro l
  induction l with
  | nil =>
    intro s r s' h
    simp [pruneLoop] at h
  | cons x xs ih =>
    intro s r s' h
    by_cases hin : cur.contains x = true
    · simp only [pruneLoop] at h
      rw [if_pos hin] at h
      exact ih s r s' h
    · rcases hc : (s.ctrls x).current with _ | i
      · simp only [pruneLoop] at h
        rw [if_neg hin, hc] at h
        simp at h
      · rcases hpr : ((s.push (.pruneCb i)).declOf i).pruneError with _ | pe
        · have hpi : pruneInst s i = .ok (s.push (.pruneCb i)) := by
            unfold pruneInst
            dsimp only
            rw [hpr]
          simp only [pruneLoop] at h
          rw [if_neg hin, hc] at h
          dsimp only at h
          rw [hpi] at h
          dsimp only at h
          exact ih _ r s' h
        · have hpi : pruneInst s i = .error (.user pe, s.push (.pruneCb i)) := by
            unfold pruneInst
            dsimp only
            rw [hpr]
          simp only [pruneLoop] at h
          rw [if_neg hin, hc] at h
          dsimp only at h
          rw [hpi] at h
          simp at h
          refine ⟨.user pe, h.1.symm, ?_⟩
          rw [← h.2, setFatal, updCtrl_ctrl_same]

/-- **C6**: in the finalization (`finally`) of `requestUpdate`, every
controller of the previously reachable list that is not in the newly
recomputed reachable set has `prune` run exactly once on its current
instance (the log grows by exactly one `pruneCb` per orphan, in order),
then its current instance is cloned into `staging` and its `current` and
`previous` slots are cleared; if a prune callback throws, the loop stops
and the `finally` records the error on the root controller's `fatalError`
and makes `requestUpdate` return that sticky `fatalError` result,
overriding any pending result. -/
theorem orphanPruning (fuel root : Nat) (prevCs ys : List Nat) (s : St)
    (hnd : prevCs.Nodup)
    (htl : traverseList fuel s root = .ok ys)
    (hcur : ∀ x, x ∈ prevCs → ys.contains x = false →
      ∃ i, (s.ctrls x).current = some i ∧ i < s.nextInst) :
    (∀ s', finalizeCore fuel root prevCs s = .ok (none, s') →
      s'.log = s.log ++ pruneEvents ys prevCs s ∧
      (∀ x, x ∈ prevCs → ys.contains x = false →
        (s'.ctrls x).current = none ∧ (s'.ctrls x).previous = none ∧
        ∃ j, (s'.ctrls x).staging = some j ∧ s.nextInst ≤ j ∧
          (s'.insts j).declId = (s.insts ((s.ctrls x).current.getD 0)).declId)) ∧
    (∀ r s', finalizeCore fuel root prevCs s = .ok (some r, s') →
      ∃ e, r = .fatalError e ∧ (s'.ctrls root).fatalError = some e) ∧
    (∀ cand r s', finalizeCore fuel root prevCs s = .ok (some r, s') →
      runFinalize fuel root prevCs cand s = (.ret (some r), s')) := by
  rcases hfp : finalizePrevLoop ys s with ⟨e1, s1⟩ | s1
  · refine ⟨fun s' h => ?_, fun r s' h => ?_, fun cand r s' h => ?_⟩
    all_goals
      simp only [finalizeCore] at h
    all_goals
      rw [htl] at h
    all_goals
      dsimp only at h
    all_goals
      rw [hfp] at h
    all_goals
      simp at h
  · obtain ⟨hff, _hprevmem, _hprevout⟩ := (finalizePrevLoop_spec ys s).1 s1 hfp
    obtain ⟨hflog, hfdecls, hfinsts, hfni, hfc⟩ := hff
    have hcur1 : ∀ x, x ∈ prevCs → ys.contains x = false →
        ∃ i, (s1.ctrls x).current = some i ∧ i < s1.nextInst := by
      intro x hx hcy
      obtain ⟨i, hci, hlt⟩ := hcur x hx hcy
      exact ⟨i, (hfc x).1.trans hci, hfni ▸ hlt⟩
    have hev : pruneEvents ys prevCs s1 = pruneEvents ys prevCs s := by
      unfold pruneEvents
      exact List.map_congr_left fun y _ => by rw [(hfc y).1]
    refine ⟨fun s' h => ?_, fun r s' h => ?_, fun cand r s' h => ?_⟩
    · simp only [finalizeCore] at h
      rw [htl] at h
      dsimp only at h
      rw [hfp] at h
      dsimp only at h
      obtain ⟨hlog, hni, hinst, _hctrl, horph⟩ :=
        pruneLoop_ok_spec root ys prevCs s1 hnd hcur1 s' h
      refine ⟨by rw [hlog, hev, hflog], fun x hx hcy => ?_⟩
      obtain ⟨hcn, hpn, j, hst, hjge, hjlt, hjd⟩ := horph x hx hcy
      refine ⟨hcn, hpn, j, hst, hfni ▸ hjge, ?_⟩
      rw [hjd, (hfc x).1, hfinsts]
    · simp only [finalizeCore] at h
      rw [htl] at h
      dsimp only at h
      rw [hfp] at h
      dsimp only at h
      exact pruneLoop_some_fatal root ys prevCs s1 r s' h
    · have hfc2 : finalizeCore fuel root prevCs s = .ok (some r, s') := h
      simp only [runFinalize]
      rw [hfc2]

def exC6 : St :=
  mkSt [{}, {}]
    [{ declId := 0, linked := true, evaluated := true },
     { declId := 1, linked := true, evaluated := true }]
    [(0, { current := some 0 }), (1, { current := some 1 })]

def c6st : St :=
  match finalizeCore 20 0 [1] exC6 with
  | .ok (_, t) => t
  | .error (_, t) => t

theorem orphanPruning_witness :
    finalizeCore 20 0 [1] exC6 = .ok (none, c6st) ∧
    c6st.log = exC6.log ++ pruneEvents [] [1] exC6 ∧
    (c6st.ctrls 1).current = none ∧ (c6st.ctrls 1).previous = none ∧
    ∃ j, (c6st.ctrls 1).staging = some j ∧ exC6.nextInst ≤ j ∧
      (c6st.insts j).declId = (exC6.insts ((exC6.ctrls 1).current.getD 0)).declId := by
  have hcur : ∀ x, x ∈ [1] → ([] : List Nat).contains x = false →
      ∃ i, (exC6.ctrls x).current = some i ∧ i < exC6.nextInst := by
    intro x hx _
    rcases List.mem_cons.mp hx with h1 | h0
    · subst h1
      exact ⟨1, rfl, by decide⟩
    · exact absurd h0 (List.not_mem_nil x)
  have h := (orphanPruning 20 0 [1] [] exC6 (by decide) rfl hcur).1 c6st rfl
  exact ⟨rfl, h.1, h.2 1 (List.mem_cons_self 1 []) rfl⟩

theorem evaluateInst_ctrls (s : St) (i : Nat) :
    (∀ s', evaluateInst s i = .ok s' → s'.ctrls = s.ctrls) ∧
    (∀ e s', evaluateInst s i = .error (e, s') → s'.ctrls = s.ctrls) := by
  constructor
  · intro s' h
    simp only [evaluateInst] at h
    by_cases hev : (s.insts i).evaluated = true
    · rw [if_pos hev] at h
      cases h
      rfl
    · rw [if_neg hev] at h
      rcases he : ((s.push (.evalBody i)).declOf i).evalError with _ | e
      · rw [he] at h
        simp at h
        rw [← h]
        rfl
      · rw [he] at h
        simp at h
  · intro e s' h
    simp only [evaluateInst] at h
    by_cases hev : (s.insts i).evaluated = true
    · rw [if_pos hev] at h
      cases h
    · rw [if_neg hev] at h
      rcases he : ((s.push (.evalBody i)).declOf i).evalError with _ | e2
      · rw [he] at h
        simp at h
      · rw [he] at h
        simp at h
        rw [← h.2]
        rfl

/-- Frame of `dispatch`: the update-protocol slots (`pending`, `previous`,
`temporary`) and `fatalError` are never touched by a dispatch. -/
def FrameD (s s' : St) : Prop :=
  ∀ c, (s'.ctrls c).pending = (s.ctrls c).pending ∧
    (s'.ctrls c).previous = (s.ctrls c).previous ∧
    (s'.ctrls c).temporary = (s.ctrls c).temporary ∧
    (s'.ctrls c).fatalError = (s.ctrls c).fatalError

theorem frameD_refl (s : St) : FrameD s s := fun _ => ⟨rfl, rfl, rfl, rfl⟩

theorem frameD_trans {a b c : St} (h1 : FrameD a b) (h2 : FrameD b c) : FrameD a c := by
  intro x
  obtain ⟨p1, q1, t1, f1⟩ := h1 x
  obtain ⟨p2, q2, t2, f2⟩ := h2 x
  exact ⟨p2.trans p1, q2.trans q1, t2.trans t1, f2.trans f1⟩

theorem frameD_of_ctrls {s s' : St} (h : s'.ctrls = s.ctrls) : FrameD s s' := by
  intro c
  rw [h]
  exact ⟨rfl, rfl, rfl, rfl⟩

theorem frameD_updCtrl (s : St) (n : Nat) (f : Controller → Controller)
    (hf : ∀ x : Controller, (f x).pending = x.pending ∧ (f x).previous = x.previous ∧
      (f x).temporary = x.temporary ∧ (f x).fatalError = x.fatalError) :
    FrameD s (s.updCtrl n f) := by
  intro c
  by_cases hcn : c = n
  · subst hcn
    rw [updCtrl_ctrl_same]
    exact hf (s.ctrls c)
  · rw [updCtrl_ctrl_ne s f hcn]
    exact ⟨rfl, rfl, rfl, rfl⟩

theorem frameD_dispatchPre (n : Nat) (s : St) : FrameD s (dispatchPre n s) := by
  unfold dispatchPre
  rcases (s.ctrls n).current with _ | i
  · rcases (s.ctrls n).staging with _ | j
    · exact frameD_refl s
    · exact frameD_trans
        (frameD_updCtrl s n (fun c => { c with current := some j })
          (fun x => ⟨rfl, rfl, rfl, rfl⟩))
        (frameD_of_ctrls (s := s.updCtrl n fun c => { c with current := some j }) rfl)
  · exact frameD_refl s

theorem frameD_unlinkClear (ns : List Nat) (s : St) : FrameD s (unlinkClear ns s) := by
  refine foldl_rel frameD_refl (fun h1 h2 => frameD_trans h1 h2) _ (fun s n => ?_) ns s
  dsimp only
  rcases (s.ctrls n).current with _ | i
  · exact frameD_refl s
  · dsimp only
    by_cases hb : (unlinkInst s i).1 = true
    · rw [if_pos hb]
      exact frameD_updCtrl _ n _ (fun x => ⟨rfl, rfl, rfl, rfl⟩)
    · rw [if_neg hb]
      exact frameD_refl s

theorem dispatchLinkLoop_frame :
    ∀ (l seen : List Nat) (s : St),
      (∀ s', dispatchLinkLoop seen l s = .ok s' → FrameD s s') ∧
      (∀ e s', dispatchLinkLoop seen l s = .error (e, s') → FrameD s s') := by
  intro l
  induction l with
  | nil =>
    intro seen s
    refine ⟨fun s' h => ?_, fun e s' h => ?_⟩
    · simp [dispatchLinkLoop] at h; exact h ▸ frameD_refl s
    · simp [dispatchLinkLoop] at h
  | cons n ns ih =>
    intro seen s
    rcases hc : (s.ctrls n).current with _ | i
    · refine ⟨fun s' h => ?_, fun e s' h => ?_⟩
      all_goals
        simp only [dispatchLinkLoop] at h
      all_goals
        rw [hc] at h
      · simp at h
      · simp at h
        exact h.2 ▸ frameD_unlinkClear _ s
    · by_cases hok : (s.declOf i).linkOk = true
      · have hli : linkInst s i = .ok (s.updInst i fun t => { t with linked := true }) := by
          simp [linkInst, hok]
        refine ⟨fun s' h => ?_, fun e s' h => ?_⟩
        all_goals
          simp only [dispatchLinkLoop] at h
        all_goals
          rw [hc] at h
        all_goals
          dsimp only at h
        all_goals
          rw [hli] at h
        all_goals
          dsimp only at h
        · exact (ih (seen ++ [n]) (s.updInst i fun t => { t with linked := true })).1 s' h
        · exact (ih (seen ++ [n]) (s.updInst i fun t => { t with linked := true })).2 e s' h
      · have hli : linkInst s i = .error (.link i, s) := by
          simp [linkInst, hok]
        refine ⟨fun s' h => ?_, fun e s' h => ?_⟩
        all_goals
          simp only [dispatchLinkLoop] at h
        all_goals
          rw [hc] at h
        all_goals
          dsimp only at h
        all_goals
          rw [hli] at h
        all_goals
          simp at h
        exact h.2 ▸ frameD_unlinkClear _ s

theorem dispatchEvalLoop_frame :
    ∀ (l : List Nat) (s : St),
      (∀ s', dispatchEvalLoop l s = .ok s' → FrameD s s') ∧
      (∀ e s', dispatchEvalLoop l s = .error (e, s') → FrameD s s') := by
  intro l
  induction l with
  | nil =>
    intro s
    refine ⟨fun s' h => ?_, fun e s' h => ?_⟩
    · simp [dispatchEvalLoop] at h; exact h ▸ frameD_refl s
    · simp [dispatchEvalLoop] at h
  | cons n ns ih =>
    intro s
    rcases hc : (s.ctrls n).current with _ | i
    · refine ⟨fun s' h => ?_, fun e s' h => ?_⟩
      all_goals
        simp only [dispatchEvalLoop] at h
      all_goals
        rw [hc] at h
      · simp at h
      · simp at h
        exact h.2 ▸ frameD_refl s
    · have hf1 : FrameD s (if (s.ctrls n).staging = some i then
          s.updCtrl n fun c => { c with staging := none } else s) := by
        by_cases hst : (s.ctrls n).staging = some i
        · rw [if_pos hst]
          exact frameD_updCtrl s n _ (fun x => ⟨rfl, rfl, rfl, rfl⟩)
        · rw [if_neg hst]
          exact frameD_refl s
      rcases hev : evaluateInst (if (s.ctrls n).staging = some i then
          s.updCtrl n fun c => { c with staging := none } else s) i with ⟨e1, s2⟩ | s2
      · refine ⟨fun s' h => ?_, fun e s' h => ?_⟩
        all_goals
          simp only [dispatchEvalLoop] at h
        all_goals
          rw [hc] at h
        all_goals
          dsimp only at h
        all_goals
          rw [hev] at h
        · simp at h
        · simp at h
          refine h.2 ▸ frameD_trans hf1 (frameD_of_ctrls ?_)
          exact (evaluateInst_ctrls _ i).2 e1 s2 hev
      · refine ⟨fun s' h => ?_, fun e s' h => ?_⟩
        all_goals
          simp only [dispatchEvalLoop] at h
        all_goals
          rw [hc] at h
        all_goals
          dsimp only at h
        all_goals
          rw [hev] at h
        all_goals
          dsimp only at h
        · refine frameD_trans hf1 (frameD_trans (frameD_of_ctrls
            ((evaluateInst_ctrls _ i).1 s2 hev)) ((ih _).1 s' h))
        · refine frameD_trans hf1 (frameD_trans (frameD_of_ctrls
            ((evaluateInst_ctrls _ i).1 s2 hev)) ((ih _).2 e s' h))

theorem dispatchLinkPost_frame (cycle : List Nat) (fwd : List Unit) (s : St) :
    (∀ r s', dispatchLinkPost cycle fwd s = .ok (r, s') → FrameD s s') ∧
    (∀ e s', dispatchLinkPost cycle fwd s = .error (e, s') → FrameD s s') := by
  rcases hll : dispatchLinkLoop [] cycle s with ⟨e1, s1⟩ | s1
  all_goals
    refine ⟨fun r s' h => ?_, fun e s' h => ?_⟩
  all_goals
    simp only [dispatchLinkPost] at h
  all_goals
    rw [hll] at h
  all_goals
    simp at h
  · exact h.2 ▸ (dispatchLinkLoop_frame cycle [] s).2 e1 s1 hll
  · exact h ▸ (dispatchLinkLoop_frame cycle [] s).1 s1 hll

theorem dispatchEvalPost_frame (cycle : List Nat) (fwd : List Unit) (s : St) :
    (∀ r s', dispatchEvalPost cycle fwd s = .ok (r, s') → FrameD s s') ∧
    (∀ e s', dispatchEvalPost cycle fwd s = .error (e, s') → FrameD s s') := by
  rcases hll : dispatchEvalLoop cycle s with ⟨e1, s1⟩ | s1
  all_goals
    refine ⟨fun r s' h => ?_, fun e s' h => ?_⟩
  all_goals
    simp only [dispatchEvalPost] at h
  all_goals
    rw [hll] at h
  all_goals
    simp at h
  · exact h.2 ▸ (dispatchEvalLoop_frame cycle s).2 e1 s1 hll
  · exact h ▸ (dispatchEvalLoop_frame cycle s).1 s1 hll

theorem dispatch_frame (fuel : Nat) (s : St) (root : Nat) :
    (∀ s', dispatch fuel s root = .ok s' → FrameD s s') ∧
    (∀ e s', dispatch fuel s root = .error (e, s') → FrameD s s') := by
  have hrel1 := traverseDF_rel fuel root dispatchGuard dispatchPre dispatchChildren
    dispatchLinkPost unlinkClear .assertion s frameD_refl
    (fun h1 h2 => frameD_trans h1 h2) (fun n s => frameD_dispatchPre n s)
    (fun scc fwd s r s' h => (dispatchLinkPost_frame scc fwd s).1 r s' h)
    (fun scc fwd s e s' h => (dispatchLinkPost_frame scc fwd s).2 e s' h)
    (fun ns s => frameD_unlinkClear ns s)
  by_cases hcs : (s.ctrls root).current.isSome = true
  · refine ⟨fun s' h => ?_, fun e s' h => ?_⟩
    all_goals
      simp only [dispatch] at h
    all_goals
      rw [if_pos hcs] at h
    · cases h
      exact frameD_refl s
    · cases h
  · rcases htr : (traverseDF fuel root dispatchGuard dispatchPre dispatchChildren
        dispatchLinkPost unlinkClear .assertion s).2 with ⟨e1, s1⟩ | r1
    · refine ⟨fun s' h => ?_, fun e s' h => ?_⟩
      all_goals
        simp only [dispatch] at h
      all_goals
        rw [if_neg hcs] at h
      all_goals
        rw [htr] at h
      · simp at h
      · simp at h
        exact h.2 ▸ hrel1.2 e1 s1 htr
    · have hf1 : FrameD s r1.2 := hrel1.1 r1.1 r1.2 (by rw [htr])
      have hrel2 := traverseDF_rel fuel root dispatchEvalGuard (fun _ s => s)
        dispatchChildren dispatchEvalPost (fun _ s => s) .assertion r1.2 frameD_refl
        (fun h1 h2 => frameD_trans h1 h2) (fun n s => frameD_refl s)
        (fun scc fwd s r s' h => (dispatchEvalPost_frame scc fwd s).1 r s' h)
        (fun scc fwd s e s' h => (dispatchEvalPost_frame scc fwd s).2 e s' h)
        (fun ns s => frameD_refl s)
      rcases htr2 : (traverseDF fuel root dispatchEvalGuard (fun _ s => s)
          dispatchChildren dispatchEvalPost (fun _ s => s) .assertion r1.2).2
        with ⟨e2, s2⟩ | r2
      · refine ⟨fun s' h => ?_, fun e s' h => ?_⟩
        all_goals
          simp only [dispatch] at h
        all_goals
          rw [if_neg hcs] at h
        all_goals
          rw [htr] at h
        all_goals
          dsimp only at h
        all_goals
          rw [htr2] at h
        · simp at h
        · simp at h
          exact h.2 ▸ frameD_trans hf1 (hrel2.2 e2 s2 htr2)
      · refine ⟨fun s' h => ?_, fun e s' h => ?_⟩
        all_goals
          simp only [dispatch] at h
        all_goals
          rw [if_neg hcs] at h
        all_goals
          rw [htr] at h
        all_goals
          dsimp only at h
        all_goals
          rw [htr2] at h
        · simp at h
          exact h ▸ frameD_trans hf1 (hrel2.1 r2.1 r2.2 (by rw [htr2]))
        · simp at h

theorem finalizePrevLoop_ok_pending :
    ∀ (l : List Nat) (s s' : St), finalizePrevLoop l s = .ok s' →
      ∀ c, c ∈ l → (s'.ctrls c).pending = none := by
  intro l
  induction l with
  | nil =>
    intro s s' h c hc
    exact absurd hc (List.not_mem_nil c)
  | cons n ns ih =>
    intro s s' h c hc
    rcases hp : (s.ctrls n).pending with _ | p
    · simp only [finalizePrevLoop] at h
      rw [hp] at h
      dsimp only at h
      rcases List.mem_cons.mp hc with hcn | hcn
      · subst hcn
        obtain ⟨hff, _, _⟩ := (finalizePrevLoop_spec ns _).1 s' h
        rw [(hff.2.2.2.2 c).2.1, updCtrl_ctrl_same]
        exact hp
      · exact ih _ s' h c hcn
    · simp only [finalizePrevLoop] at h
      rw [hp] at h
      simp at h

/-- **C9** (amended): after a `requestUpdate` that returns `success`,
every controller in the recomputed reachable set — `this.traverse()`,
which yields only the root's *proper* descendants — has `pending` and
`previous` cleared, and the commit left every `temporary` exactly as the
link test left it; and a successful `dispatch` never touches any
controller's `pending`, `previous` or `temporary`.  The root controller
itself is not part of that set, and its `previous` in fact survives a
success (see `successLeavesRootPrevious`), so the claim as stated does
not hold for the root. -/
theorem successClearsSlots (fuel root : Nat) (s : St) (tj : TravInfo)
    (ir : DryRunResult) (s1 s2 : St) (prevCs : List Nat) (rr : RunResult)
    (s3 : St) (ys : List Nat) (s5 : St)
    (hfatal : (s.ctrls root).fatalError = none)
    (h1 : phase1Run fuel root { s with statLoads := 0, statReevals := 0, scratch := [] } =
      (tj, .ok (some ir, s1)))
    (hnd : ir.needsDispatch = true) (hdec : ir.hasDecline = false)
    (hinv : ir.invalidated.isEmpty = true)
    (hlt : linkTestSegment fuel root ir.hasNewCode tj.sccs.flatten s1 = .ok s2)
    (hprev : traverseList fuel s2 root = .ok prevCs)
    (h3 : (phase3Run fuel root s2).2 = .ok (some rr, s3))
    (htdu : rr.treeDidUpdate = true)
    (hys : traverseList fuel s3 root = .ok ys)
    (hfin : finalizeCore fuel root prevCs s3 = .ok (none, s5)) :
    requestUpdate fuel s root = (.ret (some (.success (statsOf s3))), s5) ∧
    (∀ c, c ∈ ys → (s5.ctrls c).pending = none ∧ (s5.ctrls c).previous = none) ∧
    (∀ c, (s5.ctrls c).temporary = (s2.ctrls c).temporary) ∧
    (∀ (fuel2 root2 : Nat) (t t' : St), dispatch fuel2 t root2 = .ok t' →
      ∀ c, (t'.ctrls c).pending = (t.ctrls c).pending ∧
        (t'.ctrls c).previous = (t.ctrls c).previous ∧
        (t'.ctrls c).temporary = (t.ctrls c).temporary) := by
  have hfin2 := hfin
  simp only [finalizeCore] at hfin2
  rw [hys] at hfin2
  dsimp only at hfin2
  rcases hfp : finalizePrevLoop ys s3 with ⟨e1, s4⟩ | s4
  · rw [hfp] at hfin2
    simp at hfin2
  · rw [hfp] at hfin2
    dsimp only at hfin2
    obtain ⟨hff, hprevmem, _⟩ := (finalizePrevLoop_spec ys s3).1 s4 hfp
    have hpend4 : ∀ c, c ∈ ys → (s4.ctrls c).pending = none :=
      fun c hc => finalizePrevLoop_ok_pending ys s3 s4 hfp c hc
    obtain ⟨hkp, _⟩ := (pruneLoop_keep root ys prevCs s4).1 none s5 hfin2
    refine ⟨?_, fun c hc => ⟨?_, ?_⟩, fun c => ?_, ?_⟩
    · simp only [requestUpdate]
      rw [hfatal]
      dsimp only
      rw [h1]
      dsimp only
      rw [if_neg (by simp [hnd])]
      rw [if_neg (by simp [hdec])]
      rw [if_neg (by simp [hinv])]
      rw [hlt]
      dsimp only
      rw [hprev]
      dsimp only
      simp only [commitAndFinalize]
      rw [h3]
      dsimp only
      rw [if_pos htdu]
      simp only [runFinalize]
      rw [hfin]
    · rw [hkp.2.1 c, hpend4 c hc]
    · rcases hkp.2.2.2 c with hd | hd
      · rw [hd, hprevmem c hc]
      · exact hd
    · rw [hkp.2.2.1 c, (hff.2.2.2.2 c).2.2.2.1]
      exact (((phase3_frame fuel root s2).1 (some rr) s3 h3).2.2.2.2 c).2.1
    · intro fuel2 root2 t t' h c
      obtain ⟨hp, hq, ht, _⟩ := (dispatch_frame fuel2 t root2).1 t' h c
      exact ⟨hp, hq, ht⟩

def exC9 : St :=
  mkSt
    [{ loadedModules := [1], acceptedDeps := [1] }, {}, {}]
    [{ declId := 0, linked := true, evaluated := true },
     { declId := 1, linked := true, evaluated := true },
     { declId := 2 }]
    [(0, { current := some 0 }), (1, { current := some 1, staging := some 2 })]

/-- C9 (divergence): on `exC9`, `requestUpdate` returns a `success`
result, yet afterwards the root controller still has
`previous = some 0 ≠ undefined`: the final consumer loop iterates
`this.traverse()`, which yields only the root's proper descendants, so
the root's own `previous` is never cleared on the success path. -/
theorem successLeavesRootPrevious :
    (requestUpdate 20 exC9 0).1 = .ret (some (.success ⟨1, 0⟩)) ∧
    ((requestUpdate 20 exC9 0).2.ctrls 0).previous = some 0 :=
  ⟨rfl, rfl⟩

def c9s0 : St := { exC9 with statLoads := 0, statReevals := 0, scratch := [] }

def c9s2 : St :=
  match linkTestSegment 20 0 (p1res 20 0 c9s0).hasNewCode
      (p1tj 20 0 c9s0).sccs.flatten (p1st 20 0 c9s0) with
  | .ok t => t
  | .error (_, t) => t

def c9prev : List Nat :=
  match traverseList 20 c9s2 0 with
  | .ok l => l
  | .error _ => []

def c9rr : RunResult :=
  match (phase3Run 20 0 c9s2).2 with
  | .ok (some r, _) => r
  | _ => ⟨[], [], false⟩

def c9s3 : St :=
  match (phase3Run 20 0 c9s2).2 with
  | .ok (_, t) => t
  | .error (_, t) => t

def c9ys : List Nat :=
  match traverseList 20 c9s3 0 with
  | .ok l => l
  | .error _ => []

def c9s5 : St :=
  match finalizeCore 20 0 c9prev c9s3 with
  | .ok (_, t) => t
  | .error (_, t) => t

theorem successClearsSlots_witness :
    requestUpdate 20 exC9 0 = (.ret (some (.success ⟨1, 0⟩)), c9s5) ∧
    (c9s5.ctrls 1).pending = none ∧ (c9s5.ctrls 1).previous = none := by
  have h := successClearsSlots 20 0 exC9 (p1tj 20 0 c9s0) (p1res 20 0 c9s0)
    (p1st 20 0 c9s0) c9s2 c9prev c9rr c9s3 c9ys c9s5 rfl (by rfl) (by rfl) (by rfl)
    (by rfl) (by rfl) (by rfl) (by rfl) (by rfl) (by rfl) (by rfl)
  have h1 := h.1
  rw [show statsOf c9s3 = (⟨1, 0⟩ : UpdateStats) from rfl] at h1
  exact ⟨h1, h.2.1 1 (by decide)⟩

theorem rollbackEvalSeen_spec :
    ∀ (l : List Nat) (t : St), l.Nodup → ∀ t', rollbackEvalSeen l t = .ok t' →
      (∀ c, c ∉ l → t'.ctrls c = t.ctrls c) ∧
      (∀ n, n ∈ l → ∃ i, (t.ctrls n).current = some i ∧ (t.insts i).evaluated = true ∧
        ((t.insts i).evaluationError ≠ none →
          (t'.ctrls n).current = (t.ctrls n).previous) ∧
        ((t.insts i).evaluationError = none →
          (t'.ctrls n).current = (t.ctrls n).current)) := by
  intro l
  induction l with
  | nil =>
    intro t _ t' h
    simp [rollbackEvalSeen] at h
    exact ⟨fun c _ => h ▸ rfl, fun n hn => absurd hn (List.not_mem_nil n)⟩
  | cons n ns ih =>
    intro t hnd t' h
    obtain ⟨hnns, hndns⟩ := List.nodup_cons.mp hnd
    rcases hc : (t.ctrls n).current with _ | i
    · simp [rollbackEvalSeen, hc] at h
    · by_cases hev : (t.insts i).evaluated = true
      · by_cases herr : (t.insts i).evaluationError = none
        · simp only [rollbackEvalSeen] at h
          rw [hc] at h
          simp only [hev, herr, Bool.not_true, ne_eq, not_true_eq_false, if_neg,
            if_false, Bool.false_eq_true, ite_false] at h
          obtain ⟨hfr, hmem⟩ := ih t hndns t' h
          refine ⟨fun c hcm => hfr c (fun hcc => hcm (List.mem_cons_of_mem n hcc)),
            fun y hy => ?_⟩
          rcases List.mem_cons.mp hy with hyn | hyn
          · subst hyn
            refine ⟨i, hc, hev, fun hctr => absurd herr hctr, fun _ => ?_⟩
            rw [hfr y hnns]
          · exact hmem y hyn
        · simp only [rollbackEvalSeen] at h
          rw [hc] at h
          simp only [hev, herr, Bool.not_true, ne_eq, not_false_eq_true, if_true,
            Bool.false_eq_true, ite_false, ite_true] at h
          obtain ⟨hfr, hmem⟩ := ih _ hndns t' h
          have hfrn := hfr n hnns
          rw [updCtrl_ctrl_same] at hfrn
          refine ⟨fun c hcm => ?_, fun y hy => ?_⟩
          · have hcn : c ≠ n := fun hcc => hcm (hcc ▸ List.mem_cons_self n ns)
            rw [hfr c (fun hcc => hcm (List.mem_cons_of_mem n hcc)),
              updCtrl_ctrl_ne _ _ hcn]
          · rcases List.mem_cons.mp hy with hyn | hyn
            · subst hyn
              refine ⟨i, hc, hev, fun _ => ?_, fun he => absurd he herr⟩
              rw [hfrn]
            · have hyne : y ≠ n := fun hyy => hnns (hyy ▸ hyn)
              obtain ⟨i2, hci2, hev2, hsome2, hnone2⟩ := hmem y hyn
              rw [updCtrl_ctrl_ne _ _ hyne] at hci2
              refine ⟨i2, hci2, hev2, fun he => ?_, fun he => ?_⟩
              · rw [hsome2 he, updCtrl_ctrl_ne _ _ hyne]
              · rw [hnone2 he, updCtrl_ctrl_ne _ _ hyne]
      · simp only [rollbackEvalSeen] at h
        rw [hc] at h
        simp only [hev, Bool.not_false, if_true, ite_true] at h
        simp at h

theorem relinkLoop_linked_mono :
    ∀ (l : List Nat) (t t' : St), relinkLoop l t = .ok t' →
      (∀ c, t'.ctrls c = t.ctrls c) ∧
      (∀ i, (t.insts i).linked = true → (t'.insts i).linked = true) := by
  intro l
  induction l with
  | nil =>
    intro t t' h
    simp [relinkLoop] at h
    exact ⟨fun c => h ▸ rfl, fun i hi => h ▸ hi⟩
  | cons n ns ih =>
    intro t t' h
    rcases hc : (t.ctrls n).current with _ | i
    · simp [relinkLoop, hc] at h
    · simp only [relinkLoop] at h
      rw [hc] at h
      dsimp only at h
      obtain ⟨hfr, hmono⟩ := ih (relinkInst t i) t' h
      refine ⟨fun c => (hfr c).trans rfl, fun j hj => ?_⟩
      refine hmono j ?_
      by_cases hji : j = i
      · subst hji
        rw [relinkInst, updInst_inst_same]
      · rw [relinkInst, updInst_inst_ne t _ hji]
        exact hj

theorem relinkLoop_relinks :
    ∀ (l : List Nat) (t t' : St), relinkLoop l t = .ok t' →
      ∀ n, n ∈ l → ∃ i, (t.ctrls n).current = some i ∧ (t'.insts i).linked = true := by
  intro l
  induction l with
  | nil =>
    intro t t' h n hn
    exact absurd hn (List.not_mem_nil n)
  | cons m ns ih =>
    intro t t' h n hn
    rcases hc : (t.ctrls m).current with _ | i
    · simp [relinkLoop, hc] at h
    · simp only [relinkLoop] at h
      rw [hc] at h
      dsimp only at h
      rcases List.mem_cons.mp hn with hnm | hnm
      · subst hnm
        refine ⟨i, hc, ?_⟩
        refine (relinkLoop_linked_mono ns (relinkInst t i) t' h).2 i ?_
        rw [relinkInst, updInst_inst_same]
      · obtain ⟨i2, hci2, hl2⟩ := ih (relinkInst t i) t' h n hnm
        exact ⟨i2, hci2.trans rfl, hl2⟩

/-- **C1** (amended): when a replaced member's evaluation throws in phase
3, the iterate-with-rollback wrapper reverts `current` to `previous` on
every already-evaluated member whose instance has `evaluationError` set;
the catch-block traversal then discards the `pending` of (and unlinks)
every controller it reaches and relinks every `current` instance it
reaches — but it walks the *current* view, so a pending on a controller
unreachable in that view survives (see `evalFailureLeavesPending`) —
and `requestUpdate` returns `evaluationFailure` carrying the error, or
the recorded sticky `fatalError` result when the throw came from a user
`dispose` callback. -/
theorem evalFailureCleanup (fuel root : Nat) (s : St) (tj : TravInfo)
    (ir : DryRunResult) (s1 s2 s3 s4 : St) (prevCs : List Nat)
    (fatal : Bool) (e : Err)
    (hfatal : (s.ctrls root).fatalError = none)
    (h1 : phase1Run fuel root { s with statLoads := 0, statReevals := 0, scratch := [] } =
      (tj, .ok (some ir, s1)))
    (hnd : ir.needsDispatch = true) (hdec : ir.hasDecline = false)
    (hinv : ir.invalidated.isEmpty = true)
    (hlt : linkTestSegment fuel root ir.hasNewCode tj.sccs.flatten s1 = .ok s2)
    (hprev : traverseList fuel s2 root = .ok prevCs)
    (h3 : (phase3Run fuel root s2).2 = .error ((fatal, e), s3))
    (hcc : catchCleanup fuel root s3 = .ok s4) :
    (fatal = false → ∀ s5, finalizeCore fuel root prevCs s4 = .ok (none, s5) →
      requestUpdate fuel s root =
        (.ret (some (.evaluationFailure e (statsOf s4))), s5)) ∧
    (fatal = true → ∀ s5,
      finalizeCore fuel root prevCs (setFatal root e s4) = .ok (none, s5) →
      requestUpdate fuel s root = (.ret (some (.fatalError e)), s5) ∧
      (s5.ctrls root).fatalError = some e) ∧
    (∀ (l : List Nat) (t t' : St), l.Nodup → rollbackEvalSeen l t = .ok t' →
      ∀ n, n ∈ l → ∃ i, (t.ctrls n).current = some i ∧ (t.insts i).evaluated = true ∧
        ((t.insts i).evaluationError ≠ none →
          (t'.ctrls n).current = (t.ctrls n).previous) ∧
        ((t.insts i).evaluationError = none →
          (t'.ctrls n).current = (t.ctrls n).current)) ∧
    (∀ (n : Nat) (t : St), ((cleanupPre n t).ctrls n).pending = none ∧
      ∀ p, (t.ctrls n).pending = some p → ((cleanupPre n t).insts p).linked = false) ∧
    (∀ (l : List Nat) (t t' : St), relinkLoop l t = .ok t' →
      ∀ n, n ∈ l → ∃ i, (t.ctrls n).current = some i ∧ (t'.insts i).linked = true) := by
  have hred : ∀ cand : Option UpdateResult,
      requestUpdate fuel s root =
        (match (phase3Run fuel root s2).2 with
          | .ok (rr?, s3) =>
            runFinalize fuel root prevCs
              (match rr? with
                | some rr => if rr.treeDidUpdate then some (.success (statsOf s3)) else none
                | none => none) s3
          | .error ((fatal, e), s3) =>
            match catchCleanup fuel root s3 with
            | .error (e2, s4) =>
              match finalizeCore fuel root prevCs s4 with
              | .error (e3, s5) => (.thrown e3, s5)
              | .ok (some r, s5) => (.ret (some r), s5)
              | .ok (none, s5) => (.thrown e2, s5)
            | .ok s4 =>
              if fatal then
                runFinalize fuel root prevCs (some (.fatalError e)) (setFatal root e s4)
              else
                runFinalize fuel root prevCs (some (.evaluationFailure e (statsOf s4))) s4) := by
    intro _
    simp only [requestUpdate]
    rw [hfatal]
    dsimp only
    rw [h1]
    dsimp only
    rw [if_neg (by simp [hnd])]
    rw [if_neg (by simp [hdec])]
    rw [if_neg (by simp [hinv])]
    rw [hlt]
    dsimp only
    rw [hprev]
    dsimp only
    rw [commitAndFinalize]
  refine ⟨fun hf s5 hfin => ?_, fun hf s5 hfin => ?_, ?_, ?_, ?_⟩
  · rw [hred none, h3]
    try dsimp only
    rw [hcc]
    try dsimp only
    rw [hf]
    try dsimp only
    simp only [Bool.false_eq_true, if_false, ite_false, runFinalize]
    rw [hfin]
  · constructor
    · rw [hred none, h3]
      try dsimp only
      rw [hcc]
      try dsimp only
      rw [hf]
      try dsimp only
      simp only [if_true, ite_true, runFinalize]
      rw [hfin]
    · have hfin2 := hfin
      simp only [finalizeCore] at hfin2
      rcases htl2 : traverseList fuel (setFatal root e s4) root with e0 | ys2
      · rw [htl2] at hfin2
        simp at hfin2
      · rw [htl2] at hfin2
        dsimp only at hfin2
        rcases hfp : finalizePrevLoop ys2 (setFatal root e s4) with ⟨e1, s4b⟩ | s4b
        · rw [hfp] at hfin2
          simp at hfin2
        · rw [hfp] at hfin2
          dsimp only at hfin2
          obtain ⟨hkp, hfat⟩ := (pruneLoop_keep root ys2 prevCs s4b).1 none s5 hfin2
          rw [hfat rfl root]
          obtain ⟨hff, _, _⟩ := (finalizePrevLoop_spec ys2 _).1 s4b hfp
          rw [(hff.2.2.2.2 root).2.2.2.2.1]
          rw [setFatal, updCtrl_ctrl_same]
  · intro l t t' hndl hrb n hn
    exact (rollbackEvalSeen_spec l t hndl t' hrb).2 n hn
  · intro n t
    rcases hp : (t.ctrls n).pending with _ | p
    · have hcp : cleanupPre n t = t := by
        unfold cleanupPre
        rw [hp]
      rw [hcp]
      refine ⟨hp, fun p hpp => ?_⟩
      cases hpp
    · have hcp : cleanupPre n t =
          (unlinkInst t p).2.updCtrl n fun c => { c with pending := none } := by
        unfold cleanupPre
        rw [hp]
      rw [hcp]
      refine ⟨by rw [updCtrl_ctrl_same], fun q hq => ?_⟩
      cases hq
      rw [updCtrl_insts]
      rw [show (unlinkInst t p).2 = t.updInst p fun x =>
        { x with linked := false } from rfl]
      rw [updInst_inst_same]
  · intro l t t' hrl n hn
    exact relinkLoop_relinks l t t' hrl n hn

def sC1 : St :=
  mkSt
    [{ loadedModules := [1], acceptsSelf := true },
     { loadedModules := [1, 2] },
     {},
     { evalError := some 7 },
     {}]
    [{ declId := 0, linked := true, evaluated := true },
     { declId := 1 },
     { declId := 2, linked := true, evaluated := true },
     { declId := 3 },
     { declId := 4 }]
    [(0, { current := some 0, staging := some 1 }),
     (1, { current := some 2, staging := some 3 }),
     (2, { staging := some 4 })]

/-- C1 (divergence): on `sC1` a replaced member's evaluation throws and
`requestUpdate` returns `evaluationFailure`, yet controller 2 — posted a
pending instance in phase 1 but unreachable in the *current* view the
catch-block traversal walks — still has `pending = some 4` afterwards:
the catch does not unlink "every remaining pending instance". -/
theorem evalFailureLeavesPending :
    (requestUpdate 20 sC1 0).1 =
      .ret (some (.evaluationFailure (.user 7) ⟨1, 0⟩)) ∧
    ((requestUpdate 20 sC1 0).2.ctrls 2).pending = some 4 :=
  ⟨rfl, rfl⟩

def c1s0 : St := { sC1 with statLoads := 0, statReevals := 0, scratch := [] }

def c1s2 : St :=
  match linkTestSegment 20 0 (p1res 20 0 c1s0).hasNewCode
      (p1tj 20 0 c1s0).sccs.flatten (p1st 20 0 c1s0) with
  | .ok t => t
  | .error (_, t) => t

def c1prev : List Nat :=
  match traverseList 20 c1s2 0 with
  | .ok l => l
  | .error _ => []

def c1s3 : St :=
  match (phase3Run 20 0 c1s2).2 with
  | .ok (_, t) => t
  | .error (_, t) => t

def c1s4 : St :=
  match catchCleanup 20 0 c1s3 with
  | .ok t => t
  | .error (_, t) => t

def c1s5 : St :=
  match finalizeCore 20 0 c1prev c1s4 with
  | .ok (_, t) => t
  | .error (_, t) => t

theorem evalFailureCleanup_witness :
    requestUpdate 20 sC1 0 =
      (.ret (some (.evaluationFailure (.user 7) ⟨1, 0⟩)), c1s5) := by
  have h := evalFailureCleanup 20 0 sC1 (p1tj 20 0 c1s0) (p1res 20 0 c1s0)
    (p1st 20 0 c1s0) c1s2 c1s3 c1s4 c1prev false (.user 7) rfl (by rfl) (by rfl)
    (by rfl) (by rfl) (by rfl) (by rfl) (by rfl) (by rfl)
  have h1 := h.1 rfl c1s5 (by rfl)
  rw [show statsOf c1s4 = (⟨1, 0⟩ : UpdateStats) from rfl] at h1
  exact h1
